import Mathlib

/-!
# Recepify import-cache verification

A shallow embedding, in Lean 4, of the recipe-import cache layer of the
`recepify` backend (`backend/app/services/import_cache.py`, together with the
helpers it uses from `import_utils.py` and the screenshot-OCR step of
`import_instagram.py`).

Modelling conventions:

* Python `str` values are Lean `String`s (sequences of Unicode scalar values).
  Python's `str.lower` is modelled by `pyLower`, which is exact on ASCII and on
  the German letters Ä/Ö/Ü that occur in this code base's data; all other
  characters are left unchanged.
* Python `datetime` instants are modelled as integer Unix timestamps in
  seconds (`Int`); `timedelta(days = n)` is `n * 86400` seconds.  The
  `tzinfo` adjustment in `_should_reimport` only converts a naive timestamp to
  an aware one without changing the instant, so it is invisible at this level.
* `uuid4()` results are modelled as `Nat` values supplied as explicit
  parameters (`freshRowId`, `freshGroupId`).
* A SQL table is a `List` of rows; `session.add` of a new row appends it, and
  mutating a loaded row rewrites the row with the same primary key.
* Python dictionaries produced by the fetchers are modelled by the structure
  `RecipeData`; an absent key is `none`, and Python truthiness of an optional
  string (`None` and `""` are falsy) is `pyTruthy`.
-/

/-! ## Python string helpers (`import_utils.clean_text`, `str.lower`, `str.strip`) -/

/-- The characters matched by Python's `\s` regex class and stripped by
`str.strip()`, restricted to the character repertoire this model covers:
the ASCII whitespace characters, the C1/Latin-1 whitespace and the Unicode
space separators that `str.isspace` accepts. -/
def isPySpace (c : Char) : Bool :=
  c == ' ' || c == '\t' || c == '\n' || c == '\r' || c.toNat == 0x0b || c.toNat == 0x0c ||
  (0x1c <= c.toNat && c.toNat <= 0x1f) || c.toNat == 0x85 || c.toNat == 0xa0 ||
  c.toNat == 0x1680 || (0x2000 <= c.toNat && c.toNat <= 0x200a) ||
  c.toNat == 0x2028 || c.toNat == 0x2029 || c.toNat == 0x202f ||
  c.toNat == 0x205f || c.toNat == 0x3000

/-- `str.lower` on a single character: exact on ASCII `A`–`Z` and on Ä/Ö/Ü;
other characters (already lower-case or caseless in the data handled by the
program) are unchanged. -/
def pyLowerChar (c : Char) : Char :=
  if 'A' ≤ c && c ≤ 'Z' then Char.ofNat (c.toNat + 32)
  else if c == 'Ä' then 'ä'
  else if c == 'Ö' then 'ö'
  else if c == 'Ü' then 'ü'
  else c

/-- `str.lower` on a whole string. -/
def pyLower (s : String) : String :=
  ⟨s.data.map pyLowerChar⟩

/-- Helper of `collapseWs`: the flag records whether the previous character
belonged to a whitespace run that has already emitted its single space. -/
def collapseWsAux : Bool → List Char → List Char
  | _, [] => []
  | prevSpace, c :: rest =>
    if isPySpace c then
      if prevSpace then collapseWsAux true rest
      else ' ' :: collapseWsAux true rest
    else c :: collapseWsAux false rest

/-- Replace each maximal run of whitespace by a single space
(the `re.sub(r"\s+", " ", value)` part of `clean_text`). -/
def collapseWs (l : List Char) : List Char :=
  collapseWsAux false l

/-- Python `str.strip()` on a character list. -/
def stripChars (l : List Char) : List Char :=
  ((l.dropWhile isPySpace).reverse.dropWhile isPySpace).reverse

/-- `import_utils.clean_text`: collapse every whitespace run to a single
space, then strip; `clean_text(None)` is `""`, which the `Option` wrapper
`cleanTextOpt` handles. -/
def cleanText (s : String) : String :=
  ⟨stripChars (collapseWs s.data)⟩

/-- `clean_text(value)` where `value : Optional[str]` (`None` ↦ `""`). -/
def cleanTextOpt (v : Option String) : String :=
  cleanText (v.getD "")

/-- Python truthiness of an optional string: `None` and `""` are falsy. -/
def pyTruthy : Option String → Bool
  | none => false
  | some s => s ≠ ""

/-- Python `a or b` for an optional string `a` and a string default `b`. -/
def pyOrS (a : Option String) (b : String) : String :=
  match a with
  | none => b
  | some s => if s = "" then b else s

/-- Python `value or []` for an optional list. -/
def pyOrList {α : Type} (a : Option (List α)) : List α :=
  a.getD []

/-! ## Data model (`RecipeData` payload dictionaries and the `GlobalRecipe` row) -/

/-- One entry of the `"ingredients"` list of a fetched payload: a dict with
optional `line` / `name` / `amount` keys. -/
structure RecipeIngredient where
  line : Option String
  name : Option String
  amount : Option String
deriving Repr, DecidableEq

/-- One entry of the `"instructions"` list of a fetched payload: a dict with
an optional `stepNumber` and optional `text`. -/
structure RecipeStep where
  stepNumber : Option Int
  text : Option String
deriving Repr, DecidableEq

/-- The recipe payload dictionary exchanged between the fetchers and
`import_cache`; each field models the value found under the corresponding
camel-case key, `none` when the key is absent (Python `dict.get`). -/
structure RecipeData where
  title : Option String := none
  description : Option String := none
  mealType : Option String := none
  difficulty : Option String := none
  prepTime : Option String := none
  cookTime : Option String := none
  totalTime : Option String := none
  servings : Option String := none
  nutritionCalories : Option String := none
  nutritionProtein : Option String := none
  nutritionCarbs : Option String := none
  nutritionFat : Option String := none
  sourcePlatform : Option String := none
  sourceUrl : Option String := none
  sourceDomain : Option String := none
  mediaVideoUrl : Option String := none
  mediaImageUrl : Option String := none
  mediaLocalPath : Option String := none
  tags : Option (List String) := none
  ingredients : Option (List RecipeIngredient) := none
  instructions : Option (List RecipeStep) := none
deriving Repr, DecidableEq

/-- The `global_recipes` row (`app/models.py`, class `GlobalRecipe`). -/
structure GlobalRecipe where
  id : Nat
  source_url : String
  source_url_normalized : Option String := none
  source_domain : Option String := none
  source_platform : Option String := none
  language_code : Option String := none
  title : Option String := none
  description : Option String := none
  meal_type : Option String := none
  difficulty : Option String := none
  prep_time : Option String := none
  cook_time : Option String := none
  total_time : Option String := none
  servings : Option String := none
  nutrition_calories : Option String := none
  nutrition_protein : Option String := none
  nutrition_carbs : Option String := none
  nutrition_fat : Option String := none
  media_video_url : Option String := none
  media_image_url : Option String := none
  tags : List String := []
  ingredients : List RecipeIngredient := []
  steps : List RecipeStep := []
  quality_score : Int := 0
  is_complete : Bool := false
  missing_fields : List String := []
  last_fetched_at : Option Int := none
  canonical_hash : Option String := none
  canonical_group_id : Option Nat := none
  supersedes_id : Option Nat := none
  created_at : Int
  updated_at : Int
deriving Repr, DecidableEq

/-! ## Quality scoring (`import_cache._score_recipe`) -/

/-- Result triple of `_score_recipe`. -/
structure ScoreResult where
  score : Int
  is_complete : Bool
  missing : List String
deriving Repr, DecidableEq

/-- `import_cache._score_recipe`.  The Python function starts from
`score = 0` and an empty `missing` list and runs five `if` blocks in order
(title +10 / else append `"title"`, description +10, ingredients +35 / else
append `"ingredients"`, instructions +35 / else append `"steps"`, calories
+10); the sum and append-ordered list below are exactly that sequence of
updates. -/
def scoreRecipe (r : RecipeData) : ScoreResult :=
  let ingredients := pyOrList r.ingredients
  let instructions := pyOrList r.instructions
  let title := cleanTextOpt r.title
  let description := cleanTextOpt r.description
  { score :=
      (if title ≠ "" then (10 : Int) else 0) +
      (if description ≠ "" then 10 else 0) +
      (if ingredients ≠ [] then 35 else 0) +
      (if instructions ≠ [] then 35 else 0) +
      (if pyTruthy r.nutritionCalories then 10 else 0)
    is_complete := ingredients ≠ [] && instructions ≠ []
    missing :=
      (if title = "" then ["title"] else []) ++
      (if ingredients = [] then ["ingredients"] else []) ++
      (if instructions = [] then ["steps"] else []) }

/-! ## Comparison rule (`import_cache._is_better`) -/

/-- `import_cache._is_better`. -/
def isBetter (newScore : Int) (newComplete : Bool) (existing : GlobalRecipe) : Bool :=
  if existing.is_complete && !newComplete then false
  else if newComplete && !existing.is_complete then true
  else newScore > existing.quality_score

/-! ## Freshness rule (`import_cache._should_reimport`) -/

/-- `QUALITY_MIN_SCORE` (import_cache.py line 17). -/
def QUALITY_MIN_SCORE : Int := 70

/-- `FRESH_DAYS` (import_cache.py line 18). -/
def FRESH_DAYS : Int := 30

/-- Seconds per day: the model measures `datetime` instants in seconds. -/
def secondsPerDay : Int := 86400

/-- `import_cache._should_reimport`, with `now` the current UTC instant.
The naive-to-aware `tzinfo` fixup does not change the instant and so has no
counterpart here. -/
def shouldReimport (now : Int) : Option GlobalRecipe → Bool
  | none => true
  | some existing =>
    if !existing.is_complete then true
    else if existing.quality_score < QUALITY_MIN_SCORE then true
    else
      match existing.last_fetched_at with
      | none => true
      | some lastFetchedAt => now - lastFetchedAt > FRESH_DAYS * secondsPerDay

/-! ## Language detection (`import_cache.detect_language`) -/

/-- Does the character list start with the given needle? -/
def charsLead : List Char → List Char → Bool
  | _, [] => true
  | [], _ :: _ => false
  | a :: as, b :: bs => a == b && charsLead as bs

/-- Does the character list contain the needle as a contiguous run?
(Python's `needle in haystack` on strings.) -/
def charsHaveSub : List Char → List Char → Bool
  | [], needle => needle.isEmpty
  | a :: as, needle => charsLead (a :: as) needle || charsHaveSub as needle

/-- Python `needle in haystack` for strings. -/
def strContains (hay needle : String) : Bool :=
  charsHaveSub hay.data needle.data

/-- The `german_indicators` list (import_cache.py lines 108–122). -/
def germanIndicators : List String :=
  [" und ", " mit ", " zutaten", " ofen", " pfanne", " minuten", " gramm",
   " el ", " tl ", " die ", " der ", " das ", " zubereitung"]

/-- The `english_indicators` list (import_cache.py lines 123–136). -/
def englishIndicators : List String :=
  [" and ", " with ", " ingredients", " oven", " pan", " minutes", " tbsp",
   " tsp", " cups", " preheat", " bake", " serve"]

/-- The umlaut/eszett markers whose presence adds 2 to the German score. -/
def umlautMarkers : List String := ["ä", "ö", "ü", "ß"]

/-- The concatenated, cleaned, lower-cased text `detect_language` scans:
title, description, the space-joined ingredient names and the space-joined
step texts, keeping only truthy parts. -/
def detectText (r : RecipeData) : String :=
  let namesJoined :=
    String.intercalate " " ((pyOrList r.ingredients).map (fun i => i.name.getD ""))
  let textsJoined :=
    String.intercalate " " ((pyOrList r.instructions).map (fun s => s.text.getD ""))
  let parts : List (Option String) := [r.title, r.description, some namesJoined, some textsJoined]
  pyLower (String.intercalate " " ((parts.filter pyTruthy).map (fun v => cleanText (v.getD ""))))

/-- German score of a text: one per German indicator present, plus 2 if any
umlaut/eszett character occurs. -/
def germanCount (text : String) : Nat :=
  (germanIndicators.filter (fun token => strContains text token)).length +
    (if umlautMarkers.any (fun c => strContains text c) then 2 else 0)

/-- English score of a text: one per English indicator present. -/
def englishCount (text : String) : Nat :=
  (englishIndicators.filter (fun token => strContains text token)).length

/-- The decision step of `detect_language` on the prepared text. -/
def langDecision (text : String) : String :=
  if text = "" then "en"
  else if germanCount text > englishCount text then "de" else "en"

/-- `import_cache.detect_language`. -/
def detectLanguage (r : RecipeData) : String :=
  langDecision (detectText r)

/-! ## Cache-row payload view (`import_cache._to_recipe_payload`) -/

/-- `import_cache._to_recipe_payload`. -/
def toRecipePayload (g : GlobalRecipe) : RecipeData :=
  { title := g.title
    description := g.description
    mealType := g.meal_type
    difficulty := g.difficulty
    prepTime := g.prep_time
    cookTime := g.cook_time
    totalTime := g.total_time
    servings := g.servings
    nutritionCalories := g.nutrition_calories
    nutritionProtein := g.nutrition_protein
    nutritionCarbs := g.nutrition_carbs
    nutritionFat := g.nutrition_fat
    sourcePlatform := g.source_platform
    sourceUrl := some g.source_url
    sourceDomain := g.source_domain
    mediaVideoUrl := g.media_video_url
    mediaImageUrl := g.media_image_url
    mediaLocalPath := none
    tags := some g.tags
    ingredients := some g.ingredients
    instructions := some g.steps }

/-! ## Instagram screenshot-OCR last resort (`import_instagram._needs_ocr` and
the OCR block of `import_instagram.import_instagram`) -/

/-- One `_IngredientLine` of the Instagram structuring schema. -/
structure IgIngredientLine where
  name : String
  amount : Option String := none
deriving Repr, DecidableEq

/-- The `_InstagramRecipe` structuring schema (import_instagram.py lines
48–67), restricted to the fields the OCR stage reads. -/
structure InstagramRecipe where
  title : String
  description : Option String := none
  servings : Option String := none
  time_total : Option String := none
  time_prep : Option String := none
  time_cook : Option String := none
  ingredients : List IgIngredientLine
  steps : List String
  tags : List String := []
  source_url : String := ""
  source_domain : String := ""
  source_platform : String := "instagram"
  extracted_via : String := ""
  missing_fields : List String := []
deriving Repr, DecidableEq

/-- `import_instagram._needs_ocr`. -/
def needsOcr (recipe : InstagramRecipe) : Bool :=
  recipe.ingredients.length == 0 || recipe.steps.length == 0

/-- Result of the screenshot-OCR block: the recipe kept afterwards and
whether the block ran OCR (`_ocr_from_image`) at all. -/
structure OcrStageResult where
  recipe : InstagramRecipe
  ocrAttempted : Bool
deriving Repr, DecidableEq

/-- The screenshot-OCR block of `import_instagram.import_instagram`
(lines 498–513).  `screenshotPath` is `rescue["screenshot_path"]`;
`ocrText` is what `_ocr_from_image` would return for it and `recipeOcr`
what the re-run structuring call would produce — both are oracle
parameters because they come from external services. -/
def ocrRescueStage (recipe : InstagramRecipe) (screenshotPath : Option String)
    (ocrText : String) (recipeOcr : InstagramRecipe) : OcrStageResult :=
  if needsOcr recipe && screenshotPath.isSome then
    if ocrText ≠ "" then
      if recipeOcr.ingredients.length + recipeOcr.steps.length >
          recipe.ingredients.length + recipe.steps.length then
        { recipe := recipeOcr, ocrAttempted := true }
      else
        { recipe := recipe, ocrAttempted := true }
    else
      { recipe := recipe, ocrAttempted := true }
  else
    { recipe := recipe, ocrAttempted := false }

/-! ## Helper lemmas -/

/-- Filtering with pointwise-equal predicates gives equal lists. -/
theorem listFilterCongr {α : Type} (p q : α → Bool) :
    ∀ l : List α, (∀ x ∈ l, p x = q x) → l.filter p = l.filter q := by
  intro l
  induction l with
  | nil => intro _; rfl
  | cons a as ih =>
    intro h
    have ha := h a (by simp)
    have ht := ih (fun x hx => h x (by simp [hx]))
    simp only [List.filter, ha, ht]

/-- `List.any` with pointwise-equal predicates gives equal results. -/
theorem listAnyCongr {α : Type} (p q : α → Bool) :
    ∀ l : List α, (∀ x ∈ l, p x = q x) → l.any p = l.any q := by
  intro l
  induction l with
  | nil => intro _; rfl
  | cons a as ih =>
    intro h
    have ha := h a (by simp)
    have ht := ih (fun x hx => h x (by simp [hx]))
    simp only [List.any, ha, ht]

/-- A sample cache row used by the witness instances below. -/
def sampleRow : GlobalRecipe :=
  { id := 1
    source_url := "https://example.com/r"
    created_at := 0
    updated_at := 0 }

/-! ## Claim theorems: comparison rule, scorer, language detector -/

/-- C1: `_is_better` rejects a new result that would regress a complete
existing entry to incomplete; accepts a complete new result over an
incomplete existing entry regardless of either score; and otherwise accepts
exactly when the new score strictly exceeds the existing `quality_score`. -/
theorem C1_isBetter_comparison_rule (newScore : Int) (newComplete : Bool)
    (existing : GlobalRecipe) :
    (existing.is_complete = true → newComplete = false →
      isBetter newScore newComplete existing = false) ∧
    (newComplete = true → existing.is_complete = false →
      isBetter newScore newComplete existing = true) ∧
    (newComplete = existing.is_complete →
      (isBetter newScore newComplete existing = true ↔
        newScore > existing.quality_score)) := by
  refine ⟨?_, ?_, ?_⟩ <;> unfold isBetter
  · intro h1 h2; simp [h1, h2]
  · intro h1 h2; simp [h1, h2]
  · intro h
    cases hc : existing.is_complete <;> rw [hc] at h <;> simp [h, hc]

/-- Witness for C1 at a concrete input: a complete new result with score 50
beats an incomplete existing entry with score 80. -/
theorem C1_isBetter_comparison_rule_witness :
    isBetter 50 true { sampleRow with is_complete := false, quality_score := 80 } = true := by
  have h := C1_isBetter_comparison_rule 50 true
    { sampleRow with is_complete := false, quality_score := 80 }
  exact h.2.1 rfl rfl

/-- C4: the quality scorer awards +10 for a title, +10 for a description,
+35 for a non-empty ingredient list (else records `"ingredients"` missing),
+35 for a non-empty step list (else records `"steps"` missing) and +10 for a
calorie value; completeness is exactly `ingredients nonempty ∧ steps
nonempty`, independent of the score; and adding a non-empty step list to a
title-only payload raises the score by exactly 35. -/
theorem C4_score_recipe (r : RecipeData) :
    ((scoreRecipe r).score =
      (if cleanTextOpt r.title ≠ "" then 10 else 0) +
      (if cleanTextOpt r.description ≠ "" then 10 else 0) +
      (if pyOrList r.ingredients ≠ [] then 35 else 0) +
      (if pyOrList r.instructions ≠ [] then 35 else 0) +
      (if pyTruthy r.nutritionCalories then 10 else 0)) ∧
    ("ingredients" ∈ (scoreRecipe r).missing ↔ pyOrList r.ingredients = []) ∧
    ("steps" ∈ (scoreRecipe r).missing ↔ pyOrList r.instructions = []) ∧
    ((scoreRecipe r).is_complete = true ↔
      (pyOrList r.ingredients ≠ [] ∧ pyOrList r.instructions ≠ [])) ∧
    (∀ (t : String) (steps : List RecipeStep), steps ≠ [] →
      (scoreRecipe { title := some t, instructions := some steps }).score =
        (scoreRecipe { title := some t }).score + 35) := by
  refine ⟨rfl, ?_, ?_, ?_, ?_⟩
  · by_cases hi : pyOrList r.ingredients = [] <;>
      by_cases ht : cleanTextOpt r.title = "" <;>
      by_cases hs : pyOrList r.instructions = [] <;>
      simp [scoreRecipe, hi, ht, hs]
  · by_cases hi : pyOrList r.ingredients = [] <;>
      by_cases ht : cleanTextOpt r.title = "" <;>
      by_cases hs : pyOrList r.instructions = [] <;>
      simp [scoreRecipe, hi, ht, hs]
  · simp [scoreRecipe]
  · intro t steps hsteps
    by_cases ht : cleanTextOpt (some t) = "" <;>
      simp [scoreRecipe, pyOrList, pyTruthy, cleanTextOpt, ht, hsteps]

/-- Witness for C4 at a concrete input: a title-only payload scores 10, and
adding one step makes it 45. -/
theorem C4_score_recipe_witness :
    (scoreRecipe { title := some "Pasta", instructions := some [{ stepNumber := some 1, text := some "Boil water" }] }).score =
      (scoreRecipe { title := some "Pasta" }).score + 35 := by
  have h := C4_score_recipe { title := some "Pasta" }
  exact h.2.2.2.2 "Pasta" [{ stepNumber := some 1, text := some "Boil water" }] (by decide)

/-- C7: the language detector is the pure decision `langDecision` applied to
the lower-cased concatenated text; empty text gives `"en"`; non-empty text
gives `"de"` exactly when the German count (indicator hits plus the +2
umlaut/eszett bonus) strictly exceeds the English count; the decision depends
only on which indicator substrings and umlaut characters are present (so it
is order-independent); and the two concrete examples behave as stated. -/
theorem C7_detect_language (r : RecipeData) :
    detectLanguage r = langDecision (detectText r) ∧
    (detectText r = "" → detectLanguage r = "en") ∧
    (detectText r ≠ "" →
      (detectLanguage r = "de" ↔ germanCount (detectText r) > englishCount (detectText r))) ∧
    (∀ t1 t2 : String, t1 ≠ "" → t2 ≠ "" →
      (∀ token ∈ germanIndicators, strContains t1 token = strContains t2 token) →
      (∀ token ∈ englishIndicators, strContains t1 token = strContains t2 token) →
      (∀ token ∈ umlautMarkers, strContains t1 token = strContains t2 token) →
      langDecision t1 = langDecision t2) ∧
    detectLanguage { title := some "250 g Mehl und 2 Eier" } = "de" ∧
    detectLanguage { title := some "preheat the oven and whisk the eggs" } = "en" ∧
    detectLanguage {} = "en" := by
  refine ⟨rfl, ?_, ?_, ?_, ?_, ?_, ?_⟩
  · intro h; simp [detectLanguage, langDecision, h]
  · intro h
    simp only [detectLanguage, langDecision, if_neg h]
    constructor
    · intro hd
      by_contra hgt
      rw [if_neg hgt] at hd
      exact absurd hd (by decide)
    · intro hgt; rw [if_pos hgt]
  · intro t1 t2 h1 h2 hg he hu
    have hgc : germanCount t1 = germanCount t2 := by
      unfold germanCount
      rw [listFilterCongr _ _ _ hg, listAnyCongr _ _ _ hu]
    have hec : englishCount t1 = englishCount t2 := by
      unfold englishCount
      rw [listFilterCongr _ _ _ he]
    simp only [langDecision, if_neg h1, if_neg h2, hgc, hec]
  · decide
  · decide
  · decide

/-- Witness for C7 at a concrete input: the German example text is detected
as German. -/
theorem C7_detect_language_witness :
    detectLanguage { title := some "250 g Mehl und 2 Eier" } = "de" := by
  have h := C7_detect_language { title := some "250 g Mehl und 2 Eier" }
  exact h.2.2.2.2.1

/-- C10: a payload the scorer marks complete scores at least
`QUALITY_MIN_SCORE` (= 70), so a cached entry carrying a scorer result that
is complete is refetched only for a missing fetch timestamp or staleness —
never for the score-below-threshold condition alone. -/
theorem C10_complete_entries_meet_threshold (r : RecipeData) (e : GlobalRecipe) (now : Int)
    (hscore : e.quality_score = (scoreRecipe r).score)
    (hcomp : e.is_complete = (scoreRecipe r).is_complete)
    (hc : e.is_complete = true) :
    QUALITY_MIN_SCORE ≤ e.quality_score ∧
    (shouldReimport now (some e) = true ↔
      e.last_fetched_at = none ∨
        ∃ t, e.last_fetched_at = some t ∧ now - t > FRESH_DAYS * secondsPerDay) := by
  have hboth : pyOrList r.ingredients ≠ [] ∧ pyOrList r.instructions ≠ [] := by
    have := hcomp ▸ hc
    simpa [scoreRecipe] using this
  have hge : QUALITY_MIN_SCORE ≤ e.quality_score := by
    rw [hscore]
    simp only [scoreRecipe, QUALITY_MIN_SCORE, if_pos hboth.1, if_pos hboth.2]
    split_ifs <;> omega
  refine ⟨hge, ?_⟩
  have hnotlt : ¬ e.quality_score < QUALITY_MIN_SCORE := not_lt.mpr hge
  cases hlf : e.last_fetched_at with
  | none => simp [shouldReimport, hc, hnotlt, hlf]
  | some t =>
    simp only [shouldReimport, hc, Bool.not_true, if_neg hnotlt]
    simp [hlf, decide_eq_true_iff]

/-- Witness for C10 at a concrete input: a complete one-ingredient /
one-step payload scores exactly 70 and its cache row with no fetch
timestamp is refetched. -/
theorem C10_complete_entries_meet_threshold_witness :
    QUALITY_MIN_SCORE ≤
      ({ sampleRow with quality_score := 70, is_complete := true } : GlobalRecipe).quality_score ∧
    (shouldReimport 0 (some { sampleRow with quality_score := 70, is_complete := true }) = true ↔
      ({ sampleRow with quality_score := 70, is_complete := true } : GlobalRecipe).last_fetched_at = none ∨
        ∃ t, ({ sampleRow with quality_score := 70, is_complete := true } : GlobalRecipe).last_fetched_at = some t ∧
          0 - t > FRESH_DAYS * secondsPerDay) := by
  exact C10_complete_entries_meet_threshold
    { ingredients := some [{ line := some "1 egg", name := none, amount := none }],
      instructions := some [{ stepNumber := some 1, text := some "Mix" }] }
    { sampleRow with quality_score := 70, is_complete := true } 0
    (by decide) (by decide) (by decide)

/-! ## Claim C9: the screenshot-OCR gate -/

/-- A first structuring result with steps but no ingredients. -/
def igPartialRecipe : InstagramRecipe :=
  { title := "Pasta"
    ingredients := []
    steps := ["Boil water", "Add pasta"]
    source_url := "https://instagram.com/p/x"
    source_domain := "instagram.com"
    extracted_via := "oembed" }

/-- The OCR-augmented structuring result used in the C9 instances. -/
def igOcrRecipe : InstagramRecipe :=
  { title := "Pasta"
    ingredients := [{ name := "pasta" }, { name := "salt" }]
    steps := ["Boil water", "Add pasta"]
    source_url := "https://instagram.com/p/x"
    source_domain := "instagram.com"
    extracted_via := "oembed+ocr" }

/-- C9 counterexample: the claim says the OCR last resort fires exactly when
both lists are empty, but with no ingredients and a non-empty step list
(and a screenshot available) the code still attempts OCR, because
`_needs_ocr` tests `ingredients == 0 or steps == 0`. -/
theorem C9_ocr_gate_counterexample :
    (ocrRescueStage igPartialRecipe (some "shot.png") "ocr text" igOcrRecipe).ocrAttempted = true ∧
    ¬(igPartialRecipe.ingredients = [] ∧ igPartialRecipe.steps = []) := by
  constructor
  · rfl
  · intro h
    exact absurd h.2 (by decide)

/-- C9 (amended): the screenshot-OCR last resort is attempted exactly when,
after the first structuring call, at least one of the ingredient list and the
step list is empty and a screenshot is available; the OCR-augmented result
replaces the original exactly when the OCR text is non-empty and it has
strictly more total ingredients plus steps, the original being kept on
ties. -/
theorem C9_ocr_stage_amended (recipe recipeOcr : InstagramRecipe)
    (screenshotPath : Option String) (ocrText : String) :
    ((ocrRescueStage recipe screenshotPath ocrText recipeOcr).ocrAttempted = true ↔
      ((recipe.ingredients = [] ∨ recipe.steps = []) ∧ screenshotPath.isSome = true)) ∧
    ((ocrRescueStage recipe screenshotPath ocrText recipeOcr).recipe =
      if (recipe.ingredients = [] ∨ recipe.steps = []) ∧ screenshotPath.isSome = true ∧
          ocrText ≠ "" ∧
          recipe.ingredients.length + recipe.steps.length <
            recipeOcr.ingredients.length + recipeOcr.steps.length
        then recipeOcr else recipe) := by
  have hneeds : needsOcr recipe = true ↔ (recipe.ingredients = [] ∨ recipe.steps = []) := by
    simp [needsOcr, List.length_eq_zero]
  unfold ocrRescueStage
  by_cases hn : needsOcr recipe = true
  · rw [hneeds] at hn
    by_cases hs : screenshotPath.isSome = true
    · rw [if_pos (by simp only [Bool.and_eq_true, hs, and_true]; exact hneeds.mpr hn)]
      by_cases ht : ocrText = ""
      · simp only [ht]
        rw [if_neg (by simp)]
        refine ⟨by simp [hn, hs], ?_⟩
        rw [if_neg (by rintro ⟨-, -, h, -⟩; exact h rfl)]
      · rw [if_pos ht]
        by_cases hlt : recipe.ingredients.length + recipe.steps.length <
            recipeOcr.ingredients.length + recipeOcr.steps.length
        · rw [if_pos (by omega)]
          refine ⟨by simp [hn, hs], ?_⟩
          rw [if_pos ⟨hn, hs, ht, hlt⟩]
        · rw [if_neg (by omega)]
          refine ⟨by simp [hn, hs], ?_⟩
          rw [if_neg (by rintro ⟨-, -, -, h⟩; exact hlt h)]
    · rw [if_neg (by simp [hs])]
      refine ⟨by simp [hs], ?_⟩
      rw [if_neg (by rintro ⟨-, h, -, -⟩; exact hs h)]
  · rw [if_neg (by simp [hn])]
    rw [hneeds] at hn
    refine ⟨by simp [hn], ?_⟩
    rw [if_neg (by rintro ⟨h, -, -, -⟩; exact hn h)]

/-! ## SHA-256 (`hashlib.sha256`), as used by `_build_canonical_hash` -/

/-- Truncate to 32 bits. -/
def mod32 (x : Nat) : Nat := x % 4294967296

/-- Rotate a 32-bit word right by `n`. -/
def rotr32 (n x : Nat) : Nat := mod32 (x / 2 ^ n + x % 2 ^ n * 2 ^ (32 - n))

/-- Logical shift right. -/
def shr32 (n x : Nat) : Nat := x / 2 ^ n

/-- Bitwise complement of a 32-bit word. -/
def not32 (x : Nat) : Nat := 4294967295 - x

def shaCh (x y z : Nat) : Nat := (x &&& y) ^^^ (not32 x &&& z)
def shaMaj (x y z : Nat) : Nat := (x &&& y) ^^^ (x &&& z) ^^^ (y &&& z)
def shaS0 (x : Nat) : Nat := rotr32 2 x ^^^ rotr32 13 x ^^^ rotr32 22 x
def shaS1 (x : Nat) : Nat := rotr32 6 x ^^^ rotr32 11 x ^^^ rotr32 25 x
def shas0 (x : Nat) : Nat := rotr32 7 x ^^^ rotr32 18 x ^^^ shr32 3 x
def shas1 (x : Nat) : Nat := rotr32 17 x ^^^ rotr32 19 x ^^^ shr32 10 x

def sha256K : List Nat :=
  [1116352408, 1899447441, 3049323471, 3921009573, 961987163, 1508970993,
   2453635748, 2870763221, 3624381080, 310598401, 607225278, 1426881987,
   1925078388, 2162078206, 2614888103, 3248222580, 3835390401, 4022224774,
   264347078, 604807628, 770255983, 1249150122, 1555081692, 1996064986,
   2554220882, 2821834349, 2952996808, 3210313671, 3336571891, 3584528711,
   113926993, 338241895, 666307205, 773529912, 1294757372, 1396182291,
   1695183700, 1986661051, 2177026350, 2456956037, 2730485921, 2820302411,
   3259730800, 3345764771, 3516065817, 3600352804, 4094571909, 275423344,
   430227734, 506948616, 659060556, 883997877, 958139571, 1322822218,
   1537002063, 1747873779, 1955562222, 2024104815, 2227730452, 2361852424,
   2428436474, 2756734187, 3204031479, 3329325298]

def sha256H0 : List Nat :=
  [1779033703, 3144134277, 1013904242, 2773480762,
   1359893119, 2600822924, 528734635, 1541459225]

/-- Big-endian bytes of `n`, `len` bytes. -/
def natToBytesBE (len n : Nat) : List Nat :=
  (List.range len).map (fun i => n / 2 ^ (8 * (len - 1 - i)) % 256)

/-- SHA-256 padding: append `0x80`, zeros, then the 64-bit bit length. -/
def sha256Pad (msg : List Nat) : List Nat :=
  let L := msg.length
  let padLen := (119 - L % 64) % 64
  msg ++ [0x80] ++ List.replicate padLen 0 ++ natToBytesBE 8 (8 * L)

/-- Group bytes into big-endian 32-bit words. -/
def bytesToWords : List Nat → List Nat
  | b0 :: b1 :: b2 :: b3 :: rest => (((b0 * 256 + b1) * 256 + b2) * 256 + b3) :: bytesToWords rest
  | _ => []

/-- Extend the 16 schedule words to 64; `acc` is in reverse order. -/
def extendSchedule : Nat → List Nat → List Nat
  | 0, acc => acc
  | fuel + 1, acc =>
    let w2 := acc.getD 1 0
    let w7 := acc.getD 6 0
    let w15 := acc.getD 14 0
    let w16 := acc.getD 15 0
    extendSchedule fuel (mod32 (shas1 w2 + w7 + shas0 w15 + w16) :: acc)

def sha256Schedule (ws : List Nat) : List Nat :=
  (extendSchedule 48 ws.reverse).reverse

/-- One compression round. -/
def sha256Round (st : List Nat) (kw : Nat × Nat) : List Nat :=
  match st with
  | [a, b, c, d, e, f, g, h] =>
    let t1 := mod32 (h + shaS1 e + shaCh e f g + kw.1 + kw.2)
    let t2 := mod32 (shaS0 a + shaMaj a b c)
    [mod32 (t1 + t2), a, b, c, mod32 (d + t1), e, f, g]
  | st => st

/-- Compress one 64-byte block into the running hash state. -/
def sha256Compress (h : List Nat) (block : List Nat) : List Nat :=
  let ws := sha256Schedule (bytesToWords block)
  let fin := (sha256K.zip ws).foldl (fun st kw => sha256Round st (kw.1, kw.2)) h
  List.zipWith (fun x y => mod32 (x + y)) h fin

/-- Split into 64-byte chunks (`fuel` bounds the recursion). -/
def chunks64 : Nat → List Nat → List (List Nat)
  | _, [] => []
  | 0, l => [l]
  | fuel + 1, l => l.take 64 :: chunks64 fuel (l.drop 64)

/-- The eight 32-bit result words of SHA-256 of a byte string. -/
def sha256Words (msg : List Nat) : List Nat :=
  let padded := sha256Pad msg
  (chunks64 padded.length padded).foldl sha256Compress sha256H0

def hexDigit (n : Nat) : Char := if n < 10 then Char.ofNat (48 + n) else Char.ofNat (87 + n)

def wordToHex (w : Nat) : List Char :=
  (List.range 8).map (fun i => hexDigit (w / 16 ^ (7 - i) % 16))

/-- Lower-case hex digest of SHA-256 (`hashlib.sha256(...).hexdigest()`). -/
def sha256Hex (msg : List Nat) : String :=
  ⟨((sha256Words msg).map wordToHex).flatten⟩

/-- UTF-8 encoding of one scalar value. -/
def utf8EncodeChar (c : Char) : List Nat :=
  let n := c.toNat
  if n < 0x80 then [n]
  else if n < 0x800 then [0xC0 + n / 0x40, 0x80 + n % 0x40]
  else if n < 0x10000 then [0xE0 + n / 0x1000, 0x80 + n / 0x40 % 0x40, 0x80 + n % 0x40]
  else [0xF0 + n / 0x40000, 0x80 + n / 0x1000 % 0x40, 0x80 + n / 0x40 % 0x40, 0x80 + n % 0x40]

/-- `s.encode("utf-8")` as a byte list. -/
def utf8Bytes (s : String) : List Nat :=
  (s.data.map utf8EncodeChar).flatten

/-! ## Canonical content hash (`import_cache._build_canonical_hash`) -/

/-- `import_cache._normalize_text`: `clean_text(value or "").lower()`. -/
def normalizeText (v : Option String) : String :=
  pyLower (cleanTextOpt v)

/-- The normalized hash line of one ingredient dict:
`_normalize_text(item.get("line") or item.get("name") or "")`.  (Every list
entry of the model is a dict, so the `isinstance(item, dict)` guard never
filters anything here.) -/
def ingredientHashLine (i : RecipeIngredient) : String :=
  normalizeText (some (pyOrS i.line (pyOrS i.name "")))

/-- The normalized hash line of one instruction dict:
`_normalize_text(item.get("text") or "")`. -/
def instructionHashLine (s : RecipeStep) : String :=
  normalizeText (some (pyOrS s.text ""))

/-- The newline-joined canonical payload: title, then all ingredient lines,
then all instruction lines. -/
def canonicalPayloadString (r : RecipeData) : String :=
  String.intercalate "\n"
    (normalizeText r.title ::
      ((pyOrList r.ingredients).map ingredientHashLine ++
        (pyOrList r.instructions).map instructionHashLine))

/-- `import_cache._build_canonical_hash`. -/
def buildCanonicalHash (r : RecipeData) : String :=
  sha256Hex (utf8Bytes (canonicalPayloadString r))

/-- C8: the canonical hash is the SHA-256 hex digest of the UTF-8 bytes of
the lower-cased, whitespace-collapsed title, ingredient lines and step texts
joined by newlines in that fixed order; consequently two payloads whose
title, ingredient lines and step texts agree after lower-casing and
whitespace collapsing hash identically. -/
theorem C8_canonical_hash (a b : RecipeData)
    (htitle : normalizeText a.title = normalizeText b.title)
    (hing : (pyOrList a.ingredients).map ingredientHashLine =
      (pyOrList b.ingredients).map ingredientHashLine)
    (hstep : (pyOrList a.instructions).map instructionHashLine =
      (pyOrList b.instructions).map instructionHashLine) :
    buildCanonicalHash a =
      sha256Hex (utf8Bytes (String.intercalate "\n"
        (normalizeText a.title ::
          ((pyOrList a.ingredients).map ingredientHashLine ++
            (pyOrList a.instructions).map instructionHashLine)))) ∧
    buildCanonicalHash a = buildCanonicalHash b := by
  refine ⟨rfl, ?_⟩
  unfold buildCanonicalHash canonicalPayloadString
  rw [htitle, hing, hstep]

/-- Witness for C8 at concrete inputs: two payloads differing only in
capitalization and spacing of title and ingredient line hash identically. -/
theorem C8_canonical_hash_witness :
    buildCanonicalHash
        { title := some "Apple Pie",
          ingredients := some [{ line := some "2  Large EGGS", name := none, amount := none }] } =
      buildCanonicalHash
        { title := some "  apple   pie ",
          ingredients := some [{ line := some "2 large eggs", name := none, amount := none }] } := by
  exact (C8_canonical_hash
    { title := some "Apple Pie",
      ingredients := some [{ line := some "2  Large EGGS", name := none, amount := none }] }
    { title := some "  apple   pie ",
      ingredients := some [{ line := some "2 large eggs", name := none, amount := none }] }
    (by decide) (by decide) (by decide)).2

/-! ## URL machinery (CPython 3.11 `urllib.parse`, as used by `normalize_url`
and `ensure_domain`)

The functions below transcribe the CPython 3.11 implementations of
`urlsplit`, `_splitparams`, `urlparse`, `urlunsplit`, `urlunparse`,
`parse_qsl` (with `keep_blank_values=True`), `urlencode` / `quote_plus` /
`unquote_plus`, and the bracketed-host validation from `ipaddress` that
`urlsplit` performs.  Unicode NFKC normalization (used only by
`_checknetloc`, to reject exotic characters that expand to separators) is
modelled as the identity, which is exact for ASCII and for the Latin
letters this code base's URLs contain; under that modelling `_checknetloc`
never raises, so it has no counterpart below. -/

/-- Characters `lstrip`-ped by `urlsplit` (`_WHATWG_C0_CONTROL_OR_SPACE`). -/
def isC0OrSpace (c : Char) : Bool := c.toNat ≤ 0x20

/-- `_UNSAFE_URL_BYTES_TO_REMOVE`: tab, CR and LF are deleted everywhere. -/
def isUnsafeUrlByte (c : Char) : Bool := c == '\t' || c == '\r' || c == '\n'

def isAsciiAlphaC (c : Char) : Bool := ('A' ≤ c && c ≤ 'Z') || ('a' ≤ c && c ≤ 'z')

def isAsciiDigitC (c : Char) : Bool := '0' ≤ c && c ≤ '9'

/-- `urllib.parse.scheme_chars`. -/
def isSchemeChar (c : Char) : Bool :=
  isAsciiAlphaC c || isAsciiDigitC c || c == '+' || c == '-' || c == '.'

def isHexDigitC (c : Char) : Bool :=
  isAsciiDigitC c || ('a' ≤ c && c ≤ 'f') || ('A' ≤ c && c ≤ 'F')

def hexValC (c : Char) : Nat :=
  if isAsciiDigitC c then c.toNat - 48
  else if 'a' ≤ c && c ≤ 'f' then c.toNat - 87
  else c.toNat - 55

/-- Split at the first occurrence of `sep`: `(before, some after)` when
present, `(l, none)` otherwise. -/
def splitFirstChar (sep : Char) : List Char → List Char × Option (List Char)
  | [] => ([], none)
  | c :: rest =>
    if c == sep then ([], some rest)
    else
      let r := splitFirstChar sep rest
      (c :: r.1, r.2)

/-- Python `str.split(sep)` (all fields, keeping empties). -/
def splitOnChar (sep : Char) : List Char → List (List Char)
  | [] => [[]]
  | c :: rest =>
    let r := splitOnChar sep rest
    if c == sep then [] :: r
    else
      match r with
      | h :: t => (c :: h) :: t
      | [] => [[c]]

/-- `uses_netloc` (urllib.parse). -/
def usesNetloc : List (List Char) :=
  ["", "ftp", "http", "gopher", "nntp", "telnet", "imap", "wais", "file",
   "mms", "https", "shttp", "snews", "prospero", "rtsp", "rtspu", "rsync",
   "svn", "svn+ssh", "sftp", "nfs", "git", "git+ssh", "ws", "wss",
   "itms-services"].map String.data

/-- `uses_params` (urllib.parse). -/
def usesParams : List (List Char) :=
  ["", "ftp", "hdl", "prospero", "http", "imap", "https", "shttp", "rtsp",
   "rtspu", "sip", "sips", "mms", "sftp", "tel"].map String.data

/-! ### `ipaddress` textual validation (for `_check_bracketed_host`) -/

/-- `ipaddress._BaseV4._parse_octet` as a predicate: 1–3 ASCII digits, no
leading zero (except `"0"` itself), value at most 255. -/
def ipv4OctetOk (p : List Char) : Bool :=
  p ≠ [] && p.all isAsciiDigitC && p.length ≤ 3 &&
  (p.length == 1 || p.take 1 ≠ ['0']) &&
  p.foldl (fun acc c => acc * 10 + (c.toNat - 48)) 0 ≤ 255

/-- `ipaddress._BaseV4._ip_int_from_string` as a predicate: exactly four
valid octets separated by dots (the enclosing `IPv4Address.__init__` also
rejects a `/`, which cannot occur in a netloc). -/
def ipv4Ok (l : List Char) : Bool :=
  l ≠ [] &&
  (let octets := splitOnChar '.' l
   octets.length == 4 && octets.all ipv4OctetOk)


/-- `ipaddress._BaseV6._parse_hextet` as a predicate: 1–4 hex digits. -/
def hextetOk (p : List Char) : Bool :=
  p ≠ [] && p.all isHexDigitC && p.length ≤ 4

/-- The part-structure check of `ipaddress._BaseV6._ip_int_from_string`,
applied after a dotted IPv4 suffix (if any) has been replaced by two hextet
parts: at most 9 parts, at most one empty part strictly inside (the `::`),
a leading/trailing empty part only immediately next to the `::`, at least
one zero-group skipped by the `::`, and every non-skipped part a valid
hextet. -/
def ipv6PartsOk (parts : List (List Char)) : Bool :=
  let n := parts.length
  n ≤ 9 &&
  (let inner := (parts.drop 1).take (n - 2)
   let emptyCount := (inner.filter List.isEmpty).length
   if emptyCount == 0 then
     n == 8 && parts.all hextetOk
   else if emptyCount == 1 then
     let i := 1 + inner.findIdx List.isEmpty
     let hi : Option Nat :=
       if parts.head? == some ([] : List Char) then
         if i == 1 then some 0 else none
       else some i
     let lo : Option Nat :=
       if parts.getLast? == some ([] : List Char) then
         if i == n - 2 then some 0 else none
       else some (n - i - 1)
     match hi, lo with
     | some h, some lw =>
       h + lw ≤ 7 && (parts.take h).all hextetOk && (parts.drop (n - lw)).all hextetOk
     | _, _ => false
   else false)

/-- `ipaddress._BaseV6._ip_int_from_string` as a predicate (the address part,
scope already removed): non-empty, at least three colon-separated parts, a
dotted last part must be a valid IPv4 address and stands for two hextets. -/
def ipv6StrOk (l : List Char) : Bool :=
  l ≠ [] &&
  (let parts0 := splitOnChar ':' l
   parts0.length ≥ 3 &&
   (match parts0.getLast? with
    | some last =>
      if last.contains '.' then
        ipv4Ok last && ipv6PartsOk (parts0.dropLast ++ [['0'], ['0']])
      else ipv6PartsOk parts0
    | none => false))

/-- `ipaddress.IPv6Address.__init__` on a string: no `/`, an optional
non-empty `%scope` (itself free of `%`), and a valid address part. -/
def ipv6HostOk (l : List Char) : Bool :=
  !l.contains '/' &&
  (match splitFirstChar '%' l with
   | (addr, none) => ipv6StrOk addr
   | (addr, some scope) => scope ≠ [] && !scope.contains '%' && ipv6StrOk addr)

/-- The IPvFuture arm of `_check_bracketed_host`:
`re.match(r"\Av[a-fA-F0-9]+\..+\Z", hostname)`. -/
def vFutureOk (host : List Char) : Bool :=
  match host with
  | 'v' :: rest =>
    let hexRun := rest.takeWhile isHexDigitC
    let after := rest.dropWhile isHexDigitC
    hexRun ≠ [] &&
    (match after with
     | '.' :: tail => tail ≠ []
     | _ => false)
  | _ => false

/-- `urllib.parse._check_bracketed_host` as a predicate: a host starting
with `v` must be a valid IPvFuture; otherwise `ipaddress.ip_address` must
yield an IPv6 address (an IPv4 address in brackets is rejected). -/
def bracketedHostOk (host : List Char) : Bool :=
  match host with
  | 'v' :: _ => vFutureOk host
  | _ => !ipv4Ok host && ipv6HostOk host

/-- The unbalanced-bracket test of `urlsplit` ("Invalid IPv6 URL"). -/
def bracketsProblem (netloc : List Char) : Bool :=
  (netloc.contains '[' && !netloc.contains ']') ||
  (netloc.contains ']' && !netloc.contains '[')

/-- `netloc.partition('[')[2].partition(']')[0]`. -/
def bracketedHostOf (netloc : List Char) : List Char :=
  ((netloc.dropWhile (fun c => c ≠ '[')).drop 1).takeWhile (fun c => c ≠ ']')

/-! ### `urlsplit` / `urlparse` -/

/-- The 5-tuple returned by `urlsplit`. -/
structure SplitRes where
  scheme : List Char
  netloc : List Char
  path : List Char
  query : List Char
  fragment : List Char
deriving Repr, DecidableEq

/-- The 6-tuple returned by `urlparse`. -/
structure ParseRes where
  scheme : List Char
  netloc : List Char
  path : List Char
  params : List Char
  query : List Char
  fragment : List Char
deriving Repr, DecidableEq

/-- The scheme-splitting step of `urlsplit`: a scheme is present when the
first `:` is preceded by a non-empty run of scheme characters starting with
an ASCII letter; the scheme is lower-cased as it is extracted. -/
def splitScheme (url : List Char) : List Char × List Char :=
  match splitFirstChar ':' url with
  | (b :: bs, some after) =>
    if isAsciiAlphaC b && (b :: bs).all isSchemeChar then
      ((b :: bs).map pyLowerChar, after)
    else ([], url)
  | _ => ([], url)

/-- The delimiters that end the netloc (`_splitnetloc` looks for the
earliest of `/`, `?`, `#`). -/
def isNetlocDelim (c : Char) : Bool := c == '/' || c == '?' || c == '#'

/-- `urllib.parse.urlsplit` (CPython 3.11): WHATWG-lstrip, removal of
tab/CR/LF, scheme split, netloc split with the bracket checks, fragment
split, query split.  `_checknetloc` is modelled as always passing (NFKC as
the identity). -/
def urlsplitE (url0 : List Char) : Except Unit SplitRes :=
  let url1 := url0.dropWhile isC0OrSpace
  let url2 := url1.filter (fun c => !isUnsafeUrlByte c)
  let sr := splitScheme url2
  let nr :=
    match sr.2 with
    | '/' :: '/' :: tail =>
      (tail.takeWhile (fun c => !isNetlocDelim c), tail.dropWhile (fun c => !isNetlocDelim c))
    | _ => ([], sr.2)
  if bracketsProblem nr.1 then .error ()
  else if nr.1.contains '[' && nr.1.contains ']' &&
      !bracketedHostOk (bracketedHostOf nr.1) then .error ()
  else
    let fr :=
      match splitFirstChar '#' nr.2 with
      | (a, some b) => (a, b)
      | (a, none) => (a, [])
    let pq :=
      match splitFirstChar '?' fr.1 with
      | (a, some b) => (a, b)
      | (a, none) => (a, [])
    .ok { scheme := sr.1, netloc := nr.1, path := pq.1, query := pq.2,
          fragment := fr.2 }

/-- `urllib.parse._splitparams`: split the path at the first `;` after the
last `/` (or the first `;` overall when the path has no `/`). -/
def splitParamsF (url : List Char) : List Char × List Char :=
  if url.contains '/' then
    let revp := url.reverse
    let lastSeg := (revp.takeWhile (fun c => c ≠ '/')).reverse
    let before := (revp.dropWhile (fun c => c ≠ '/')).reverse
    match splitFirstChar ';' lastSeg with
    | (a, some b) => (before ++ a, b)
    | (_, none) => (url, [])
  else
    match splitFirstChar ';' url with
    | (a, some b) => (a, b)
    | (_, none) => (url, [])

/-- `urllib.parse.urlparse`: `urlsplit` followed by the params split, which
applies only for schemes in `uses_params` and paths containing `;`. -/
def urlparseE (url0 : List Char) : Except Unit ParseRes :=
  match urlsplitE url0 with
  | .error e => .error e
  | .ok s =>
    let pp :=
      if usesParams.contains s.scheme && s.path.contains ';' then splitParamsF s.path
      else (s.path, [])
    .ok { scheme := s.scheme, netloc := s.netloc, path := pp.1, params := pp.2,
          query := s.query, fragment := s.fragment }

/-! ### `urlunsplit` / `urlunparse` -/

/-- `urllib.parse.urlunsplit` (CPython 3.11). -/
def urlunsplitF (scheme netloc url query fragment : List Char) : List Char :=
  let url :=
    if netloc ≠ [] ||
        (scheme ≠ [] && usesNetloc.contains scheme && url.take 2 ≠ ['/', '/']) then
      let url := if url ≠ [] && url.take 1 ≠ ['/'] then '/' :: url else url
      '/' :: '/' :: (netloc ++ url)
    else url
  let url := if scheme ≠ [] then scheme ++ ':' :: url else url
  let url := if query ≠ [] then url ++ '?' :: query else url
  if fragment ≠ [] then url ++ '#' :: fragment else url

/-- `urllib.parse.urlunparse`: re-attach `;params` to the path, then
`urlunsplit`. -/
def urlunparseF (p : ParseRes) : List Char :=
  let url := if p.params ≠ [] then p.path ++ ';' :: p.params else p.path
  urlunsplitF p.scheme p.netloc url p.query p.fragment

/-! ### Percent-quoting (`quote_plus` / `unquote_plus`) -/

/-- The bytes `quote` never escapes (`_ALWAYS_SAFE`): ASCII letters, digits,
`_`, `.`, `-`, `~`. -/
def alwaysSafeByte (b : Nat) : Bool :=
  (0x41 ≤ b && b ≤ 0x5A) || (0x61 ≤ b && b ≤ 0x7A) || (0x30 ≤ b && b ≤ 0x39) ||
  b == 0x5F || b == 0x2E || b == 0x2D || b == 0x7E

/-- Upper-case hex digit, as `quote` emits. -/
def hexDigitUpper (n : Nat) : Char :=
  if n < 10 then Char.ofNat (48 + n) else Char.ofNat (55 + n)

/-- `urllib.parse.quote_from_bytes`: keep safe bytes, emit `%XX` otherwise. -/
def quoteFromBytes (safe : List Char) : List Nat → List Char
  | [] => []
  | b :: rest =>
    if alwaysSafeByte b || (b ≤ 0x7F && safe.contains (Char.ofNat b)) then
      Char.ofNat b :: quoteFromBytes safe rest
    else '%' :: hexDigitUpper (b / 16) :: hexDigitUpper (b % 16) :: quoteFromBytes safe rest

/-- `urllib.parse.quote` on a string (UTF-8 encoding). -/
def quoteStr (s : String) (safe : List Char) : List Char :=
  quoteFromBytes safe (utf8Bytes s)

/-- `urllib.parse.quote_plus` with `safe=''`: if the string has a space,
quote with space safe and then turn spaces into `+`. -/
def quotePlus (s : String) : List Char :=
  if s.data.contains ' ' then
    (quoteStr s [' ']).map (fun c => if c == ' ' then '+' else c)
  else quoteStr s []

def isAsciiC (c : Char) : Bool := c.toNat ≤ 0x7F

/-- `urllib.parse.unquote_to_bytes` on an ASCII run: decode each `%XX` with
two hex digits, keep a bare `%` otherwise, and keep every other character as
its code point (the run is ASCII, so code point = byte). -/
def unquoteToBytes : List Char → List Nat
  | [] => []
  | '%' :: h1 :: h2 :: rest2 =>
    if isHexDigitC h1 && isHexDigitC h2 then
      (hexValC h1 * 16 + hexValC h2) :: unquoteToBytes rest2
    else '%'.toNat :: unquoteToBytes (h1 :: h2 :: rest2)
  | c :: rest => c.toNat :: unquoteToBytes rest

/-- U+FFFD, the replacement character of `errors="replace"`. -/
def replChar : Char := Char.ofNat 0xFFFD

def isContB (b : Nat) : Bool := 0x80 ≤ b && b ≤ 0xBF

/-- Constraint on the second byte of a three-byte sequence (excludes
overlong encodings and surrogates). -/
def cont2OkB (lead b : Nat) : Bool :=
  if lead == 0xE0 then 0xA0 ≤ b && b ≤ 0xBF
  else if lead == 0xED then 0x80 ≤ b && b ≤ 0x9F
  else isContB b

/-- Constraint on the second byte of a four-byte sequence. -/
def cont3OkB (lead b : Nat) : Bool :=
  if lead == 0xF0 then 0x90 ≤ b && b ≤ 0xBF
  else if lead == 0xF4 then 0x80 ≤ b && b ≤ 0x8F
  else isContB b

/-- UTF-8 decoding with replacement, `bytes.decode("utf-8", "replace")`.
Exact on valid UTF-8; on malformed input it emits U+FFFD and resynchronises
(the exact number of replacement characters per malformed run may differ
from CPython in corner cases, which no theorem below depends on).  The
`fuel` argument makes the recursion structural; callers pass the byte-list
length. -/
def utf8DecodeAux : Nat → List Nat → List Char
  | 0, _ => []
  | _ + 1, [] => []
  | fuel + 1, b :: rest =>
    if b < 0x80 then Char.ofNat b :: utf8DecodeAux fuel rest
    else if 0xC2 ≤ b && b ≤ 0xDF then
      match rest with
      | b1 :: rest1 =>
        if isContB b1 then
          Char.ofNat ((b - 0xC0) * 64 + (b1 - 0x80)) :: utf8DecodeAux fuel rest1
        else replChar :: utf8DecodeAux fuel rest
      | [] => [replChar]
    else if 0xE0 ≤ b && b ≤ 0xEF then
      match rest with
      | b1 :: b2 :: rest2 =>
        if cont2OkB b b1 && isContB b2 then
          Char.ofNat ((b - 0xE0) * 4096 + (b1 - 0x80) * 64 + (b2 - 0x80)) ::
            utf8DecodeAux fuel rest2
        else replChar :: utf8DecodeAux fuel rest
      | _ => replChar :: utf8DecodeAux fuel rest
    else if 0xF0 ≤ b && b ≤ 0xF4 then
      match rest with
      | b1 :: b2 :: b3 :: rest3 =>
        if cont3OkB b b1 && isContB b2 && isContB b3 then
          Char.ofNat
              ((b - 0xF0) * 262144 + (b1 - 0x80) * 4096 + (b2 - 0x80) * 64 + (b3 - 0x80)) ::
            utf8DecodeAux fuel rest3
        else replChar :: utf8DecodeAux fuel rest
      | _ => replChar :: utf8DecodeAux fuel rest
    else replChar :: utf8DecodeAux fuel rest

def utf8DecodeReplace (l : List Nat) : List Char :=
  utf8DecodeAux l.length l

/-- The loop of `unquote`: ASCII runs are percent-decoded and UTF-8 decoded,
non-ASCII characters pass through (CPython splits on `_asciire`).  `fuel`
bounds the recursion; callers pass the length. -/
def unquoteLoop : Nat → List Char → List Char
  | 0, l => l
  | _ + 1, [] => []
  | fuel + 1, c :: rest =>
    if isAsciiC c then
      utf8DecodeReplace (unquoteToBytes ((c :: rest).takeWhile isAsciiC)) ++
        unquoteLoop fuel ((c :: rest).dropWhile isAsciiC)
    else c :: unquoteLoop fuel rest

/-- `urllib.parse.unquote` (string form): unchanged when there is no `%`. -/
def unquoteF (l : List Char) : List Char :=
  if l.contains '%' then unquoteLoop l.length l else l

/-- `urllib.parse.unquote_plus`: `+` becomes a space, then `unquote`. -/
def unquotePlusF (l : List Char) : List Char :=
  unquoteF (l.map (fun c => if c == '+' then ' ' else c))

/-! ### `parse_qsl` / `urlencode` -/

/-- `parse_qsl(qs, keep_blank_values=True)`: split on `&`, skip empty
fields, split each field at the first `=` (a missing `=` yields a blank
value), and `unquote_plus` names and values. -/
def parseQslF (qs : List Char) : List (String × String) :=
  if qs = [] then []
  else
    (splitOnChar '&' qs).filterMap (fun piece =>
      if piece = [] then none
      else
        match splitFirstChar '=' piece with
        | (name, some value) =>
          some (⟨unquotePlusF name⟩, ⟨unquotePlusF value⟩)
        | (name, none) => some (⟨unquotePlusF name⟩, ""))

/-- The `"&".join` of the encoded fields. -/
def joinWithAmp : List (List Char) → List Char
  | [] => []
  | [x] => x
  | x :: y :: rest => x ++ '&' :: joinWithAmp (y :: rest)

/-- `urlencode(pairs, doseq=True)` on string pairs: quote each name and
value with `quote_plus` and join `name=value` fields with `&`. -/
def urlencodePairsF (l : List (String × String)) : List Char :=
  joinWithAmp (l.map (fun kv => quotePlus kv.1 ++ '=' :: quotePlus kv.2))

/-! ### `normalize_url` and `ensure_domain` -/

/-- `TRACKING_PARAMS` (import_cache.py lines 19–29). -/
def TRACKING_PARAMS : List String :=
  ["fbclid", "gclid", "igshid", "utm_source", "utm_medium", "utm_campaign",
   "utm_term", "utm_content", "utm_id"]

/-- The filter of `normalize_url`: drop a parameter whose lower-cased key is
in `TRACKING_PARAMS` or starts with `"utm_"`. -/
def isTrackingKey (k : String) : Bool :=
  TRACKING_PARAMS.contains (pyLower k) || (pyLower k).data.take 4 == "utm_".data

/-- Python `path.rstrip("/")`. -/
def rstripSlash (l : List Char) : List Char :=
  (l.reverse.dropWhile (fun c => c == '/')).reverse

/-- `import_cache.normalize_url`: strip the raw URL, parse it, re-encode the
query without tracking parameters, lower-case scheme (default `"https"`)
and netloc, strip the trailing slash of the path (root becomes `"/"`), drop
the fragment, and unparse. -/
def normalizeComps (p : ParseRes) : ParseRes :=
  let queryPairs := parseQslF p.query
  let filtered := queryPairs.filter (fun kv => !isTrackingKey kv.1)
  let scheme1 := p.scheme.map pyLowerChar
  let scheme' := if scheme1 = [] then "https".data else scheme1
  let netloc' := p.netloc.map pyLowerChar
  let path0 := rstripSlash p.path
  let path' := if path0 = [] then ['/'] else path0
  let query' := urlencodePairsF filtered
  { scheme := scheme', netloc := netloc', path := path', params := p.params,
    query := query', fragment := [] }

def normalizeUrlE (raw : String) : Except Unit String :=
  match urlparseE (stripChars raw.data) with
  | .error e => .error e
  | .ok p => .ok ⟨urlunparseF (normalizeComps p)⟩

/-- `import_utils.ensure_domain`: `urlparse(url).netloc or url`. -/
def ensureDomainE (url : String) : Except Unit String :=
  (urlparseE url.data).map (fun p => if p.netloc ≠ [] then (⟨p.netloc⟩ : String) else url)

/-! ## The cached import flow (`import_cache.import_with_cache`) -/

/-- The row picked by
`select(GlobalRecipe).where(source_url_normalized == normalized)
 .where(supersedes_id.is_(None)).order_by(updated_at.desc()).first()`:
among matching rows, one with maximal `updated_at` (ties are unspecified in
SQL; the model keeps the earliest such row). -/
def pickLatest : List GlobalRecipe → Option GlobalRecipe
  | [] => none
  | r :: rs =>
    match pickLatest rs with
    | none => some r
    | some best => if best.updated_at > r.updated_at then some best else some r

/-- The `existing` query of `import_with_cache` (lines 199–204). -/
def latestCurrentEntry (db : List GlobalRecipe) (normalized : String) : Option GlobalRecipe :=
  pickLatest (db.filter (fun g =>
    g.source_url_normalized == some normalized && g.supersedes_id == none))

/-- Python `a or b` on two optional strings (used for
`recipe_data.get("mediaImageUrl") or recipe_data.get("mediaLocalPath")`). -/
def pyOrOpt (a b : Option String) : Option String :=
  if pyTruthy a then a else b

/-- `recipe_data.get("sourceDomain") or ensure_domain(url)`: the right-hand
side (which can raise) is evaluated only when the left is falsy. -/
def resolveSourceDomain (r : RecipeData) (url : String) : Except Unit String :=
  if pyTruthy r.sourceDomain then .ok (r.sourceDomain.getD "") else ensureDomainE url

/-- What a run of `import_with_cache` returns on success. -/
structure ImportResult where
  payload : RecipeData
  videoPath : Option String
  entry : GlobalRecipe
  fromCache : Bool
  language : String
  db : List GlobalRecipe
deriving Repr, DecidableEq

/-- How a run of `import_with_cache` can fail: a `ValueError` escaping
`normalize_url` / `ensure_domain`, or the fetcher's exception propagated
when there is no cached entry. -/
inductive ImportErr where
  | parseFailure
  | fetchFailure
deriving Repr, DecidableEq

/-- A run of `import_with_cache`, together with whether the fetcher was
invoked. -/
structure ImportRun where
  fetchInvoked : Bool
  outcome : Except ImportErr ImportResult
deriving Repr

/-- The not-better branch (lines 258–263): refresh the fetch and update
timestamps of the existing row without touching its content. -/
def touchRow (now : Int) (e : GlobalRecipe) : GlobalRecipe :=
  { e with last_fetched_at := some now, updated_at := now }

/-- The result returned when a cached entry is reused (fast path and
stale-cache fallback): its payload, no video path, `from_cache = True` and
`existing.language_code or "en"`. -/
def cachedResult (e : GlobalRecipe) (db : List GlobalRecipe) : ImportResult :=
  { payload := toRecipePayload e
    videoPath := none
    entry := e
    fromCache := true
    language := pyOrS e.language_code "en"
    db := db }

/-- The `GlobalRecipe(...)` constructed at lines 225–256. -/
def buildNewEntry (r : RecipeData) (url source normalized domain : String)
    (now : Int) (freshRowId : Nat) (canonicalGroupId : Nat)
    (existing : Option GlobalRecipe) : GlobalRecipe :=
  let sr := scoreRecipe r
  { id := freshRowId
    source_url := pyOrS r.sourceUrl url
    source_url_normalized := some normalized
    source_domain := some domain
    source_platform := some (pyOrS r.sourcePlatform source)
    language_code := some (detectLanguage r)
    title := r.title
    description := r.description
    meal_type := r.mealType
    difficulty := r.difficulty
    prep_time := r.prepTime
    cook_time := r.cookTime
    total_time := r.totalTime
    servings := r.servings
    nutrition_calories := r.nutritionCalories
    nutrition_protein := r.nutritionProtein
    nutrition_carbs := r.nutritionCarbs
    nutrition_fat := r.nutritionFat
    media_video_url := r.mediaVideoUrl
    media_image_url := pyOrOpt r.mediaImageUrl r.mediaLocalPath
    tags := pyOrList r.tags
    ingredients := pyOrList r.ingredients
    steps := pyOrList r.instructions
    quality_score := sr.score
    is_complete := sr.is_complete
    missing_fields := sr.missing
    last_fetched_at := some now
    canonical_hash := some (buildCanonicalHash r)
    canonical_group_id := some canonicalGroupId
    supersedes_id := existing.map (fun e => e.id)
    created_at := now
    updated_at := now }

/-- The part of `import_with_cache` after the fast path: run the fetcher
(its would-be outcome is the `fetchResult` oracle), fall back to the cache
or re-raise on failure, otherwise score, build the new row and either touch
the existing row (not better) or persist the new row (better or no prior
entry). -/
def importFetchPhase (db : List GlobalRecipe) (now : Int)
    (freshRowId freshGroupId : Nat) (url source normalized : String)
    (existing : Option GlobalRecipe)
    (fetchResult : Except Unit (RecipeData × Option String)) : ImportRun :=
  match fetchResult with
  | .error _ =>
    match existing with
    | some e => { fetchInvoked := true, outcome := .ok (cachedResult e db) }
    | none => { fetchInvoked := true, outcome := .error .fetchFailure }
  | .ok (recipeData, videoPath) =>
    let sr := scoreRecipe recipeData
    let canonicalGroupId : Nat :=
      match existing with
      | some e => match e.canonical_group_id with
        | some g => g
        | none => freshGroupId
      | none => freshGroupId
    match resolveSourceDomain recipeData url with
    | .error _ => { fetchInvoked := true, outcome := .error .parseFailure }
    | .ok domain =>
      let newEntry := buildNewEntry recipeData url source normalized domain now
        freshRowId canonicalGroupId existing
      match existing with
      | some e =>
        if !isBetter sr.score sr.is_complete e then
          let touched := touchRow now e
          { fetchInvoked := true
            outcome := .ok
              { payload := toRecipePayload touched
                videoPath := videoPath
                entry := touched
                fromCache := true
                language := pyOrS touched.language_code "en"
                db := db.map (fun g => if g.id == e.id then touched else g) } }
        else
          { fetchInvoked := true
            outcome := .ok
              { payload := toRecipePayload newEntry
                videoPath := videoPath
                entry := newEntry
                fromCache := false
                language := detectLanguage recipeData
                db := db ++ [newEntry] } }
      | none =>
        { fetchInvoked := true
          outcome := .ok
            { payload := toRecipePayload newEntry
              videoPath := videoPath
              entry := newEntry
              fromCache := false
              language := detectLanguage recipeData
              db := db ++ [newEntry] } }

/-- `import_cache.import_with_cache`.  `now` stands for the current instant
(`datetime.utcnow()` / `datetime.now(timezone.utc)` within one call),
`freshRowId` / `freshGroupId` for the `uuid4()` draws, and `fetchResult`
for what `fetcher(url)` would do (`.error` = raise). -/
def importWithCache (db : List GlobalRecipe) (now : Int)
    (freshRowId freshGroupId : Nat) (url source : String)
    (fetchResult : Except Unit (RecipeData × Option String)) : ImportRun :=
  match normalizeUrlE url with
  | .error _ => { fetchInvoked := false, outcome := .error .parseFailure }
  | .ok normalized =>
    let existing := latestCurrentEntry db normalized
    match existing with
    | some e =>
      if shouldReimport now (some e) then
        importFetchPhase db now freshRowId freshGroupId url source normalized (some e) fetchResult
      else
        { fetchInvoked := false, outcome := .ok (cachedResult e db) }
    | none =>
      importFetchPhase db now freshRowId freshGroupId url source normalized none fetchResult

/-! ## Claim theorems on the cached import flow -/

/-- Once past the fast path, the fetcher is always invoked. -/
theorem importFetchPhase_invoked (db : List GlobalRecipe) (now : Int)
    (freshRowId freshGroupId : Nat) (url source normalized : String)
    (existing : Option GlobalRecipe)
    (fetchResult : Except Unit (RecipeData × Option String)) :
    (importFetchPhase db now freshRowId freshGroupId url source normalized existing
      fetchResult).fetchInvoked = true := by
  unfold importFetchPhase
  rcases fetchResult with _ | ⟨r, v⟩
  · rcases existing with _ | e <;> rfl
  · cases hres : resolveSourceDomain r url
    · simp [hres]
    · rcases existing with _ | e
      · simp [hres]
      · by_cases hb : isBetter (scoreRecipe r).score (scoreRecipe r).is_complete e <;>
          simp [hres, hb]

/-- `_should_reimport` returns `False` exactly for a complete entry whose
score meets the threshold and whose recorded fetch instant is within the
freshness window. -/
theorem shouldReimport_false_iff (now : Int) (e : GlobalRecipe) :
    shouldReimport now (some e) = false ↔
      e.is_complete = true ∧ QUALITY_MIN_SCORE ≤ e.quality_score ∧
        ∃ t, e.last_fetched_at = some t ∧ now - t ≤ FRESH_DAYS * secondsPerDay := by
  unfold shouldReimport
  cases hc : e.is_complete
  · simp [hc]
  · by_cases hq : e.quality_score < QUALITY_MIN_SCORE
    · simp [hq, not_le.mpr hq]
    · cases hlf : e.last_fetched_at with
      | none => simp [hq, hlf]
      | some t =>
        simp only [hc, Bool.not_true, if_neg hq, hlf, Bool.false_eq_true, if_false]
        constructor
        · intro h
          refine ⟨trivial, not_lt.mp hq, t, rfl, ?_⟩
          by_contra hgt
          simp [not_le.mp hgt] at h
        · rintro ⟨-, -, t', ht', hle⟩
          obtain rfl : t = t' := by injection ht'
          simp [not_lt.mpr hle]


/-- C2: with a parseable URL, the fetcher is skipped exactly when the latest
current cached entry for the normalized URL exists, is complete, meets the
minimum quality score, and has a recorded fetch instant at most 30 days old;
in that case the cached entry's payload is returned unchanged; in every
other case the fetcher is invoked.  In particular a complete, high-scoring
entry fetched 31 days ago is refetched and one fetched 29 days ago is not. -/
theorem C2_fast_path (db : List GlobalRecipe) (now : Int)
    (freshRowId freshGroupId : Nat) (url source normalized : String)
    (fetchResult : Except Unit (RecipeData × Option String))
    (hnorm : normalizeUrlE url = .ok normalized) :
    ((importWithCache db now freshRowId freshGroupId url source fetchResult).fetchInvoked =
        false ↔
      ∃ e, latestCurrentEntry db normalized = some e ∧ e.is_complete = true ∧
        QUALITY_MIN_SCORE ≤ e.quality_score ∧
        ∃ t, e.last_fetched_at = some t ∧ now - t ≤ FRESH_DAYS * secondsPerDay) ∧
    (∀ e, latestCurrentEntry db normalized = some e →
      shouldReimport now (some e) = false →
      (importWithCache db now freshRowId freshGroupId url source fetchResult).outcome =
        .ok (cachedResult e db)) ∧
    (∀ (e : GlobalRecipe) (t : Int), e.is_complete = true →
      QUALITY_MIN_SCORE ≤ e.quality_score → e.last_fetched_at = some t →
      (now - t = 31 * secondsPerDay → shouldReimport now (some e) = true) ∧
      (now - t = 29 * secondsPerDay → shouldReimport now (some e) = false)) := by
  refine ⟨?_, ?_, ?_⟩
  · unfold importWithCache
    rw [hnorm]
    cases he : latestCurrentEntry db normalized with
    | none =>
      simp only [he, importFetchPhase_invoked]
      constructor
      · intro h; exact absurd h (by simp)
      · rintro ⟨e, he', -⟩; exact absurd he' (by simp [he])
    | some e =>
      by_cases hs : shouldReimport now (some e) = true
      · simp only [he, hs, if_true, importFetchPhase_invoked]
        constructor
        · intro h; exact absurd h (by simp)
        · rintro ⟨e', he', hcond⟩
          obtain rfl : e = e' := by injection he'
          have := (shouldReimport_false_iff now e).mpr hcond
          rw [hs] at this
          exact absurd this (by simp)
      · replace hs : shouldReimport now (some e) = false := by
          cases h : shouldReimport now (some e)
          · rfl
          · exact absurd h hs
        simp only [he, hs, Bool.false_eq_true, if_false]
        constructor
        · intro _
          exact ⟨e, rfl, (shouldReimport_false_iff now e).mp hs⟩
        · intro _; trivial
  · intro e he hs
    unfold importWithCache
    rw [hnorm]
    simp only [he, hs, Bool.false_eq_true, if_false]
  · intro e t hc hq hlf
    constructor
    · intro h31
      have hgt : now - t > FRESH_DAYS * secondsPerDay := by
        rw [h31]; unfold FRESH_DAYS secondsPerDay; omega
      simp [shouldReimport, hlf, hc, not_lt.mpr hq, hgt]
    · intro h29
      rw [shouldReimport_false_iff]
      refine ⟨hc, hq, t, hlf, ?_⟩
      rw [h29]; unfold FRESH_DAYS secondsPerDay; omega

/-- Witness for C2 at a concrete input: with an empty cache the fetcher is
invoked for `https://ex.com/r`. -/
theorem C2_fast_path_witness :
    (importWithCache [] 0 7 8 "https://ex.com/r" "web"
      (.ok ({ title := some "T" }, none))).fetchInvoked = true := by
  have h := C2_fast_path [] 0 7 8 "https://ex.com/r" "web" "https://ex.com/r"
    (.ok ({ title := some "T" }, none)) (by rfl)
  have hiff := h.1
  by_contra hne
  have hfalse : (importWithCache [] 0 7 8 "https://ex.com/r" "web"
      (.ok ({ title := some "T" }, none))).fetchInvoked = false := by
    cases hfi : (importWithCache [] 0 7 8 "https://ex.com/r" "web"
        (.ok ({ title := some "T" }, none))).fetchInvoked
    · rfl
    · exact absurd hfi hne
  obtain ⟨e, he, -⟩ := hiff.mp hfalse
  exact absurd he (by simp [latestCurrentEntry, pickLatest])

/-- C6: when the fetcher raises, a call with a cached entry for the
normalized URL swallows the exception and returns the cached entry's
payload with the store unchanged, while a call with no cached entry
propagates the failure. -/
theorem C6_fetch_failure_fallback (db : List GlobalRecipe) (now : Int)
    (freshRowId freshGroupId : Nat) (url source normalized : String)
    (hnorm : normalizeUrlE url = .ok normalized) :
    (∀ e, latestCurrentEntry db normalized = some e →
      (importWithCache db now freshRowId freshGroupId url source (.error ())).outcome =
        .ok (cachedResult e db)) ∧
    (latestCurrentEntry db normalized = none →
      importWithCache db now freshRowId freshGroupId url source (.error ()) =
        { fetchInvoked := true, outcome := .error .fetchFailure }) := by
  constructor
  · intro e he
    unfold importWithCache
    rw [hnorm]
    simp only [he]
    by_cases hs : shouldReimport now (some e) = true
    · simp only [hs, if_true]
      rfl
    · simp only [hs, Bool.false_eq_true, if_false]
  · intro he
    unfold importWithCache
    rw [hnorm]
    simp only [he]
    rfl

/-- Witness for C6 at a concrete input: with an empty cache a raising
fetcher propagates. -/
theorem C6_fetch_failure_fallback_witness :
    importWithCache [] 0 7 8 "https://ex.com/r" "web" (.error ()) =
      { fetchInvoked := true, outcome := .error .fetchFailure } := by
  exact (C6_fetch_failure_fallback [] 0 7 8 "https://ex.com/r" "web" "https://ex.com/r"
    (by rfl)).2 (by rfl)

/-- A complete, high-quality cached row whose last fetch is 40 days before
the `now` used in the C3 instances, so a refetch is triggered. -/
def c3Row : GlobalRecipe :=
  { id := 1
    source_url := "https://ex.com/r"
    source_url_normalized := some "https://ex.com/r"
    is_complete := true
    quality_score := 80
    last_fetched_at := some 0
    created_at := 0
    updated_at := 0 }

/-- C3 counterexample: in the not-better branch the code refreshes the
`updated_at` column as well as `last_fetched_at`, so "only the existing
entry's fetch timestamp is refreshed" is false: at this input the kept
entry's `updated_at` changes from 0 to `now`. -/
theorem C3_timestamps_counterexample :
    (importWithCache [c3Row] (40 * 86400) 7 8 "https://ex.com/r" "web"
      (.ok ({ title := some "T" }, none))).outcome =
      .ok { payload := toRecipePayload (touchRow (40 * 86400) c3Row)
            videoPath := none
            entry := touchRow (40 * 86400) c3Row
            fromCache := true
            language := "en"
            db := [touchRow (40 * 86400) c3Row] } ∧
    (touchRow (40 * 86400) c3Row).updated_at ≠ c3Row.updated_at := by
  constructor
  · rfl
  · decide

/-- C3 (amended): on a successful fetch, if the new result is not better
the existing row's fetch and update timestamps are set to `now`, every other
field of the row is unchanged, no row is added, and the (touched) existing
entry is returned; if the new result is better, or no prior entry exists,
exactly one new row is appended — carrying the existing entry's
`canonical_group_id` when it has one (else the fresh id) and
`supersedes_id = ` the prior entry's id (none without a prior entry) — and
every pre-existing row, the prior entry included, is left untouched. -/
theorem C3_persistence_amended (db : List GlobalRecipe) (now : Int)
    (freshRowId freshGroupId : Nat) (url source normalized domain : String)
    (r : RecipeData) (v : Option String)
    (hnorm : normalizeUrlE url = .ok normalized)
    (hdom : resolveSourceDomain r url = .ok domain) :
    (∀ e, latestCurrentEntry db normalized = some e →
      shouldReimport now (some e) = true →
      isBetter (scoreRecipe r).score (scoreRecipe r).is_complete e = false →
      (importWithCache db now freshRowId freshGroupId url source (.ok (r, v))).outcome =
        .ok { payload := toRecipePayload (touchRow now e)
              videoPath := v
              entry := touchRow now e
              fromCache := true
              language := pyOrS e.language_code "en"
              db := db.map (fun g => if g.id == e.id then touchRow now e else g) } ∧
      touchRow now e = { e with last_fetched_at := some now, updated_at := now } ∧
      (db.map (fun g => if g.id == e.id then touchRow now e else g)).length = db.length) ∧
    (∀ e, latestCurrentEntry db normalized = some e →
      shouldReimport now (some e) = true →
      isBetter (scoreRecipe r).score (scoreRecipe r).is_complete e = true →
      (importWithCache db now freshRowId freshGroupId url source (.ok (r, v))).outcome =
        .ok { payload := toRecipePayload (buildNewEntry r url source normalized domain now
                freshRowId (e.canonical_group_id.getD freshGroupId) (some e))
              videoPath := v
              entry := buildNewEntry r url source normalized domain now freshRowId
                (e.canonical_group_id.getD freshGroupId) (some e)
              fromCache := false
              language := detectLanguage r
              db := db ++ [buildNewEntry r url source normalized domain now freshRowId
                (e.canonical_group_id.getD freshGroupId) (some e)] } ∧
      (buildNewEntry r url source normalized domain now freshRowId
        (e.canonical_group_id.getD freshGroupId) (some e)).supersedes_id = some e.id ∧
      (buildNewEntry r url source normalized domain now freshRowId
        (e.canonical_group_id.getD freshGroupId) (some e)).canonical_group_id =
        some (e.canonical_group_id.getD freshGroupId)) ∧
    (latestCurrentEntry db normalized = none →
      (importWithCache db now freshRowId freshGroupId url source (.ok (r, v))).outcome =
        .ok { payload := toRecipePayload (buildNewEntry r url source normalized domain now
                freshRowId freshGroupId none)
              videoPath := v
              entry := buildNewEntry r url source normalized domain now freshRowId
                freshGroupId none
              fromCache := false
              language := detectLanguage r
              db := db ++ [buildNewEntry r url source normalized domain now freshRowId
                freshGroupId none] } ∧
      (buildNewEntry r url source normalized domain now freshRowId freshGroupId
        none).supersedes_id = none ∧
      (buildNewEntry r url source normalized domain now freshRowId freshGroupId
        none).canonical_group_id = some freshGroupId) := by
  refine ⟨?_, ?_, ?_⟩
  · intro e he hs hb
    unfold importWithCache
    rw [hnorm]
    simp only [he, hs, if_true]
    unfold importFetchPhase
    simp only [hdom, hb, Bool.not_false, if_true]
    refine ⟨?_, ?_, ?_⟩ <;> first | rfl | trivial | simp [List.length_map]
  · intro e he hs hb
    unfold importWithCache
    rw [hnorm]
    simp only [he, hs, if_true]
    unfold importFetchPhase
    simp only [hdom, hb, Bool.not_true, Bool.false_eq_true, if_false]
    refine ⟨?_, ?_, ?_⟩
    · cases hg : e.canonical_group_id <;> simp [hg, buildNewEntry]
    · cases hg : e.canonical_group_id <;> simp [hg, buildNewEntry]
    · cases hg : e.canonical_group_id <;> simp [hg, buildNewEntry]
  · intro he
    unfold importWithCache
    rw [hnorm]
    simp only [he]
    unfold importFetchPhase
    simp only [hdom]
    refine ⟨?_, ?_, ?_⟩ <;> first | rfl | trivial

/-- An incomplete cached row used by the C3 witness. -/
def c3IncompleteRow : GlobalRecipe :=
  { id := 2
    source_url := "https://ex.com/r2"
    source_url_normalized := some "https://ex.com/r2"
    is_complete := false
    quality_score := 10
    last_fetched_at := some 0
    canonical_group_id := some 77
    created_at := 0
    updated_at := 0 }

/-- A complete fetched payload used by the C3 witness. -/
def c3NewData : RecipeData :=
  { title := some "T"
    ingredients := some [{ line := some "1 egg", name := none, amount := none }]
    instructions := some [{ stepNumber := some 1, text := some "Mix" }] }

/-- Witness for C3 at a concrete input: a complete refetch over an
incomplete cached row appends one new row that reuses canonical group 77
and supersedes row 2. -/
theorem C3_persistence_amended_witness :
    (importWithCache [c3IncompleteRow] 5 7 8 "https://ex.com/r2" "web"
      (.ok (c3NewData, none))).outcome =
      .ok { payload := toRecipePayload (buildNewEntry c3NewData "https://ex.com/r2" "web"
              "https://ex.com/r2" "ex.com" 5 7 77 (some c3IncompleteRow))
            videoPath := none
            entry := buildNewEntry c3NewData "https://ex.com/r2" "web"
              "https://ex.com/r2" "ex.com" 5 7 77 (some c3IncompleteRow)
            fromCache := false
            language := detectLanguage c3NewData
            db := [c3IncompleteRow] ++ [buildNewEntry c3NewData "https://ex.com/r2" "web"
              "https://ex.com/r2" "ex.com" 5 7 77 (some c3IncompleteRow)] } ∧
    (buildNewEntry c3NewData "https://ex.com/r2" "web" "https://ex.com/r2" "ex.com" 5 7 77
      (some c3IncompleteRow)).supersedes_id = some 2 ∧
    (buildNewEntry c3NewData "https://ex.com/r2" "web" "https://ex.com/r2" "ex.com" 5 7 77
      (some c3IncompleteRow)).canonical_group_id = some 77 := by
  have h := C3_persistence_amended [c3IncompleteRow] 5 7 8 "https://ex.com/r2" "web"
    "https://ex.com/r2" "ex.com" c3NewData none (by rfl) (by rfl)
  exact h.2.1 c3IncompleteRow (by rfl) (by rfl) (by rfl)

/-! ## Character-level lemmas for the URL theorems -/

theorem charValidRange (c : Char) :
    c.toNat < 0xd800 ∨ (0xdfff < c.toNat ∧ c.toNat < 0x110000) := by
  have h := c.valid
  simp only [UInt32.isValidChar, Nat.isValidChar] at h
  simp only [Char.toNat]
  omega

theorem charOfNat_toNat {n : Nat} (h : Nat.isValidChar n) : (Char.ofNat n).toNat = n := by
  simp only [Char.ofNat, Char.ofNatAux, h, dite_true, Char.toNat, UInt32.toNat]
  simp [BitVec.toNat_ofNatLt]

theorem charEq_of_toNat {c d : Char} (h : c.toNat = d.toNat) : c = d := by
  apply Char.eq_of_val_eq
  simp only [Char.toNat] at h
  exact UInt32.toNat.inj h

theorem charLe_iff (c d : Char) : c ≤ d ↔ c.toNat ≤ d.toNat := by
  rw [Char.le_def, UInt32.le_def]
  rfl

theorem charBEq_iff (c d : Char) : (c == d) = true ↔ c.toNat = d.toNat := by
  constructor
  · intro h
    rw [beq_iff_eq.mp h]
  · intro h
    exact beq_iff_eq.mpr (charEq_of_toNat h)

/-- The `toNat` view of `pyLowerChar`. -/
theorem pyLowerChar_toNat (c : Char) :
    (pyLowerChar c).toNat =
      if 65 ≤ c.toNat ∧ c.toNat ≤ 90 then c.toNat + 32
      else if c.toNat = 196 then 228
      else if c.toNat = 214 then 246
      else if c.toNat = 220 then 252
      else c.toNat := by
  unfold pyLowerChar
  by_cases h1 : 65 ≤ c.toNat ∧ c.toNat ≤ 90
  · have hb : ('A' ≤ c && c ≤ 'Z') = true := by
      simp only [Bool.and_eq_true, decide_eq_true_iff]
      exact ⟨(charLe_iff 'A' c).mpr h1.1, (charLe_iff c 'Z').mpr h1.2⟩
    rw [if_pos hb, if_pos h1]
    exact charOfNat_toNat (Or.inl (by omega))
  · have hb : ¬ (('A' ≤ c && c ≤ 'Z') = true) := by
      simp only [Bool.and_eq_true, decide_eq_true_iff, charLe_iff]
      intro hcontra
      exact h1 ⟨hcontra.1, hcontra.2⟩
    rw [if_neg hb, if_neg h1]
    by_cases h2 : c.toNat = 196
    · rw [if_pos (by rw [charBEq_iff]; exact h2), if_pos h2]; decide
    · rw [if_neg (by rw [charBEq_iff]; exact h2), if_neg h2]
      by_cases h3 : c.toNat = 214
      · rw [if_pos (by rw [charBEq_iff]; exact h3), if_pos h3]; decide
      · rw [if_neg (by rw [charBEq_iff]; exact h3), if_neg h3]
        by_cases h4 : c.toNat = 220
        · rw [if_pos (by rw [charBEq_iff]; exact h4), if_pos h4]; decide
        · rw [if_neg (by rw [charBEq_iff]; exact h4), if_neg h4]

/-- Code points that `pyLowerChar` neither changes nor produces. -/
def pyLowerNeutralN (m : Nat) : Prop :=
  ¬(65 ≤ m ∧ m ≤ 90) ∧ ¬(97 ≤ m ∧ m ≤ 122) ∧
  m ≠ 196 ∧ m ≠ 214 ∧ m ≠ 220 ∧ m ≠ 228 ∧ m ≠ 246 ∧ m ≠ 252

theorem pyLowerChar_eq_iff {c d : Char} (hd : pyLowerNeutralN d.toNat) :
    pyLowerChar c = d ↔ c = d := by
  obtain ⟨hd1, hd2, hd3, hd4, hd5, hd6, hd7, hd8⟩ := hd
  constructor
  · intro h
    apply charEq_of_toNat
    have ht := congrArg Char.toNat h
    rw [pyLowerChar_toNat] at ht
    split_ifs at ht <;> omega
  · rintro rfl
    apply charEq_of_toNat
    rw [pyLowerChar_toNat]
    split_ifs <;> omega

theorem pyLowerChar_beq {d : Char} (hd : pyLowerNeutralN d.toNat) (c : Char) :
    (pyLowerChar c == d) = (c == d) := by
  by_cases h : c = d
  · rw [beq_iff_eq.mpr ((pyLowerChar_eq_iff hd).mpr h), beq_iff_eq.mpr h]
  · have h2 : ¬ pyLowerChar c = d := fun hc => h ((pyLowerChar_eq_iff hd).mp hc)
    rw [beq_eq_false_iff_ne.mpr h2, beq_eq_false_iff_ne.mpr h]

theorem pyLowerChar_beqRev {d : Char} (hd : pyLowerNeutralN d.toNat) (c : Char) :
    (d == pyLowerChar c) = (d == c) := by
  by_cases h : d = c
  · subst h
    rw [beq_iff_eq.mpr ((pyLowerChar_eq_iff hd).mpr rfl).symm, beq_iff_eq.mpr rfl]
  · have h2 : ¬ d = pyLowerChar c := fun hc => h (((pyLowerChar_eq_iff hd).mp hc.symm).symm)
    rw [beq_eq_false_iff_ne.mpr h2, beq_eq_false_iff_ne.mpr h]

theorem map_pyLower_contains {d : Char} (hd : pyLowerNeutralN d.toNat) :
    ∀ l : List Char, (l.map pyLowerChar).contains d = l.contains d := by
  intro l
  induction l with
  | nil => rfl
  | cons a as ih =>
    simp only [List.map_cons, List.contains_cons, ih, pyLowerChar_beqRev hd]

theorem pyLowerChar_idem (c : Char) : pyLowerChar (pyLowerChar c) = pyLowerChar c := by
  apply charEq_of_toNat
  rw [pyLowerChar_toNat, pyLowerChar_toNat]
  split_ifs <;> omega

theorem map_pyLower_idem (l : List Char) :
    (l.map pyLowerChar).map pyLowerChar = l.map pyLowerChar := by
  rw [List.map_map]
  exact List.map_congr_left (fun c _ => pyLowerChar_idem c)

theorem isSchemeChar_iff (c : Char) :
    isSchemeChar c = true ↔
      (65 ≤ c.toNat ∧ c.toNat ≤ 90) ∨ (97 ≤ c.toNat ∧ c.toNat ≤ 122) ∨
      (48 ≤ c.toNat ∧ c.toNat ≤ 57) ∨ c.toNat = 43 ∨ c.toNat = 45 ∨ c.toNat = 46 := by
  have eA : 'A'.toNat = 65 := rfl
  have eZ : 'Z'.toNat = 90 := rfl
  have ea : 'a'.toNat = 97 := rfl
  have ez : 'z'.toNat = 122 := rfl
  have e0 : '0'.toNat = 48 := rfl
  have e9 : '9'.toNat = 57 := rfl
  have ep : '+'.toNat = 43 := rfl
  have em : '-'.toNat = 45 := rfl
  have edot : '.'.toNat = 46 := rfl
  unfold isSchemeChar isAsciiAlphaC isAsciiDigitC
  simp only [Bool.or_eq_true, Bool.and_eq_true, decide_eq_true_iff, charLe_iff,
    charBEq_iff, eA, eZ, ea, ez, e0, e9, ep, em, edot]
  omega

theorem isAsciiAlphaC_iff (c : Char) :
    isAsciiAlphaC c = true ↔
      (65 ≤ c.toNat ∧ c.toNat ≤ 90) ∨ (97 ≤ c.toNat ∧ c.toNat ≤ 122) := by
  have eA : 'A'.toNat = 65 := rfl
  have eZ : 'Z'.toNat = 90 := rfl
  have ea : 'a'.toNat = 97 := rfl
  have ez : 'z'.toNat = 122 := rfl
  unfold isAsciiAlphaC
  simp only [Bool.or_eq_true, Bool.and_eq_true, decide_eq_true_iff, charLe_iff,
    eA, eZ, ea, ez]

theorem isSchemeChar_lower {c : Char} (h : isSchemeChar c = true) :
    isSchemeChar (pyLowerChar c) = true := by
  rw [isSchemeChar_iff] at h ⊢
  rw [pyLowerChar_toNat]
  split_ifs <;> omega

theorem isAsciiAlphaC_lower {c : Char} (h : isAsciiAlphaC c = true) :
    isAsciiAlphaC (pyLowerChar c) = true := by
  rw [isAsciiAlphaC_iff] at h ⊢
  rw [pyLowerChar_toNat]
  split_ifs <;> omega

theorem isNetlocDelim_iff (c : Char) :
    isNetlocDelim c = true ↔ c.toNat = 47 ∨ c.toNat = 63 ∨ c.toNat = 35 := by
  have es : '/'.toNat = 47 := rfl
  have eq : '?'.toNat = 63 := rfl
  have eh : '#'.toNat = 35 := rfl
  unfold isNetlocDelim
  simp only [Bool.or_eq_true, charBEq_iff, es, eq, eh]
  omega

theorem isNetlocDelim_lower (c : Char) :
    isNetlocDelim (pyLowerChar c) = isNetlocDelim c := by
  unfold isNetlocDelim
  rw [pyLowerChar_beq (by unfold pyLowerNeutralN; decide) c,
    pyLowerChar_beq (by unfold pyLowerNeutralN; decide) c,
    pyLowerChar_beq (by unfold pyLowerNeutralN; decide) c]

theorem isUnsafeUrlByte_lower (c : Char) :
    isUnsafeUrlByte (pyLowerChar c) = isUnsafeUrlByte c := by
  unfold isUnsafeUrlByte
  rw [pyLowerChar_beq (by unfold pyLowerNeutralN; decide) c,
    pyLowerChar_beq (by unfold pyLowerNeutralN; decide) c,
    pyLowerChar_beq (by unfold pyLowerNeutralN; decide) c]

/-! ### List-splitting lemmas -/

theorem splitFirstChar_not_mem {c : Char} :
    ∀ {l : List Char}, l.contains c = false → splitFirstChar c l = (l, none) := by
  intro l
  induction l with
  | nil => intro _; rfl
  | cons a as ih =>
    intro h
    rw [List.contains_cons, Bool.or_eq_false_iff] at h
    unfold splitFirstChar
    rw [if_neg (by
      intro hc
      rw [beq_iff_eq.mp hc] at h
      simp at h)]
    rw [ih h.2]

theorem splitFirstChar_append {c : Char} {a b : List Char} (h : a.contains c = false) :
    splitFirstChar c (a ++ c :: b) = (a, some b) := by
  induction a with
  | nil =>
    unfold splitFirstChar
    simp
  | cons x xs ih =>
    rw [List.contains_cons, Bool.or_eq_false_iff] at h
    have hx : ¬ (x == c) = true := by
      intro hc
      have := beq_iff_eq.mp hc
      subst this
      simp at h
    rw [List.cons_append]
    simp only [splitFirstChar, if_neg hx, ih h.2]

theorem takeWhile_append_cons {p : Char → Bool} {a : List Char}
    (ha : ∀ x ∈ a, p x = true) {y : Char} {b : List Char} (hy : p y = false) :
    (a ++ y :: b).takeWhile p = a := by
  induction a with
  | nil => simp [List.takeWhile_cons, hy]
  | cons x xs ih =>
    have hx := ha x (by simp)
    simp only [List.cons_append, List.takeWhile_cons, hx, if_true]
    rw [ih (fun z hz => ha z (by simp [hz]))]

theorem dropWhile_append_cons {p : Char → Bool} {a : List Char}
    (ha : ∀ x ∈ a, p x = true) {y : Char} {b : List Char} (hy : p y = false) :
    (a ++ y :: b).dropWhile p = y :: b := by
  induction a with
  | nil => simp [List.dropWhile_cons, hy]
  | cons x xs ih =>
    have hx := ha x (by simp)
    simp only [List.cons_append, List.dropWhile_cons, hx, if_true]
    exact ih (fun z hz => ha z (by simp [hz]))

theorem dropWhile_eq_self_of_head {p : Char → Bool} {x : Char} {xs : List Char}
    (hx : p x = false) : (x :: xs).dropWhile p = x :: xs := by
  simp [List.dropWhile_cons, hx]

theorem stripChars_eq_self {l : List Char}
    (hh : ∀ c, l.head? = some c → isPySpace c = false)
    (hl : ∀ c, l.getLast? = some c → isPySpace c = false) :
    stripChars l = l := by
  unfold stripChars
  cases l with
  | nil => rfl
  | cons x xs =>
    rw [dropWhile_eq_self_of_head (hh x rfl)]
    have hlast : ∀ c, ((x :: xs).reverse).head? = some c → isPySpace c = false := by
      intro c hc
      rw [List.head?_reverse] at hc
      exact hl c hc
    cases hr : (x :: xs).reverse with
    | nil => simp at hr
    | cons y ys =>
      rw [dropWhile_eq_self_of_head (hlast y (by rw [hr]; rfl)), ← hr,
        List.reverse_reverse]

theorem rstripSlash_isPre (l : List Char) : rstripSlash l <+: l := by
  unfold rstripSlash
  have h := @List.dropWhile_suffix Char l.reverse (fun c => c == '/')
  rw [← List.reverse_prefix] at h
  simpa using h

theorem rstripSlash_getLast {l : List Char} {c : Char}
    (h : (rstripSlash l).getLast? = some c) : (c == '/') = false := by
  unfold rstripSlash at h
  rw [List.getLast?_reverse] at h
  have := @List.head?_dropWhile_not Char (fun c => c == '/') l.reverse
  rw [h] at this
  simpa using this

theorem rstripSlash_idem (l : List Char) : rstripSlash (rstripSlash l) = rstripSlash l := by
  cases hr : (rstripSlash l).getLast? with
  | none =>
    rw [List.getLast?_eq_none_iff.mp hr]
    rfl
  | some c =>
    have hc := rstripSlash_getLast hr
    cases hrev : (rstripSlash l).reverse with
    | nil =>
      have : (rstripSlash l).getLast? = none := by
        rw [← List.head?_reverse, hrev]; rfl
      rw [this] at hr; cases hr
    | cons y ys =>
      have hy : y = c := by
        have : (rstripSlash l).reverse.head? = some c := by
          rw [List.head?_reverse]; exact hr
        rw [hrev] at this
        injection this
      subst hy
      show ((rstripSlash l).reverse.dropWhile (fun c => c == '/')).reverse = rstripSlash l
      rw [hrev, @dropWhile_eq_self_of_head (fun c => c == '/') y ys hc, ← hrev,
        List.reverse_reverse]

/-! ### UTF-8 round trip -/

theorem utf8DecodeAux_encode_cons (c : Char) (bs : List Nat) (f : Nat) :
    utf8DecodeAux (f + 1) (utf8EncodeChar c ++ bs) = c :: utf8DecodeAux f bs := by
  have hval := charValidRange c
  have hofn : ∀ m : Nat, m = c.toNat → Char.ofNat m = c := by
    rintro m rfl
    exact charEq_of_toNat (charOfNat_toNat (by
      rcases hval with h | h
      · exact Or.inl h
      · exact Or.inr ⟨by omega, by omega⟩))
  unfold utf8EncodeChar
  by_cases h1 : c.toNat < 0x80
  · rw [if_pos h1]
    show utf8DecodeAux (f + 1) (c.toNat :: bs) = c :: utf8DecodeAux f bs
    unfold utf8DecodeAux
    rw [if_pos h1, hofn _ rfl]
    congr 1
    rw [utf8DecodeAux.eq_def]
  · rw [if_neg h1]
    by_cases h2 : c.toNat < 0x800
    · rw [if_pos h2]
      show utf8DecodeAux (f + 1)
          ((0xC0 + c.toNat / 0x40) :: (0x80 + c.toNat % 0x40) :: bs) = c :: utf8DecodeAux f bs
      unfold utf8DecodeAux
      rw [if_neg (by omega)]
      rw [if_pos (by
        simp only [Bool.and_eq_true, decide_eq_true_iff]
        omega)]
      dsimp only
      rw [if_pos (by
        unfold isContB
        simp only [Bool.and_eq_true, decide_eq_true_iff]
        omega)]
      rw [hofn _ (by omega)]
      congr 1
      rw [utf8DecodeAux.eq_def]
    · rw [if_neg h2]
      by_cases h3 : c.toNat < 0x10000
      · rw [if_pos h3]
        show utf8DecodeAux (f + 1)
            ((0xE0 + c.toNat / 0x1000) :: (0x80 + c.toNat / 0x40 % 0x40) ::
              (0x80 + c.toNat % 0x40) :: bs) = c :: utf8DecodeAux f bs
        unfold utf8DecodeAux
        rw [if_neg (by omega)]
        rw [if_neg (by
          simp only [Bool.and_eq_true, decide_eq_true_iff, not_and, not_le]
          omega)]
        rw [if_pos (by
          simp only [Bool.and_eq_true, decide_eq_true_iff]
          omega)]
        dsimp only
        rw [if_pos (by
          unfold cont2OkB isContB
          simp only [Bool.and_eq_true, decide_eq_true_iff]
          constructor
          · split_ifs with he hd
            · have h0 : c.toNat / 0x1000 = 0 := by
                have := beq_iff_eq.mp he
                omega
              simp only [Bool.and_eq_true, decide_eq_true_iff]
              omega
            · have hdd : c.toNat / 0x1000 = 13 := by
                have := beq_iff_eq.mp hd
                omega
              have hns : c.toNat < 0xd800 := by
                rcases hval with h | h
                · exact h
                · omega
              simp only [Bool.and_eq_true, decide_eq_true_iff]
              omega
            · simp only [Bool.and_eq_true, decide_eq_true_iff]
              omega
          · omega)]
        rw [hofn _ (by omega)]
        congr 1
        rw [utf8DecodeAux.eq_def]
      · rw [if_neg h3]
        show utf8DecodeAux (f + 1)
            ((0xF0 + c.toNat / 0x40000) :: (0x80 + c.toNat / 0x1000 % 0x40) ::
              (0x80 + c.toNat / 0x40 % 0x40) :: (0x80 + c.toNat % 0x40) :: bs) =
            c :: utf8DecodeAux f bs
        have hub : c.toNat < 0x110000 := by
          rcases hval with h | h
          · omega
          · omega
        unfold utf8DecodeAux
        rw [if_neg (by omega)]
        rw [if_neg (by
          simp only [Bool.and_eq_true, decide_eq_true_iff, not_and, not_le]
          omega)]
        rw [if_neg (by
          simp only [Bool.and_eq_true, decide_eq_true_iff, not_and, not_le]
          omega)]
        rw [if_pos (by
          simp only [Bool.and_eq_true, decide_eq_true_iff]
          omega)]
        dsimp only
        rw [if_pos (by
          unfold cont3OkB isContB
          simp only [Bool.and_eq_true, decide_eq_true_iff]
          refine ⟨?_, by omega, by omega⟩
          split_ifs with he hd
          · have h0 : c.toNat / 0x40000 = 0 := by
              have := beq_iff_eq.mp he
              omega
            simp only [Bool.and_eq_true, decide_eq_true_iff]
            omega
          · have hdd : c.toNat / 0x40000 = 4 := by
              have := beq_iff_eq.mp hd
              omega
            simp only [Bool.and_eq_true, decide_eq_true_iff]
            omega
          · simp only [Bool.and_eq_true, decide_eq_true_iff]
            omega)]
        rw [hofn _ (by omega)]
        congr 1
        rw [utf8DecodeAux.eq_def]

theorem utf8DecodeAux_nil (f : Nat) : utf8DecodeAux f [] = [] := by
  cases f <;> rfl

theorem unquoteLoop_nil (f : Nat) : unquoteLoop f [] = [] := by
  cases f <;> rfl

theorem utf8EncodeChar_ne_nil (c : Char) : utf8EncodeChar c ≠ [] := by
  unfold utf8EncodeChar
  dsimp only
  split_ifs <;> simp

theorem utf8Decode_encode_list :
    ∀ (cs : List Char) (f : Nat), cs.length ≤ f →
      utf8DecodeAux f ((cs.map utf8EncodeChar).flatten) = cs := by
  intro cs
  induction cs with
  | nil =>
    intro f _
    simp [utf8DecodeAux_nil]
  | cons c rest ih =>
    intro f hf
    obtain ⟨f', rfl⟩ : ∃ f', f = f' + 1 := by
      cases f
      · simp at hf
      · exact ⟨_, rfl⟩
    rw [List.map_cons, List.flatten_cons, utf8DecodeAux_encode_cons]
    rw [ih f' (by simpa using hf)]

theorem length_le_flatten_encode (cs : List Char) :
    cs.length ≤ ((cs.map utf8EncodeChar).flatten).length := by
  induction cs with
  | nil => simp
  | cons c rest ih =>
    rw [List.map_cons, List.flatten_cons, List.length_append, List.length_cons]
    have : 1 ≤ (utf8EncodeChar c).length := by
      cases h : utf8EncodeChar c with
      | nil => exact absurd h (utf8EncodeChar_ne_nil c)
      | cons _ _ => simp
    omega

theorem utf8DecodeReplace_encode (s : String) : utf8DecodeReplace (utf8Bytes s) = s.data := by
  unfold utf8DecodeReplace utf8Bytes
  exact utf8Decode_encode_list s.data _ (length_le_flatten_encode s.data)

theorem hexDigitUpper_spec :
    ∀ x, x < 16 →
      isHexDigitC (hexDigitUpper x) = true ∧ hexValC (hexDigitUpper x) = x ∧
      alwaysSafeByte (hexDigitUpper x).toNat = true ∧ ¬ hexDigitUpper x = '%' ∧
      isAsciiC (hexDigitUpper x) = true := by
  decide

theorem utf8EncodeChar_lt (c : Char) : ∀ b ∈ utf8EncodeChar c, b < 256 := by
  have hval := charValidRange c
  unfold utf8EncodeChar
  dsimp only
  split_ifs with h1 h2 h3 <;> intro b hb <;> simp at hb <;> omega

theorem utf8Bytes_lt (s : String) : ∀ b ∈ utf8Bytes s, b < 256 := by
  unfold utf8Bytes
  intro b hb
  rw [List.mem_flatten] at hb
  obtain ⟨l, hl, hbl⟩ := hb
  rw [List.mem_map] at hl
  obtain ⟨c, -, rfl⟩ := hl
  exact utf8EncodeChar_lt c b hbl

theorem unquoteToBytes_cons_ne {x : Char} {xs : List Char} (hx : ¬ x = '%') :
    unquoteToBytes (x :: xs) = x.toNat :: unquoteToBytes xs := by
  cases xs with
  | nil => simp [unquoteToBytes, hx]
  | cons y ys =>
    cases ys with
    | nil => simp [unquoteToBytes, hx]
    | cons z zs => simp [unquoteToBytes, hx]

theorem unquoteToBytes_escape {h1 h2 : Char} {rest : List Char}
    (hh : (isHexDigitC h1 && isHexDigitC h2) = true) :
    unquoteToBytes ('%' :: h1 :: h2 :: rest) =
      (hexValC h1 * 16 + hexValC h2) :: unquoteToBytes rest := by
  simp [unquoteToBytes, hh]

theorem alwaysSafeByte_char {b : Nat} (h : alwaysSafeByte b = true) :
    (Char.ofNat b).toNat = b ∧ ¬ Char.ofNat b = '%' ∧ isAsciiC (Char.ofNat b) = true := by
  unfold alwaysSafeByte at h
  simp only [Bool.or_eq_true, Bool.and_eq_true, decide_eq_true_iff, beq_iff_eq] at h
  have hb : b < 0xd800 := by omega
  have ht : (Char.ofNat b).toNat = b := charOfNat_toNat (Or.inl hb)
  refine ⟨ht, ?_, ?_⟩
  · intro hc
    have hx := congrArg Char.toNat hc
    rw [ht] at hx
    have h37 : '%'.toNat = 37 := rfl
    rw [h37] at hx
    omega
  · unfold isAsciiC
    rw [ht]
    simp only [decide_eq_true_iff]
    omega

theorem asciiByte_char {b : Nat} (h : b ≤ 0x7F) : (Char.ofNat b).toNat = b :=
  charOfNat_toNat (Or.inl (by omega))

theorem unquote_quoteFromBytes (safe : List Char)
    (hsafe : ∀ c ∈ safe, isAsciiC c = true ∧ ¬ c = '%') :
    ∀ bs : List Nat, (∀ b ∈ bs, b < 256) →
      unquoteToBytes (quoteFromBytes safe bs) = bs := by
  intro bs
  induction bs with
  | nil => intro _; rfl
  | cons b rest ih =>
    intro hb
    have hblt := hb b (by simp)
    have hrest := ih (fun x hx => hb x (by simp [hx]))
    unfold quoteFromBytes
    by_cases hs : (alwaysSafeByte b || (decide (b ≤ 0x7F) && safe.contains (Char.ofNat b))) = true
    · rw [if_pos hs]
      rcases Bool.or_eq_true_iff.mp hs with hsb | hsc
      · obtain ⟨ht, hne, -⟩ := alwaysSafeByte_char hsb
        rw [unquoteToBytes_cons_ne hne, ht, hrest]
      · rw [Bool.and_eq_true] at hsc
        have hle : b ≤ 0x7F := by
          have := hsc.1
          simpa using this
        have hmem : Char.ofNat b ∈ safe := by
          have := hsc.2
          simpa using this
        have hne := (hsafe _ hmem).2
        rw [unquoteToBytes_cons_ne hne, asciiByte_char hle, hrest]
    · rw [if_neg hs]
      have hd1 := hexDigitUpper_spec (b / 16) (by omega)
      have hd2 := hexDigitUpper_spec (b % 16) (by omega)
      rw [unquoteToBytes_escape (by rw [hd1.1, hd2.1]; rfl)]
      rw [hd1.2.1, hd2.2.1, hrest]
      congr 1
      omega

theorem quoteFromBytes_chars (safe : List Char) :
    ∀ (bs : List Nat), (∀ b ∈ bs, b < 256) → ∀ c ∈ quoteFromBytes safe bs,
      alwaysSafeByte c.toNat = true ∨ c ∈ safe ∨ c = '%' := by
  intro bs
  induction bs with
  | nil => intro _ c hc; simp [quoteFromBytes] at hc
  | cons b rest ih =>
    intro hb c hc
    have hblt := hb b (by simp)
    have hrest := ih (fun x hx => hb x (by simp [hx]))
    unfold quoteFromBytes at hc
    by_cases hs : (alwaysSafeByte b || (decide (b ≤ 0x7F) && safe.contains (Char.ofNat b))) = true
    · rw [if_pos hs] at hc
      rcases List.mem_cons.mp hc with rfl | hc2
      · rcases Bool.or_eq_true_iff.mp hs with hsb | hsc
        · left
          rw [(alwaysSafeByte_char hsb).1]
          exact hsb
        · right; left
          rw [Bool.and_eq_true] at hsc
          have := hsc.2
          simpa using this
      · exact hrest c hc2
    · rw [if_neg hs] at hc
      rcases List.mem_cons.mp hc with rfl | hc2
      · right; right; rfl
      · rcases List.mem_cons.mp hc2 with rfl | hc3
        · left; exact (hexDigitUpper_spec (b / 16) (by omega)).2.2.1
        · rcases List.mem_cons.mp hc3 with rfl | hc4
          · left; exact (hexDigitUpper_spec (b % 16) (by omega)).2.2.1
          · exact hrest c hc4

theorem takeWhile_eq_self_of_all {p : Char → Bool} :
    ∀ {l : List Char}, (∀ x ∈ l, p x = true) → l.takeWhile p = l := by
  intro l
  induction l with
  | nil => intro _; rfl
  | cons x xs ih =>
    intro h
    rw [List.takeWhile_cons, if_pos (h x (by simp))]
    rw [ih (fun z hz => h z (by simp [hz]))]

theorem dropWhile_eq_nil_of_all {p : Char → Bool} :
    ∀ {l : List Char}, (∀ x ∈ l, p x = true) → l.dropWhile p = [] := by
  intro l
  induction l with
  | nil => intro _; rfl
  | cons x xs ih =>
    intro h
    rw [List.dropWhile_cons, if_pos (h x (by simp))]
    exact ih (fun z hz => h z (by simp [hz]))

theorem quoteFromBytes_no_percent {safe : List Char} :
    ∀ bs : List Nat, (∀ b ∈ bs, b < 256) →
      (quoteFromBytes safe bs).contains '%' = false →
      quoteFromBytes safe bs = bs.map Char.ofNat ∧ ∀ b ∈ bs, b < 128 := by
  intro bs
  induction bs with
  | nil => intro _ _; exact ⟨rfl, by simp⟩
  | cons b rest ih =>
    intro hb hnp
    unfold quoteFromBytes at hnp ⊢
    by_cases hs : (alwaysSafeByte b || (decide (b ≤ 0x7F) && safe.contains (Char.ofNat b))) = true
    · rw [if_pos hs] at hnp ⊢
      rw [List.contains_cons, Bool.or_eq_false_iff] at hnp
      obtain ⟨hrec, hlt⟩ := ih (fun x hx => hb x (by simp [hx])) hnp.2
      refine ⟨by rw [hrec, List.map_cons], ?_⟩
      intro x hx
      rcases List.mem_cons.mp hx with rfl | hx2
      · rcases Bool.or_eq_true_iff.mp hs with hsb | hsc
        · unfold alwaysSafeByte at hsb
          simp only [Bool.or_eq_true, Bool.and_eq_true, decide_eq_true_iff, beq_iff_eq] at hsb
          omega
        · rw [Bool.and_eq_true] at hsc
          have := hsc.1
          simp only [decide_eq_true_iff] at this
          omega
      · exact hlt x hx2
    · rw [if_neg hs] at hnp
      rw [List.contains_cons] at hnp
      simp at hnp

theorem utf8EncodeChar_ascii {c : Char} (h : c.toNat < 128) :
    utf8EncodeChar c = [c.toNat] := by
  unfold utf8EncodeChar
  dsimp only
  rw [if_pos h]

theorem utf8EncodeChar_head_large {c : Char} (h : ¬ c.toNat < 128) :
    ∃ b ∈ utf8EncodeChar c, 128 ≤ b := by
  unfold utf8EncodeChar
  dsimp only
  rw [if_neg h]
  split_ifs with h2 h3
  · exact ⟨192 + c.toNat / 64, by simp, by omega⟩
  · exact ⟨224 + c.toNat / 4096, by simp, by omega⟩
  · exact ⟨240 + c.toNat / 262144, by simp, by omega⟩

theorem utf8BytesL_of_ascii :
    ∀ cs : List Char, (∀ b ∈ (cs.map utf8EncodeChar).flatten, b < 128) →
      (cs.map utf8EncodeChar).flatten = cs.map Char.toNat := by
  intro cs
  induction cs with
  | nil => intro _; rfl
  | cons c rest ih =>
    intro h
    rw [List.map_cons, List.flatten_cons] at h ⊢
    have hc : c.toNat < 128 := by
      by_contra hc
      obtain ⟨b, hbmem, hble⟩ := utf8EncodeChar_head_large hc
      have := h b (by rw [List.mem_append]; exact Or.inl hbmem)
      omega
    rw [utf8EncodeChar_ascii hc, List.map_cons]
    rw [ih (fun b hb => h b (by rw [List.mem_append]; exact Or.inr hb))]
    rfl

theorem utf8Bytes_of_ascii {s : String} (h : ∀ b ∈ utf8Bytes s, b < 128) :
    utf8Bytes s = s.data.map Char.toNat :=
  utf8BytesL_of_ascii s.data h

theorem charOfNat_toNat_char (c : Char) : Char.ofNat c.toNat = c := by
  apply charEq_of_toNat
  rw [charOfNat_toNat (by
    rcases charValidRange c with h | h
    · exact Or.inl h
    · exact Or.inr ⟨by omega, by omega⟩)]

theorem unquote_quote (s : String) (safe : List Char)
    (hsafe : ∀ c ∈ safe, isAsciiC c = true ∧ ¬ c = '%') :
    unquoteF (quoteStr s safe) = s.data := by
  unfold unquoteF
  by_cases hp : (quoteStr s safe).contains '%' = true
  · rw [if_pos hp]
    have hascii : ∀ c ∈ quoteStr s safe, isAsciiC c = true := by
      intro c hc
      rcases quoteFromBytes_chars safe (utf8Bytes s) (utf8Bytes_lt s) c hc with h | h | h
      · unfold isAsciiC
        unfold alwaysSafeByte at h
        simp only [Bool.or_eq_true, Bool.and_eq_true, decide_eq_true_iff, beq_iff_eq] at h
        simp only [decide_eq_true_iff]
        omega
      · exact (hsafe c h).1
      · subst h; rfl
    cases hl : quoteStr s safe with
    | nil => rw [hl] at hp; simp at hp
    | cons x xs =>
      rw [hl] at hascii
      rw [List.length_cons]
      unfold unquoteLoop
      rw [if_pos (hascii x (by simp))]
      rw [takeWhile_eq_self_of_all hascii, dropWhile_eq_nil_of_all hascii]
      rw [unquoteLoop_nil, List.append_nil, ← hl]
      show utf8DecodeReplace (unquoteToBytes (quoteFromBytes safe (utf8Bytes s))) = s.data
      rw [unquote_quoteFromBytes safe hsafe (utf8Bytes s) (utf8Bytes_lt s)]
      exact utf8DecodeReplace_encode s
  · rw [if_neg hp]
    have hp2 : (quoteStr s safe).contains '%' = false := by
      cases h : (quoteStr s safe).contains '%'
      · rfl
      · exact absurd h hp
    obtain ⟨heq, hlt⟩ := quoteFromBytes_no_percent (utf8Bytes s) (utf8Bytes_lt s) hp2
    show quoteFromBytes safe (utf8Bytes s) = s.data
    rw [heq, utf8Bytes_of_ascii hlt, List.map_map]
    have h1 : List.map (Char.ofNat ∘ Char.toNat) s.data = List.map id s.data :=
      List.map_congr_left (fun c _ => charOfNat_toNat_char c)
    rw [h1, List.map_id]

theorem quotePlus_chars (s : String) :
    ∀ c ∈ quotePlus s, alwaysSafeByte c.toNat = true ∨ c = '+' ∨ c = '%' := by
  unfold quotePlus
  by_cases hsp : s.data.contains ' ' = true
  · rw [if_pos hsp]
    intro c hc
    rw [List.mem_map] at hc
    obtain ⟨d, hd, rfl⟩ := hc
    rcases quoteFromBytes_chars [' '] (utf8Bytes s) (utf8Bytes_lt s) d hd with h | h | h
    · by_cases hde : (d == ' ') = true
      · right; left; simp [hde]
      · left
        rw [if_neg hde]
        exact h
    · rcases List.mem_singleton.mp h with rfl
      right; left; rfl
    · subst h
      right; right; rfl
  · rw [if_neg hsp]
    intro c hc
    rcases quoteFromBytes_chars [] (utf8Bytes s) (utf8Bytes_lt s) c hc with h | h | h
    · left; exact h
    · simp at h
    · right; right; exact h

theorem quotePlus_no_plus_aux {s : String} {c : Char} (hc : c ∈ quoteStr s [' '])
    (h : c = '+') : False := by
  rcases quoteFromBytes_chars [' '] (utf8Bytes s) (utf8Bytes_lt s) c hc with hh | hh | hh
  · subst h
    revert hh
    decide
  · subst h
    simp at hh
  · subst h
    simp at hh

theorem unquotePlus_quotePlus (s : String) : unquotePlusF (quotePlus s) = s.data := by
  unfold unquotePlusF quotePlus
  by_cases hsp : s.data.contains ' ' = true
  · rw [if_pos hsp]
    have hmaps : ((quoteStr s [' ']).map (fun c => if c == ' ' then '+' else c)).map
        (fun c => if c == '+' then ' ' else c) = quoteStr s [' '] := by
      rw [List.map_map]
      conv_rhs => rw [← List.map_id (quoteStr s [' '])]
      apply List.map_congr_left
      intro c hc
      simp only [Function.comp_apply]
      by_cases he : (c == ' ') = true
      · rw [if_pos he, beq_iff_eq.mp he]
        rfl
      · rw [if_neg he, if_neg (fun hp => quotePlus_no_plus_aux hc (beq_iff_eq.mp hp))]
        rfl
    rw [hmaps]
    refine unquote_quote s [' '] ?_
    intro c hcm
    rcases List.mem_singleton.mp hcm with rfl
    exact ⟨rfl, by decide⟩
  · rw [if_neg hsp]
    have hmap : (quoteStr s []).map (fun c => if c == '+' then ' ' else c) =
        quoteStr s [] := by
      conv_rhs => rw [← List.map_id (quoteStr s [])]
      apply List.map_congr_left
      intro c hc
      rw [if_neg (by
        intro hp
        have hp2 := beq_iff_eq.mp hp
        rcases quoteFromBytes_chars [] (utf8Bytes s) (utf8Bytes_lt s) c hc with hh | hh | hh
        · subst hp2; revert hh; decide
        · simp at hh
        · subst hp2; simp at hh)]
      rfl
    rw [hmap]
    refine unquote_quote s [] ?_
    intro c hcm
    simp at hcm

/-! ### `parse_qsl` / `urlencode` round trip -/

theorem splitOnChar_cons (sep c : Char) (rest : List Char) :
    splitOnChar sep (c :: rest) =
      if c == sep then [] :: splitOnChar sep rest
      else
        match splitOnChar sep rest with
        | h :: t => (c :: h) :: t
        | [] => [[c]] := rfl

theorem splitOnChar_ne_nil (sep : Char) : ∀ l : List Char, splitOnChar sep l ≠ [] := by
  intro l
  induction l with
  | nil => simp [splitOnChar]
  | cons c rest ih =>
    rw [splitOnChar_cons]
    by_cases hc : (c == sep) = true
    · rw [if_pos hc]; simp
    · rw [if_neg hc]
      cases h : splitOnChar sep rest with
      | nil => exact absurd h ih
      | cons a as => simp

theorem splitOnChar_no_sep (sep : Char) :
    ∀ l : List Char, l.contains sep = false → splitOnChar sep l = [l] := by
  intro l
  induction l with
  | nil => intro _; rfl
  | cons c rest ih =>
    intro h
    rw [List.contains_cons, Bool.or_eq_false_iff] at h
    rw [splitOnChar_cons]
    rw [if_neg (by
      intro hc
      rw [beq_iff_eq.mp hc] at h
      simp at h)]
    rw [ih h.2]

theorem splitOnChar_append_sep (sep : Char) :
    ∀ a l : List Char, a.contains sep = false →
      splitOnChar sep (a ++ sep :: l) = a :: splitOnChar sep l := by
  intro a
  induction a with
  | nil =>
    intro l _
    rw [List.nil_append, splitOnChar_cons, if_pos (by simp)]
  | cons c cx ih =>
    intro l h
    rw [List.contains_cons, Bool.or_eq_false_iff] at h
    rw [List.cons_append]
    rw [splitOnChar_cons]
    rw [if_neg (by
      intro hc
      rw [beq_iff_eq.mp hc] at h
      simp at h)]
    rw [ih l h.2]

theorem splitOnChar_joinWithAmp :
    ∀ pieces : List (List Char), pieces ≠ [] →
      (∀ p ∈ pieces, p.contains '&' = false) →
      splitOnChar '&' (joinWithAmp pieces) = pieces := by
  intro pieces
  induction pieces with
  | nil => intro h _; exact absurd rfl h
  | cons x rest ih =>
    intro _ hall
    cases rest with
    | nil =>
      show splitOnChar '&' x = [x]
      exact splitOnChar_no_sep '&' x (hall x (by simp))
    | cons y ys =>
      show splitOnChar '&' (x ++ '&' :: joinWithAmp (y :: ys)) = x :: y :: ys
      rw [splitOnChar_append_sep '&' x _ (hall x (by simp))]
      rw [ih (by simp) (fun p hp => hall p (by simp [hp]))]

theorem isQueryOutSafe {c : Char}
    (h : alwaysSafeByte c.toNat = true ∨ c = '+' ∨ c = '%') :
    ¬ c = '&' ∧ ¬ c = '=' := by
  constructor
  · intro rfl1
    subst rfl1
    rcases h with h | h | h
    · revert h; decide
    · simp at h
    · simp at h
  · intro rfl1
    subst rfl1
    rcases h with h | h | h
    · revert h; decide
    · simp at h
    · simp at h

theorem quotePlus_not_amp_eq (s : String) :
    (quotePlus s).contains '&' = false ∧ (quotePlus s).contains '=' = false := by
  constructor
  · cases h : (quotePlus s).contains '&'
    · rfl
    · have hm : '&' ∈ quotePlus s := by simpa using h
      exact absurd rfl (isQueryOutSafe (quotePlus_chars s '&' hm)).1
  · cases h : (quotePlus s).contains '='
    · rfl
    · have hm : '=' ∈ quotePlus s := by simpa using h
      exact absurd rfl (isQueryOutSafe (quotePlus_chars s '=' hm)).2

theorem parsePiece_enc (ab : String × String) :
    (if quotePlus ab.1 ++ '=' :: quotePlus ab.2 = [] then none
     else
       match splitFirstChar '=' (quotePlus ab.1 ++ '=' :: quotePlus ab.2) with
       | (name, some value) =>
         some ((⟨unquotePlusF name⟩ : String), (⟨unquotePlusF value⟩ : String))
       | (name, none) => some ((⟨unquotePlusF name⟩ : String), "")) =
      some ab := by
  rw [if_neg (by simp)]
  rw [splitFirstChar_append (quotePlus_not_amp_eq ab.1).2]
  simp only
  rw [unquotePlus_quotePlus ab.1, unquotePlus_quotePlus ab.2]

theorem parseQsl_enc_list : ∀ m : List (String × String),
    List.filterMap (fun piece =>
      if piece = [] then none
      else
        match splitFirstChar '=' piece with
        | (name, some value) =>
          some ((⟨unquotePlusF name⟩ : String), (⟨unquotePlusF value⟩ : String))
        | (name, none) => some ((⟨unquotePlusF name⟩ : String), ""))
      (List.map (fun kv : String × String => quotePlus kv.1 ++ '=' :: quotePlus kv.2) m)
      = m := by
  intro m
  induction m with
  | nil => rfl
  | cons a as ih =>
    rw [List.map_cons, List.filterMap_cons, parsePiece_enc a, ih]

theorem parseQsl_urlencode (l : List (String × String)) :
    parseQslF (urlencodePairsF l) = l := by
  cases l with
  | nil => rfl
  | cons kv rest =>
    unfold parseQslF urlencodePairsF
    have hpieces : ∀ p ∈ (kv :: rest).map
        (fun kv => quotePlus kv.1 ++ '=' :: quotePlus kv.2), p.contains '&' = false := by
      intro p hp
      rw [List.mem_map] at hp
      obtain ⟨ab, -, rfl⟩ := hp
      cases hc : (quotePlus ab.1 ++ '=' :: quotePlus ab.2).contains '&'
      · rfl
      · exfalso
        have hm : '&' ∈ quotePlus ab.1 ++ '=' :: quotePlus ab.2 := by simpa using hc
        rcases List.mem_append.mp hm with hm | hm
        · exact absurd rfl (isQueryOutSafe (quotePlus_chars ab.1 '&' hm)).1
        · rcases List.mem_cons.mp hm with hm | hm
          · exact absurd hm (by decide)
          · exact absurd rfl (isQueryOutSafe (quotePlus_chars ab.2 '&' hm)).1
    have hqs : ¬ joinWithAmp ((kv :: rest).map
        (fun kv => quotePlus kv.1 ++ '=' :: quotePlus kv.2)) = [] := by
      cases rest with
      | nil => simp [joinWithAmp]
      | cons y ys => simp [joinWithAmp]
    rw [if_neg hqs]
    rw [splitOnChar_joinWithAmp _ (by simp) hpieces]
    exact parseQsl_enc_list (kv :: rest)

/-! ### Character-class facts for the idempotence proof -/

theorem isPySpace_iff (c : Char) : isPySpace c = true ↔
    c.toNat = 32 ∨ c.toNat = 9 ∨ c.toNat = 10 ∨ c.toNat = 13 ∨ c.toNat = 0x0b ∨
    c.toNat = 0x0c ∨ (0x1c ≤ c.toNat ∧ c.toNat ≤ 0x1f) ∨ c.toNat = 0x85 ∨
    c.toNat = 0xa0 ∨ c.toNat = 0x1680 ∨ (0x2000 ≤ c.toNat ∧ c.toNat ≤ 0x200a) ∨
    c.toNat = 0x2028 ∨ c.toNat = 0x2029 ∨ c.toNat = 0x202f ∨ c.toNat = 0x205f ∨
    c.toNat = 0x3000 := by
  have e1 : ' '.toNat = 32 := rfl
  have e2 : '\t'.toNat = 9 := rfl
  have e3 : '\n'.toNat = 10 := rfl
  have e4 : '\r'.toNat = 13 := rfl
  have hch : ∀ d : Char, c = d ↔ c.toNat = d.toNat :=
    fun d => ⟨fun h => by rw [h], charEq_of_toNat⟩
  unfold isPySpace
  simp only [Bool.or_eq_true, Bool.and_eq_true, charBEq_iff, beq_iff_eq,
    decide_eq_true_eq, hch, e1, e2, e3, e4]
  omega

theorem alwaysSafeByte_iff (b : Nat) : alwaysSafeByte b = true ↔
    (0x41 ≤ b ∧ b ≤ 0x5A) ∨ (0x61 ≤ b ∧ b ≤ 0x7A) ∨ (0x30 ≤ b ∧ b ≤ 0x39) ∨
    b = 0x5F ∨ b = 0x2E ∨ b = 0x2D ∨ b = 0x7E := by
  unfold alwaysSafeByte
  simp only [Bool.or_eq_true, Bool.and_eq_true, beq_iff_eq, decide_eq_true_eq]
  omega

theorem isUnsafeUrlByte_iff (c : Char) : isUnsafeUrlByte c = true ↔
    c.toNat = 9 ∨ c.toNat = 13 ∨ c.toNat = 10 := by
  have e2 : '\t'.toNat = 9 := rfl
  have e3 : '\n'.toNat = 10 := rfl
  have e4 : '\r'.toNat = 13 := rfl
  have hch : ∀ d : Char, c = d ↔ c.toNat = d.toNat :=
    fun d => ⟨fun h => by rw [h], charEq_of_toNat⟩
  unfold isUnsafeUrlByte
  simp only [Bool.or_eq_true, charBEq_iff, beq_iff_eq, hch, e2, e3, e4]
  omega

/-- Characters that can appear in a `urlencode` output are neither Python
whitespace nor removed URL bytes nor `#`. -/
theorem queryChar_tame {c : Char}
    (h : alwaysSafeByte c.toNat = true ∨ c = '+' ∨ c = '%' ∨ c = '&' ∨ c = '=') :
    isPySpace c = false ∧ isUnsafeUrlByte c = false ∧ c ≠ '#' ∧ c ≠ '?' := by
  rcases h with h | h | h | h | h
  · rw [alwaysSafeByte_iff] at h
    refine ⟨?_, ?_, ?_, ?_⟩
    · cases hs : isPySpace c
      · rfl
      · rw [isPySpace_iff] at hs; omega
    · cases hs : isUnsafeUrlByte c
      · rfl
      · rw [isUnsafeUrlByte_iff] at hs; omega
    · intro he
      have : c.toNat = 35 := by rw [he]; rfl
      omega
    · intro he
      have : c.toNat = 63 := by rw [he]; rfl
      omega
  all_goals subst h
  all_goals exact ⟨by decide, by decide, by decide, by decide⟩

theorem schemeChar_tame {c : Char} (h : isSchemeChar c = true) :
    isUnsafeUrlByte c = false ∧ (c == ':') = false := by
  rw [isSchemeChar_iff] at h
  have e : ':'.toNat = 58 := rfl
  constructor
  · cases hs : isUnsafeUrlByte c
    · rfl
    · rw [isUnsafeUrlByte_iff] at hs; omega
  · cases hs : (c == ':')
    · rfl
    · rw [charBEq_iff, e] at hs; omega

theorem alpha_not_space {c : Char} (h : isAsciiAlphaC c = true) :
    isC0OrSpace c = false ∧ isPySpace c = false := by
  rw [isAsciiAlphaC_iff] at h
  constructor
  · unfold isC0OrSpace
    simp only [decide_eq_false_iff_not]
    omega
  · cases hs : isPySpace c
    · rfl
    · rw [isPySpace_iff] at hs; omega

theorem contains_false_iff (l : List Char) (c : Char) :
    l.contains c = false ↔ c ∉ l := by
  simp

theorem getLast?_mem : ∀ {l : List Char} {c : Char}, l.getLast? = some c → c ∈ l := by
  intro l
  induction l with
  | nil => intro c h; cases h
  | cons a as ih =>
    intro c h
    cases as with
    | nil =>
      have : a = c := by
        have : (some a : Option Char) = some c := h
        injection this
      simp [this]
    | cons b bs =>
      rw [List.getLast?_cons_cons] at h
      exact List.mem_cons_of_mem a (ih h)

/-! ### Commutation of the splitting helpers with lower-casing -/

theorem takeWhile_map_pyLower {p : Char → Bool} (hp : ∀ c, p (pyLowerChar c) = p c)
    (l : List Char) :
    (l.map pyLowerChar).takeWhile p = (l.takeWhile p).map pyLowerChar := by
  have h : (p ∘ pyLowerChar) = p := funext hp
  rw [List.takeWhile_map, h]

theorem dropWhile_map_pyLower {p : Char → Bool} (hp : ∀ c, p (pyLowerChar c) = p c)
    (l : List Char) :
    (l.map pyLowerChar).dropWhile p = (l.dropWhile p).map pyLowerChar := by
  have h : (p ∘ pyLowerChar) = p := funext hp
  rw [List.dropWhile_map, h]

theorem splitFirstChar_cons (sep c : Char) (rest : List Char) :
    splitFirstChar sep (c :: rest) =
      if c == sep then ([], some rest)
      else (c :: (splitFirstChar sep rest).1, (splitFirstChar sep rest).2) := rfl

theorem splitFirstChar_map {sep : Char} (hsep : pyLowerNeutralN sep.toNat) :
    ∀ l : List Char,
      splitFirstChar sep (l.map pyLowerChar) =
        ((splitFirstChar sep l).1.map pyLowerChar,
         ((splitFirstChar sep l).2).map (List.map pyLowerChar)) := by
  intro l
  induction l with
  | nil => rfl
  | cons c rest ih =>
    rw [List.map_cons, splitFirstChar_cons, splitFirstChar_cons, pyLowerChar_beq hsep]
    by_cases h : (c == sep) = true
    · rw [if_pos h, if_pos h]
      rfl
    · rw [if_neg h, if_neg h, ih]
      rfl

theorem splitOnChar_map {sep : Char} (hsep : pyLowerNeutralN sep.toNat) :
    ∀ l : List Char,
      splitOnChar sep (l.map pyLowerChar) = (splitOnChar sep l).map (List.map pyLowerChar) := by
  intro l
  induction l with
  | nil => rfl
  | cons c rest ih =>
    rw [List.map_cons, splitOnChar_cons, splitOnChar_cons, pyLowerChar_beq hsep, ih]
    by_cases h : (c == sep) = true
    · rw [if_pos h, if_pos h]
      rfl
    · rw [if_neg h, if_neg h]
      cases hr : splitOnChar sep rest with
      | nil => exact absurd hr (splitOnChar_ne_nil sep rest)
      | cons a as => rfl

/-! ### Lower-casing invariance of the `ipaddress` validations -/

theorem isHexDigitC_iff (c : Char) : isHexDigitC c = true ↔
    (48 ≤ c.toNat ∧ c.toNat ≤ 57) ∨ (97 ≤ c.toNat ∧ c.toNat ≤ 102) ∨
    (65 ≤ c.toNat ∧ c.toNat ≤ 70) := by
  have e0 : '0'.toNat = 48 := rfl
  have e9 : '9'.toNat = 57 := rfl
  have ea : 'a'.toNat = 97 := rfl
  have ef : 'f'.toNat = 102 := rfl
  have eA : 'A'.toNat = 65 := rfl
  have eF : 'F'.toNat = 70 := rfl
  unfold isHexDigitC isAsciiDigitC
  simp only [Bool.or_eq_true, Bool.and_eq_true, decide_eq_true_eq, charLe_iff,
    e0, e9, ea, ef, eA, eF]
  tauto

theorem isAsciiDigitC_iff (c : Char) : isAsciiDigitC c = true ↔
    48 ≤ c.toNat ∧ c.toNat ≤ 57 := by
  have e0 : '0'.toNat = 48 := rfl
  have e9 : '9'.toNat = 57 := rfl
  unfold isAsciiDigitC
  simp only [Bool.and_eq_true, decide_eq_true_eq, charLe_iff, e0, e9]

theorem isHexDigitC_lower (c : Char) : isHexDigitC (pyLowerChar c) = isHexDigitC c := by
  have h1 := isHexDigitC_iff (pyLowerChar c)
  have h2 := isHexDigitC_iff c
  rw [pyLowerChar_toNat] at h1
  cases hl : isHexDigitC (pyLowerChar c) <;> cases hc : isHexDigitC c <;> try rfl
  · rw [hl] at h1; rw [hc] at h2
    simp at h1 h2
    exfalso; revert h1; split_ifs <;> intro h1 <;> omega
  · rw [hl] at h1; rw [hc] at h2
    simp at h1 h2
    exfalso; revert h1; split_ifs <;> intro h1 <;> omega

theorem isAsciiDigitC_lower (c : Char) : isAsciiDigitC (pyLowerChar c) = isAsciiDigitC c := by
  have h1 := isAsciiDigitC_iff (pyLowerChar c)
  have h2 := isAsciiDigitC_iff c
  rw [pyLowerChar_toNat] at h1
  cases hl : isAsciiDigitC (pyLowerChar c) <;> cases hc : isAsciiDigitC c <;> try rfl
  · rw [hl] at h1; rw [hc] at h2
    simp at h1 h2
    exfalso; revert h1; split_ifs <;> intro h1 <;> omega
  · rw [hl] at h1; rw [hc] at h2
    simp at h1 h2
    exfalso; revert h1; split_ifs <;> intro h1 <;> omega

theorem pyLowerChar_digit {c : Char} (h : isAsciiDigitC c = true) : pyLowerChar c = c := by
  rw [isAsciiDigitC_iff] at h
  apply charEq_of_toNat
  rw [pyLowerChar_toNat]
  split_ifs <;> omega

theorem map_pyLower_digits {l : List Char} (h : l.all isAsciiDigitC = true) :
    l.map pyLowerChar = l := by
  have h2 := List.all_eq_true.mp h
  have h3 := List.map_congr_left (fun c hc => pyLowerChar_digit (h2 c hc))
  simpa using h3

theorem hextetOk_lower (p : List Char) : hextetOk (p.map pyLowerChar) = hextetOk p := by
  have hfun : (isHexDigitC ∘ pyLowerChar) = isHexDigitC := funext isHexDigitC_lower
  unfold hextetOk
  rw [List.all_map, hfun, List.length_map]
  have h1 : (decide (List.map pyLowerChar p ≠ [])) = (decide (p ≠ [])) := by
    rw [decide_eq_decide]
    simp [List.map_eq_nil_iff]
  rw [h1]

theorem ipv4OctetOk_lower (p : List Char) : ipv4OctetOk (p.map pyLowerChar) = ipv4OctetOk p := by
  have hfun : (isAsciiDigitC ∘ pyLowerChar) = isAsciiDigitC := funext isAsciiDigitC_lower
  by_cases hd : p.all isAsciiDigitC = true
  · rw [map_pyLower_digits hd]
  · have hdf : p.all isAsciiDigitC = false := by
      revert hd; cases p.all isAsciiDigitC <;> simp
    have hdf2 : (p.map pyLowerChar).all isAsciiDigitC = false := by
      rw [List.all_map, hfun]; exact hdf
    unfold ipv4OctetOk
    rw [hdf, hdf2]
    simp

theorem ipv4Ok_lower (l : List Char) : ipv4Ok (l.map pyLowerChar) = ipv4Ok l := by
  have hdot : pyLowerNeutralN '.'.toNat := by unfold pyLowerNeutralN; decide
  have hfun : (ipv4OctetOk ∘ List.map pyLowerChar) = ipv4OctetOk :=
    funext ipv4OctetOk_lower
  unfold ipv4Ok
  dsimp only
  rw [splitOnChar_map hdot, List.all_map, hfun, List.length_map]
  have h1 : (decide (List.map pyLowerChar l ≠ [])) = (decide (l ≠ [])) := by
    rw [decide_eq_decide]
    simp [List.map_eq_nil_iff]
  rw [h1]

theorem findIdx_map {α β : Type} (f : α → β) (p : β → Bool) :
    ∀ l : List α, List.findIdx p (l.map f) = List.findIdx (fun a => p (f a)) l := by
  intro l
  induction l with
  | nil => rfl
  | cons a as ih =>
    rw [List.map_cons, List.findIdx_cons, List.findIdx_cons, ih]

theorem beq_some_nil_map (o : Option (List Char)) :
    (o.map (List.map pyLowerChar) == some ([] : List Char)) =
      (o == some ([] : List Char)) := by
  cases o with
  | none => rfl
  | some p => cases p <;> rfl

theorem ipv6PartsOk_lower (parts : List (List Char)) :
    ipv6PartsOk (parts.map (List.map pyLowerChar)) = ipv6PartsOk parts := by
  have hgempty : ∀ p : List Char, (List.map pyLowerChar p).isEmpty = p.isEmpty := by
    intro p; cases p <;> rfl
  have hcomp : (List.isEmpty ∘ List.map pyLowerChar) = (List.isEmpty : List Char → Bool) :=
    funext hgempty
  have hlam : (fun a : List Char => (List.map pyLowerChar a).isEmpty) =
      (List.isEmpty : List Char → Bool) := funext hgempty
  have hhex : (hextetOk ∘ List.map pyLowerChar) = hextetOk := funext hextetOk_lower
  unfold ipv6PartsOk
  dsimp only
  simp only [List.length_map, ← List.map_drop, ← List.map_take, List.filter_map,
    List.all_map, findIdx_map, List.head?_map, List.getLast?_map, beq_some_nil_map,
    hcomp, hlam, hhex, List.length_map]

theorem ipv6StrOk_lower (l : List Char) : ipv6StrOk (l.map pyLowerChar) = ipv6StrOk l := by
  have hcolon : pyLowerNeutralN ':'.toNat := by unfold pyLowerNeutralN; decide
  have hdot : pyLowerNeutralN '.'.toNat := by unfold pyLowerNeutralN; decide
  unfold ipv6StrOk
  dsimp only
  rw [splitOnChar_map hcolon, List.length_map, List.getLast?_map]
  have h1 : (decide (List.map pyLowerChar l ≠ [])) = (decide (l ≠ [])) := by
    rw [decide_eq_decide]
    simp [List.map_eq_nil_iff]
  rw [h1]
  cases hg : (splitOnChar ':' l).getLast? with
  | none => rfl
  | some last =>
    dsimp only [Option.map]
    rw [map_pyLower_contains hdot last]
    by_cases hd : last.contains '.' = true
    · rw [if_pos hd, if_pos hd, ipv4Ok_lower last]
      have h2 : ((splitOnChar ':' l).map (List.map pyLowerChar)).dropLast =
          ((splitOnChar ':' l).dropLast).map (List.map pyLowerChar) := by
        rw [List.map_dropLast]
      rw [h2]
      have h3 : ((splitOnChar ':' l).dropLast).map (List.map pyLowerChar) ++
          [['0'], ['0']] =
          (((splitOnChar ':' l).dropLast) ++ [['0'], ['0']]).map (List.map pyLowerChar) := by
        rw [List.map_append]
        rfl
      rw [h3, ipv6PartsOk_lower]
    · rw [if_neg hd, if_neg hd, ipv6PartsOk_lower]

theorem ipv6HostOk_lower (l : List Char) : ipv6HostOk (l.map pyLowerChar) = ipv6HostOk l := by
  have hpct : pyLowerNeutralN '%'.toNat := by unfold pyLowerNeutralN; decide
  have hslash : pyLowerNeutralN '/'.toNat := by unfold pyLowerNeutralN; decide
  unfold ipv6HostOk
  rw [map_pyLower_contains hslash, splitFirstChar_map hpct]
  cases hsp : splitFirstChar '%' l with
  | mk addr rest =>
    dsimp only
    cases rest with
    | none =>
      dsimp only [Option.map]
      rw [ipv6StrOk_lower]
    | some scope =>
      dsimp only [Option.map]
      rw [ipv6StrOk_lower, map_pyLower_contains hpct]
      have h1 : (decide (List.map pyLowerChar scope ≠ [])) = (decide (scope ≠ [])) := by
        rw [decide_eq_decide]
        simp [List.map_eq_nil_iff]
      rw [h1]

theorem hextetOk_false_of_nonhex {p : List Char} {c : Char} (hc : c ∈ p)
    (hh : isHexDigitC c = false) : hextetOk p = false := by
  unfold hextetOk
  have hall : p.all isHexDigitC = false := by
    cases ha : p.all isHexDigitC
    · rfl
    · have := List.all_eq_true.mp ha c hc
      rw [hh] at this; cases this
  rw [hall]
  simp

theorem ipv6PartsOk_head {p0 : List Char} {ps : List (List Char)}
    (hok : ipv6PartsOk (p0 :: ps) = true) (hne : p0 ≠ []) : hextetOk p0 = true := by
  unfold ipv6PartsOk at hok
  dsimp only at hok
  rw [Bool.and_eq_true] at hok
  obtain ⟨-, hok⟩ := hok
  split at hok
  · rw [Bool.and_eq_true] at hok
    exact List.all_eq_true.mp hok.2 p0 (by simp)
  · split at hok
    · split at hok
      · rename_i h lw hhi hlo
        have hbeq : ((p0 :: ps).head? == some ([] : List Char)) = false := by
          cases p0 with
          | nil => exact absurd rfl hne
          | cons c cs => rfl
        rw [hbeq] at hhi
        simp only [Bool.false_eq_true, if_false] at hhi
        injection hhi with hhi
        rw [Bool.and_eq_true, Bool.and_eq_true] at hok
        have htake := hok.1.2
        have hge : 1 ≤ h := by omega
        obtain ⟨k, rfl⟩ : ∃ k, h = k + 1 := ⟨h - 1, by omega⟩
        rw [List.take_succ_cons] at htake
        exact List.all_eq_true.mp htake p0 (by simp)
      · cases hok
    · cases hok

theorem ipv6StrOk_V (x : List Char) : ipv6StrOk ('V' :: x) = false := by
  unfold ipv6StrOk
  dsimp only
  rw [splitOnChar_cons, if_neg (by decide)]
  cases hr : splitOnChar ':' x with
  | nil => exact absurd hr (splitOnChar_ne_nil ':' x)
  | cons h0 t0 =>
    dsimp only
    have hhead : ∀ tail : List (List Char), ipv6PartsOk (('V' :: h0) :: tail) = false := by
      intro tail
      cases hok : ipv6PartsOk (('V' :: h0) :: tail)
      · rfl
      · have := ipv6PartsOk_head hok (by simp)
        rw [hextetOk_false_of_nonhex (List.mem_cons_self 'V' h0) (by decide)] at this
        cases this
    cases hg : ((('V' :: h0) :: t0)).getLast? with
    | none =>
      have : (('V' :: h0) :: t0) = [] := List.getLast?_eq_none_iff.mp hg
      cases this
    | some last =>
      dsimp only
      by_cases hd : last.contains '.' = true
      · rw [if_pos hd]
        cases t0 with
        | nil =>
          simp
        | cons t1 t2 =>
          rw [List.dropLast_cons₂, List.cons_append, hhead]
          simp
      · rw [if_neg hd, hhead]
        simp

theorem bracketedHostOk_cons_ne {c : Char} (rest : List Char) (h : ¬ c = 'v') :
    bracketedHostOk (c :: rest) = (!ipv4Ok (c :: rest) && ipv6HostOk (c :: rest)) := by
  unfold bracketedHostOk
  split
  · rename_i heq
    injection heq with h1 h2
    exact absurd h1 h
  · rfl

theorem not_bracketedHostOk_V (rest : List Char) :
    bracketedHostOk ('V' :: rest) = false := by
  rw [bracketedHostOk_cons_ne rest (by decide)]
  suffices h : ipv6HostOk ('V' :: rest) = false by rw [h]; simp
  unfold ipv6HostOk
  rw [splitFirstChar_cons, if_neg (by decide)]
  cases hr : (splitFirstChar '%' rest).2 with
  | none =>
    dsimp only
    rw [ipv6StrOk_V]
    simp
  | some scope =>
    dsimp only
    rw [ipv6StrOk_V]
    simp

theorem vFutureOk_cons_v (x : List Char) : vFutureOk ('v' :: x) =
    (x.takeWhile isHexDigitC ≠ [] &&
     (match x.dropWhile isHexDigitC with
      | '.' :: tail => tail ≠ ([] : List Char)
      | _ => false)) := rfl

theorem vFutureOk_lower_v (x : List Char) :
    vFutureOk ('v' :: x.map pyLowerChar) = vFutureOk ('v' :: x) := by
  have hhex : ∀ c, isHexDigitC (pyLowerChar c) = isHexDigitC c := isHexDigitC_lower
  rw [vFutureOk_cons_v, vFutureOk_cons_v, takeWhile_map_pyLower hhex,
    dropWhile_map_pyLower hhex]
  have h1 : (decide ((x.takeWhile isHexDigitC).map pyLowerChar ≠ [])) =
      (decide (x.takeWhile isHexDigitC ≠ [])) := by
    rw [decide_eq_decide]
    simp [List.map_eq_nil_iff]
  rw [h1]
  cases hd : x.dropWhile isHexDigitC with
  | nil => rfl
  | cons d ds =>
    rw [List.map_cons]
    by_cases hdot : d = '.'
    · subst hdot
      have hdd : pyLowerChar '.' = '.' := by decide
      rw [hdd]
      have harm2 : ∀ tl : List Char,
          (match '.' :: tl with
           | '.' :: tail => tail ≠ ([] : List Char)
           | _ => false) = decide (tl ≠ []) := fun tl => rfl
      rw [harm2, harm2]
      have h2 : (decide (ds.map pyLowerChar ≠ [])) = (decide (ds ≠ [])) := by
        rw [decide_eq_decide]
        simp [List.map_eq_nil_iff]
      exact congrArg _ h2
    · have hld : ¬ pyLowerChar d = '.' := by
        intro hc
        exact hdot ((pyLowerChar_eq_iff (by unfold pyLowerNeutralN; decide)).mp hc)
      have harm : ∀ (e : Char) (tl : List Char), ¬ e = '.' →
          (match e :: tl with
           | '.' :: tail => tail ≠ ([] : List Char)
           | _ => false) = false := by
        intro e tl he
        split
        · rename_i heq
          injection heq with he1 he2
          exact absurd he1 he
        · rfl
      rw [harm (pyLowerChar d) (ds.map pyLowerChar) hld, harm d ds hdot]

theorem bracketsProblem_lower (n : List Char) :
    bracketsProblem (n.map pyLowerChar) = bracketsProblem n := by
  have hl : pyLowerNeutralN '['.toNat := by unfold pyLowerNeutralN; decide
  have hr : pyLowerNeutralN ']'.toNat := by unfold pyLowerNeutralN; decide
  unfold bracketsProblem
  rw [map_pyLower_contains hl, map_pyLower_contains hr]

theorem bracketedHostOf_map (n : List Char) :
    bracketedHostOf (n.map pyLowerChar) = (bracketedHostOf n).map pyLowerChar := by
  have hlb : pyLowerNeutralN '['.toNat := by unfold pyLowerNeutralN; decide
  have hrb : pyLowerNeutralN ']'.toNat := by unfold pyLowerNeutralN; decide
  have hp1 : ∀ c, (decide (pyLowerChar c ≠ '[')) = (decide (c ≠ '[')) := by
    intro c
    rw [decide_eq_decide]
    exact not_congr (pyLowerChar_eq_iff hlb)
  have hp2 : ∀ c, (decide (pyLowerChar c ≠ ']')) = (decide (c ≠ ']')) := by
    intro c
    rw [decide_eq_decide]
    exact not_congr (pyLowerChar_eq_iff hrb)
  unfold bracketedHostOf
  rw [dropWhile_map_pyLower hp1, ← List.map_drop, takeWhile_map_pyLower hp2]

theorem bracketedHostOk_lower {host : List Char} (h : bracketedHostOk host = true) :
    bracketedHostOk (host.map pyLowerChar) = true := by
  cases host with
  | nil => simpa using h
  | cons c rest =>
    by_cases hv : c = 'v'
    · subst hv
      rw [List.map_cons]
      have hpv : pyLowerChar 'v' = 'v' := by decide
      rw [hpv]
      have harm : ∀ x : List Char, bracketedHostOk ('v' :: x) = vFutureOk ('v' :: x) := by
        intro x
        unfold bracketedHostOk
        split
        · rename_i heq
          injection heq with h1 h2
          subst h2
          rfl
        · rename_i hne
          exact absurd rfl (hne x)
      rw [harm, vFutureOk_lower_v]
      rw [harm] at h
      exact h
    · by_cases hV : c = 'V'
      · subst hV
        rw [not_bracketedHostOk_V] at h
        cases h
      · have hlv : ¬ pyLowerChar c = 'v' := by
          intro hc
          have ht := congrArg Char.toNat hc
          rw [pyLowerChar_toNat] at ht
          have hv' : 'v'.toNat = 118 := rfl
          rw [hv'] at ht
          have hcv : ¬ c.toNat = 118 := fun he => hv (charEq_of_toNat (by rw [he]; rfl))
          have hcV : ¬ c.toNat = 86 := fun he => hV (charEq_of_toNat (by rw [he]; rfl))
          revert ht
          split_ifs <;> omega
        rw [List.map_cons, bracketedHostOk_cons_ne _ hlv, ← List.map_cons,
          ipv4Ok_lower, ipv6HostOk_lower]
        rw [bracketedHostOk_cons_ne rest hv] at h
        exact h

/-! ### What a successful `urlsplit` guarantees about its components -/

theorem splitFirstChar_fst_subset (sep : Char) :
    ∀ l : List Char, ∀ c ∈ (splitFirstChar sep l).1, c ∈ l := by
  intro l
  induction l with
  | nil => intro c hc; cases hc
  | cons a as ih =>
    rw [splitFirstChar_cons]
    by_cases h : (a == sep) = true
    · rw [if_pos h]; intro c hc; cases hc
    · rw [if_neg h]
      intro c hc
      rcases List.mem_cons.mp hc with rfl | hc
      · exact List.mem_cons_self _ _
      · exact List.mem_cons_of_mem _ (ih c hc)

theorem splitFirstChar_fst_not_mem (sep : Char) :
    ∀ l : List Char, sep ∉ (splitFirstChar sep l).1 := by
  intro l
  induction l with
  | nil => intro hc; cases hc
  | cons a as ih =>
    rw [splitFirstChar_cons]
    by_cases h : (a == sep) = true
    · rw [if_pos h]; intro hc; cases hc
    · rw [if_neg h]
      intro hc
      rcases List.mem_cons.mp hc with he | hc
      · rw [he] at h; simp at h
      · exact ih hc

theorem splitFirstChar_snd_subset (sep : Char) :
    ∀ l b : List Char, (splitFirstChar sep l).2 = some b → ∀ c ∈ b, c ∈ l := by
  intro l
  induction l with
  | nil => intro b hb; cases hb
  | cons a as ih =>
    intro b hb
    rw [splitFirstChar_cons] at hb
    by_cases h : (a == sep) = true
    · rw [if_pos h] at hb
      dsimp only at hb
      injection hb with hb
      subst hb
      exact fun c hc => List.mem_cons_of_mem _ hc
    · rw [if_neg h] at hb
      dsimp only at hb
      exact fun c hc => List.mem_cons_of_mem _ (ih b hb c hc)

theorem splitScheme_props (url : List Char) :
    ((splitScheme url).1 = [] ∧ (splitScheme url).2 = url) ∨
    ((∃ hd tl, (splitScheme url).1 = pyLowerChar hd :: tl ∧ isAsciiAlphaC hd = true) ∧
     (splitScheme url).1.all isSchemeChar = true ∧
     (splitScheme url).1.map pyLowerChar = (splitScheme url).1 ∧
     (∀ c ∈ (splitScheme url).2, c ∈ url)) := by
  unfold splitScheme
  cases hs : splitFirstChar ':' url with
  | mk pre post =>
    cases post with
    | none =>
      cases pre with
      | nil => left; exact ⟨rfl, rfl⟩
      | cons b bs => left; exact ⟨rfl, rfl⟩
    | some after =>
      cases pre with
      | nil => left; exact ⟨rfl, rfl⟩
      | cons b bs =>
        dsimp only
        by_cases hc : (isAsciiAlphaC b && (b :: bs).all isSchemeChar) = true
        · rw [if_pos hc]
          rw [Bool.and_eq_true] at hc
          right
          refine ⟨⟨b, bs.map pyLowerChar, by rw [List.map_cons], hc.1⟩, ?_, ?_, ?_⟩
          · rw [List.all_map]
            rw [List.all_eq_true] at hc ⊢
            exact fun c hcm => isSchemeChar_lower (hc.2 c hcm)
          · exact map_pyLower_idem (b :: bs)
          · intro c hcm
            have h2 : (splitFirstChar ':' url).2 = some after := by rw [hs]
            exact splitFirstChar_snd_subset ':' url after h2 c hcm
        · rw [if_neg hc]
          left
          exact ⟨rfl, rfl⟩

def netlocSplit (rest : List Char) : List Char × List Char :=
  match rest with
  | '/' :: '/' :: tail =>
    (tail.takeWhile (fun c => !isNetlocDelim c), tail.dropWhile (fun c => !isNetlocDelim c))
  | _ => ([], rest)

def hashSplit (l : List Char) : List Char × List Char :=
  match splitFirstChar '#' l with
  | (a, some b) => (a, b)
  | (a, none) => (a, [])

def qSplit (l : List Char) : List Char × List Char :=
  match splitFirstChar '?' l with
  | (a, some b) => (a, b)
  | (a, none) => (a, [])

/-- `urlsplitE` rephrased through the named splitting helpers. -/
theorem urlsplitE_eq (url0 : List Char) :
    urlsplitE url0 =
      (let url2 := (url0.dropWhile isC0OrSpace).filter (fun c => !isUnsafeUrlByte c)
       let sr := splitScheme url2
       let nr := netlocSplit sr.2
       if bracketsProblem nr.1 then .error ()
       else if nr.1.contains '[' && nr.1.contains ']' &&
           !bracketedHostOk (bracketedHostOf nr.1) then .error ()
       else
         .ok { scheme := sr.1, netloc := nr.1,
               path := (qSplit (hashSplit nr.2).1).1,
               query := (qSplit (hashSplit nr.2).1).2,
               fragment := (hashSplit nr.2).2 }) := by
  unfold urlsplitE netlocSplit hashSplit qSplit
  dsimp only

theorem netlocSplit_props (rest : List Char) :
    (∀ c ∈ (netlocSplit rest).1, isNetlocDelim c = false ∧ c ∈ rest) ∧
    (∀ c ∈ (netlocSplit rest).2, c ∈ rest) := by
  unfold netlocSplit
  split
  · rename_i tail
    constructor
    · intro c hc
      constructor
      · have hp := List.mem_takeWhile_imp hc
        simpa using hp
      · have hm : c ∈ tail := (List.takeWhile_sublist _).subset hc
        exact List.mem_cons_of_mem _ (List.mem_cons_of_mem _ hm)
    · intro c hc
      have hm : c ∈ tail := (List.dropWhile_sublist _).subset hc
      exact List.mem_cons_of_mem _ (List.mem_cons_of_mem _ hm)
  · exact ⟨fun c hc => absurd hc (List.not_mem_nil c), fun c hc => hc⟩

theorem hashSplit_fst (l : List Char) :
    ∀ c ∈ (hashSplit l).1, c ∈ l ∧ ¬ c = '#' := by
  intro c hc
  unfold hashSplit at hc
  have hfst : c ∈ (splitFirstChar '#' l).1 := by
    cases hs : splitFirstChar '#' l with
    | mk a o =>
      rw [hs] at hc
      cases o <;> exact hc
  refine ⟨splitFirstChar_fst_subset '#' l c hfst, ?_⟩
  intro he
  rw [he] at hfst
  exact splitFirstChar_fst_not_mem '#' l hfst

theorem qSplit_fst (l : List Char) :
    ∀ c ∈ (qSplit l).1, c ∈ l ∧ ¬ c = '?' := by
  intro c hc
  unfold qSplit at hc
  have hfst : c ∈ (splitFirstChar '?' l).1 := by
    cases hs : splitFirstChar '?' l with
    | mk a o =>
      rw [hs] at hc
      cases o <;> exact hc
  refine ⟨splitFirstChar_fst_subset '?' l c hfst, ?_⟩
  intro he
  rw [he] at hfst
  exact splitFirstChar_fst_not_mem '?' l hfst

theorem urlsplitE_ok_inv {url0 : List Char} {s : SplitRes}
    (h : urlsplitE url0 = .ok s) :
    (s.scheme = [] ∨ ∃ hd tl, s.scheme = pyLowerChar hd :: tl ∧ isAsciiAlphaC hd = true) ∧
    s.scheme.all isSchemeChar = true ∧
    s.scheme.map pyLowerChar = s.scheme ∧
    (∀ c ∈ s.netloc, isNetlocDelim c = false ∧ isUnsafeUrlByte c = false) ∧
    bracketsProblem s.netloc = false ∧
    (s.netloc.contains '[' = true → s.netloc.contains ']' = true →
      bracketedHostOk (bracketedHostOf s.netloc) = true) ∧
    (∀ c ∈ s.path, ¬ c = '#' ∧ ¬ c = '?' ∧ isUnsafeUrlByte c = false) := by
  rw [urlsplitE_eq] at h
  dsimp only at h
  have hu2 : ∀ c ∈ (url0.dropWhile isC0OrSpace).filter (fun c => !isUnsafeUrlByte c),
      isUnsafeUrlByte c = false := by
    intro c hc
    have h2 := (List.mem_filter.mp hc).2
    simpa using h2
  have hrest : ∀ c ∈ (splitScheme
      ((url0.dropWhile isC0OrSpace).filter (fun c => !isUnsafeUrlByte c))).2,
      c ∈ (url0.dropWhile isC0OrSpace).filter (fun c => !isUnsafeUrlByte c) := by
    rcases splitScheme_props ((url0.dropWhile isC0OrSpace).filter
      (fun c => !isUnsafeUrlByte c)) with ⟨h1, h2⟩ | ⟨h1, h2, h3, h4⟩
    · rw [h2]; exact fun c hc => hc
    · exact h4
  split at h
  · exact Except.noConfusion h
  · split at h
    · exact Except.noConfusion h
    · rename_i hbp hbk
      injection h with h
      subst h
      dsimp only
      refine ⟨?_, ?_, ?_, ?_, ?_, ?_, ?_⟩
      · rcases splitScheme_props ((url0.dropWhile isC0OrSpace).filter
          (fun c => !isUnsafeUrlByte c)) with ⟨h1, h2⟩ | ⟨h1, h2, h3, h4⟩
        · left; exact h1
        · right; exact h1
      · rcases splitScheme_props ((url0.dropWhile isC0OrSpace).filter
          (fun c => !isUnsafeUrlByte c)) with ⟨h1, h2⟩ | ⟨h1, h2, h3, h4⟩
        · rw [h1]; rfl
        · exact h2
      · rcases splitScheme_props ((url0.dropWhile isC0OrSpace).filter
          (fun c => !isUnsafeUrlByte c)) with ⟨h1, h2⟩ | ⟨h1, h2, h3, h4⟩
        · rw [h1]; rfl
        · exact h3
      · intro c hc
        have hd := (netlocSplit_props _).1 c hc
        exact ⟨hd.1, hu2 c (hrest c hd.2)⟩
      · exact Bool.eq_false_iff.mpr hbp
      · intro hc1 hc2
        cases hok : bracketedHostOk (bracketedHostOf
            (netlocSplit (splitScheme ((url0.dropWhile isC0OrSpace).filter
              (fun c => !isUnsafeUrlByte c))).2).1) with
        | false =>
          exfalso
          apply hbk
          rw [hc1, hc2, hok]
          rfl
        | true => rfl
      · intro c hc
        have hq := qSplit_fst _ c hc
        have hh := hashSplit_fst _ c hq.1
        have hm : c ∈ (url0.dropWhile isC0OrSpace).filter (fun c => !isUnsafeUrlByte c) :=
          hrest c ((netlocSplit_props _).2 c hh.1)
        exact ⟨hh.2, hq.2, hu2 c hm⟩

theorem splitParamsF_fst_subset (url : List Char) :
    ∀ c ∈ (splitParamsF url).1, c ∈ url := by
  unfold splitParamsF
  by_cases hsl : url.contains '/' = true
  · rw [if_pos hsl]
    dsimp only
    cases hsp : splitFirstChar ';' ((url.reverse.takeWhile (fun c => c ≠ '/')).reverse) with
    | mk a o =>
      cases o with
      | some b =>
        dsimp only
        intro c hc
        rcases List.mem_append.mp hc with hc | hc
        · rw [List.mem_reverse] at hc
          have := (List.dropWhile_sublist (fun c => decide (c ≠ '/'))).subset hc
          rwa [List.mem_reverse] at this
        · have ha : c ∈ (splitFirstChar ';'
              ((url.reverse.takeWhile (fun c => c ≠ '/')).reverse)).1 := by
            rw [hsp]; exact hc
          have h2 := splitFirstChar_fst_subset ';' _ c ha
          rw [List.mem_reverse] at h2
          have := (List.takeWhile_sublist (fun c => decide (c ≠ '/'))).subset h2
          rwa [List.mem_reverse] at this
      | none =>
        dsimp only
        exact fun c hc => hc
  · rw [if_neg hsl]
    cases hsp : splitFirstChar ';' url with
    | mk a o =>
      cases o with
      | some b =>
        dsimp only
        intro c hc
        have ha : c ∈ (splitFirstChar ';' url).1 := by rw [hsp]; exact hc
        exact splitFirstChar_fst_subset ';' url c ha
      | none =>
        dsimp only
        exact fun c hc => hc

theorem urlparseE_ok_inv {url0 : List Char} {p : ParseRes}
    (h : urlparseE url0 = .ok p) :
    (p.scheme = [] ∨ ∃ hd tl, p.scheme = pyLowerChar hd :: tl ∧ isAsciiAlphaC hd = true) ∧
    p.scheme.all isSchemeChar = true ∧
    p.scheme.map pyLowerChar = p.scheme ∧
    (∀ c ∈ p.netloc, isNetlocDelim c = false ∧ isUnsafeUrlByte c = false) ∧
    bracketsProblem p.netloc = false ∧
    (p.netloc.contains '[' = true → p.netloc.contains ']' = true →
      bracketedHostOk (bracketedHostOf p.netloc) = true) ∧
    (∀ c ∈ p.path, ¬ c = '#' ∧ ¬ c = '?' ∧ isUnsafeUrlByte c = false) := by
  unfold urlparseE at h
  cases hs : urlsplitE url0 with
  | error e => rw [hs] at h; exact Except.noConfusion h
  | ok s =>
    rw [hs] at h
    dsimp only at h
    injection h with h
    subst h
    obtain ⟨i1, i2, i3, i4, i5, i6, i7⟩ := urlsplitE_ok_inv hs
    dsimp only
    refine ⟨i1, i2, i3, i4, i5, i6, ?_⟩
    intro c hc
    split at hc
    · have hm := splitParamsF_fst_subset s.path c hc
      exact i7 c hm
    · exact i7 c hc

/-! ### Character tameness of the rebuilt URL -/

theorem joinWithAmp_chars {pieces : List (List Char)} {c : Char} :
    c ∈ joinWithAmp pieces → (∃ p ∈ pieces, c ∈ p) ∨ c = '&' := by
  induction pieces with
  | nil => intro hc; cases hc
  | cons x rest ih =>
    cases rest with
    | nil =>
      intro hc
      left; exact ⟨x, by simp, hc⟩
    | cons y ys =>
      intro hc
      have hc2 : c ∈ x ++ '&' :: joinWithAmp (y :: ys) := hc
      rcases List.mem_append.mp hc2 with hc3 | hc3
      · left; exact ⟨x, by simp, hc3⟩
      · rcases List.mem_cons.mp hc3 with rfl | hc4
        · right; rfl
        · rcases ih hc4 with ⟨p, hp, hcp⟩ | he
          · left; exact ⟨p, List.mem_cons_of_mem _ hp, hcp⟩
          · right; exact he

theorem urlencodePairs_chars (l : List (String × String)) :
    ∀ c ∈ urlencodePairsF l,
      alwaysSafeByte c.toNat = true ∨ c = '+' ∨ c = '%' ∨ c = '&' ∨ c = '=' := by
  intro c hc
  unfold urlencodePairsF at hc
  rcases joinWithAmp_chars hc with ⟨p, hp, hcp⟩ | he
  · rw [List.mem_map] at hp
    obtain ⟨kv, -, rfl⟩ := hp
    rcases List.mem_append.mp hcp with hcp | hcp
    · rcases quotePlus_chars kv.1 c hcp with h | h | h
      exacts [Or.inl h, Or.inr (Or.inl h), Or.inr (Or.inr (Or.inl h))]
    · rcases List.mem_cons.mp hcp with rfl | hcp
      · right; right; right; right; rfl
      · rcases quotePlus_chars kv.2 c hcp with h | h | h
        exacts [Or.inl h, Or.inr (Or.inl h), Or.inr (Or.inr (Or.inl h))]
  · right; right; right; left; exact he

theorem rstripSlash_eq_self {l : List Char} {c : Char} (h : l.getLast? = some c)
    (hc : (c == '/') = false) : rstripSlash l = l := by
  cases hrev : l.reverse with
  | nil =>
    rw [List.reverse_eq_nil_iff] at hrev
    rw [hrev] at h
    cases h
  | cons y ys =>
    have hy : y = c := by
      have h2 : l.reverse.head? = some c := by rw [List.head?_reverse]; exact h
      rw [hrev] at h2
      injection h2
    subst hy
    show (l.reverse.dropWhile (fun c => c == '/')).reverse = l
    rw [hrev, @dropWhile_eq_self_of_head (fun c => c == '/') y ys hc, ← hrev,
      List.reverse_reverse]

theorem getLast?_append_ne {a b : List Char} (h : b ≠ []) :
    (a ++ b).getLast? = b.getLast? := by
  rw [List.getLast?_append]
  cases hb : b.getLast? with
  | none => exact absurd (List.getLast?_eq_none_iff.mp hb) h
  | some c => rfl

theorem contains_false_of_forall {l : List Char} {c : Char} (h : ∀ x ∈ l, ¬ x = c) :
    l.contains c = false := by
  rw [contains_false_iff]
  intro hm
  exact h c hm rfl

theorem scheme_all_not_colon {l : List Char} (h : l.all isSchemeChar = true) :
    l.contains ':' = false := by
  apply contains_false_of_forall
  intro x hx he
  subst he
  have h2 := (schemeChar_tame (List.all_eq_true.mp h ':' hx)).2
  simp at h2

theorem scheme_all_safe {l : List Char} (h : l.all isSchemeChar = true) :
    ∀ c ∈ l, isUnsafeUrlByte c = false :=
  fun c hc => (schemeChar_tame (List.all_eq_true.mp h c hc)).1

theorem filter_idem {α : Type} (p : α → Bool) (l : List α) :
    (l.filter p).filter p = l.filter p := by
  rw [List.filter_filter]
  have h : (fun a => p a && p a) = p := funext (fun a => Bool.and_self (p a))
  rw [h]

theorem splitScheme_concrete {sch rest : List Char} {hd : Char} {tl : List Char}
    (hschEq : sch = hd :: tl) (hhd : isAsciiAlphaC hd = true)
    (hall : sch.all isSchemeChar = true) (hlow : sch.map pyLowerChar = sch) :
    splitScheme (sch ++ ':' :: rest) = (sch, rest) := by
  unfold splitScheme
  rw [splitFirstChar_append (scheme_all_not_colon hall)]
  subst hschEq
  dsimp only
  rw [if_pos (by rw [Bool.and_eq_true]; exact ⟨hhd, hall⟩)]
  rw [hlow]

theorem netlocSplit_dslash {nl rest2 : List Char}
    (hnl : ∀ c ∈ nl, isNetlocDelim c = false) :
    netlocSplit ('/' :: '/' :: (nl ++ '/' :: rest2)) = (nl, '/' :: rest2) := by
  unfold netlocSplit
  have ha : ∀ x ∈ nl, (!isNetlocDelim x) = true := by
    intro x hx
    rw [hnl x hx]
    rfl
  have hy : (!isNetlocDelim '/') = false := by decide
  split
  · rename_i tail heq
    injection heq with h1 heq
    injection heq with h2 heq
    subst heq
    rw [takeWhile_append_cons ha hy, dropWhile_append_cons ha hy]
  · rename_i hne
    exact absurd rfl (hne (nl ++ '/' :: rest2))

theorem netlocSplit_not_dslash {rest : List Char} (h : rest.take 2 ≠ ['/', '/']) :
    netlocSplit rest = ([], rest) := by
  unfold netlocSplit
  split
  · exfalso; exact h rfl
  · rfl

theorem hashSplit_no_hash {l : List Char} (h : l.contains '#' = false) :
    hashSplit l = (l, []) := by
  unfold hashSplit
  rw [splitFirstChar_not_mem h]

theorem qSplit_append {a b : List Char} (h : a.contains '?' = false) :
    qSplit (a ++ '?' :: b) = (a, b) := by
  unfold qSplit
  rw [splitFirstChar_append h]

theorem qSplit_no_q {l : List Char} (h : l.contains '?' = false) :
    qSplit l = (l, []) := by
  unfold qSplit
  rw [splitFirstChar_not_mem h]

/-! ### `normalize_url` output re-parses to itself -/

theorem urlunsplitF_no_frag (scheme netloc url query : List Char) :
    urlunsplitF scheme netloc url query [] =
      (let base :=
        if netloc ≠ [] ||
            (scheme ≠ [] && usesNetloc.contains scheme && url.take 2 ≠ ['/', '/']) then
          '/' :: '/' :: (netloc ++
            (if url ≠ [] && url.take 1 ≠ ['/'] then '/' :: url else url))
        else url
       let base2 := if scheme ≠ [] then scheme ++ ':' :: base else base
       if query ≠ [] then base2 ++ '?' :: query else base2) := by
  unfold urlunsplitF
  dsimp only
  rw [if_neg (by simp : ¬([] : List Char) ≠ [])]

theorem normalize_fixed_netloc
    (sch nl u1' qry : List Char)
    (hsch : ∃ hd tl, sch = hd :: tl ∧ isAsciiAlphaC hd = true)
    (hschAll : sch.all isSchemeChar = true)
    (hschLow : sch.map pyLowerChar = sch)
    (hnl : ∀ c ∈ nl, isNetlocDelim c = false ∧ isUnsafeUrlByte c = false)
    (hnlLow : nl.map pyLowerChar = nl)
    (hbr1 : bracketsProblem nl = false)
    (hbr2 : nl.contains '[' = true → nl.contains ']' = true →
      bracketedHostOk (bracketedHostOf nl) = true)
    (hu1 : ∀ c ∈ u1', ¬ c = '#' ∧ ¬ c = '?' ∧ ¬ c = ';' ∧ isUnsafeUrlByte c = false)
    (hfix : rstripSlash ('/' :: u1') = '/' :: u1' ∨ u1' = [])
    (hlast : ∀ c, ('/' :: u1').getLast? = some c → isPySpace c = false)
    (hcond : nl ≠ [] ∨ (usesNetloc.contains sch = true ∧ ('/' :: u1').take 2 ≠ ['/', '/']))
    (hqry : ∃ pairs : List (String × String), qry = urlencodePairsF pairs ∧
      pairs.filter (fun kv => !isTrackingKey kv.1) = pairs) :
    normalizeUrlE ⟨urlunsplitF sch nl ('/' :: u1') qry []⟩ =
      .ok ⟨urlunsplitF sch nl ('/' :: u1') qry []⟩ := by
  obtain ⟨hd, tl, hschEq, halpha⟩ := hsch
  obtain ⟨pairs, hqEq, hqFilt⟩ := hqry
  have hschNe : sch ≠ [] := by rw [hschEq]; simp
  have hqryChars : ∀ c ∈ qry,
      alwaysSafeByte c.toNat = true ∨ c = '+' ∨ c = '%' ∨ c = '&' ∨ c = '=' := by
    rw [hqEq]; exact urlencodePairs_chars pairs
  have hqrySafe : ∀ c ∈ qry, isUnsafeUrlByte c = false :=
    fun c hc => (queryChar_tame (hqryChars c hc)).2.1
  have hqryNoHash : ∀ c ∈ qry, ¬ c = '#' :=
    fun c hc => (queryChar_tame (hqryChars c hc)).2.2.1
  have hqryNoSpace : ∀ c ∈ qry, isPySpace c = false :=
    fun c hc => (queryChar_tame (hqryChars c hc)).1
  have hcondB : (nl ≠ [] ||
      (sch ≠ [] && usesNetloc.contains sch && ('/' :: u1').take 2 ≠ ['/', '/'])) = true := by
    rcases hcond with h | ⟨h1, h2⟩
    · simp [h]
    · simp only [Bool.or_eq_true, decide_eq_true_eq, Bool.and_eq_true]
      right
      exact ⟨⟨hschNe, h1⟩, h2⟩
  have hinner : ¬ (('/' :: u1' : List Char) ≠ [] && ('/' :: u1').take 1 ≠ ['/']) = true := by
    simp
  have hnoHashT : ('/' :: u1').contains '#' = false := by
    apply contains_false_of_forall
    intro x hx
    rcases List.mem_cons.mp hx with rfl | hx
    · decide
    · exact (hu1 x hx).1
  have hnoQT : ('/' :: u1').contains '?' = false := by
    apply contains_false_of_forall
    intro x hx
    rcases List.mem_cons.mp hx with rfl | hx
    · decide
    · exact (hu1 x hx).2.1
  have hnoSemiT : ('/' :: u1').contains ';' = false := by
    apply contains_false_of_forall
    intro x hx
    rcases List.mem_cons.mp hx with rfl | hx
    · decide
    · exact (hu1 x hx).2.2.1
  have hbF : (nl.contains '[' && nl.contains ']' &&
      !bracketedHostOk (bracketedHostOf nl)) = false := by
    cases h1 : nl.contains '['
    · simp
    · cases h2 : nl.contains ']'
      · simp
      · rw [hbr2 h1 h2]
        simp
  have hpathFix : (if rstripSlash ('/' :: u1') = [] then ['/']
      else rstripSlash ('/' :: u1')) = '/' :: u1' := by
    rcases hfix with hfe | hfe
    · rw [hfe, if_neg (by simp)]
    · subst hfe
      rfl
  have hv : urlunsplitF sch nl ('/' :: u1') qry [] =
      (if qry ≠ [] then
        (sch ++ ':' :: ('/' :: '/' :: (nl ++ '/' :: u1'))) ++ '?' :: qry
       else sch ++ ':' :: ('/' :: '/' :: (nl ++ '/' :: u1'))) := by
    rw [urlunsplitF_no_frag]
    dsimp only
    rw [if_pos hcondB, if_neg hinner, if_pos hschNe]
  by_cases hqE : qry = []
  · subst hqE
    rw [if_neg (by simp : ¬([] : List Char) ≠ [])] at hv
    rw [hv]
    have hh : ∀ c, (sch ++ ':' :: ('/' :: '/' :: (nl ++ '/' :: u1'))).head? = some c →
        isPySpace c = false := by
      intro c hc
      rw [hschEq, List.cons_append] at hc
      injection hc with hc
      subst hc
      exact (alpha_not_space halpha).2
    have hVl : sch ++ ':' :: ('/' :: '/' :: (nl ++ '/' :: u1')) =
        (sch ++ ':' :: '/' :: '/' :: nl) ++ '/' :: u1' := by
      simp [List.append_assoc, List.cons_append]
    have hl : ∀ c, (sch ++ ':' :: ('/' :: '/' :: (nl ++ '/' :: u1'))).getLast? = some c →
        isPySpace c = false := by
      intro c hc
      rw [hVl, getLast?_append_ne (by simp : ('/' :: u1' : List Char) ≠ [])] at hc
      exact hlast c hc
    have hstrip : stripChars (sch ++ ':' :: ('/' :: '/' :: (nl ++ '/' :: u1'))) =
        sch ++ ':' :: ('/' :: '/' :: (nl ++ '/' :: u1')) :=
      stripChars_eq_self hh hl
    have hchars : ∀ c ∈ sch ++ ':' :: ('/' :: '/' :: (nl ++ '/' :: u1')),
        (!isUnsafeUrlByte c) = true := by
      intro c hc
      simp only [List.mem_append, List.mem_cons] at hc
      have hsafe : isUnsafeUrlByte c = false := by
        rcases hc with hc | hc | hc | hc | hc | hc | hc
        · exact scheme_all_safe hschAll c hc
        · subst hc; decide
        · subst hc; decide
        · subst hc; decide
        · exact (hnl c hc).2
        · subst hc; decide
        · exact (hu1 c hc).2.2.2
      rw [hsafe]; rfl
    have hdrop : (sch ++ ':' :: ('/' :: '/' :: (nl ++ '/' :: u1'))).dropWhile isC0OrSpace =
        sch ++ ':' :: ('/' :: '/' :: (nl ++ '/' :: u1')) := by
      rw [hschEq, List.cons_append]
      exact dropWhile_eq_self_of_head (alpha_not_space halpha).1
    have hsplitV : urlsplitE (sch ++ ':' :: ('/' :: '/' :: (nl ++ '/' :: u1'))) =
        .ok ⟨sch, nl, '/' :: u1', [], []⟩ := by
      rw [urlsplitE_eq]
      dsimp only
      rw [hdrop, List.filter_eq_self.mpr hchars]
      rw [splitScheme_concrete hschEq halpha hschAll hschLow]
      dsimp only
      rw [netlocSplit_dslash (fun c hc => (hnl c hc).1)]
      dsimp only
      rw [hbr1]
      rw [if_neg (by simp)]
      rw [if_neg (by rw [hbF]; simp)]
      rw [hashSplit_no_hash hnoHashT]
      dsimp only
      rw [qSplit_no_q hnoQT]
    have hparseV : urlparseE (sch ++ ':' :: ('/' :: '/' :: (nl ++ '/' :: u1'))) =
        .ok ⟨sch, nl, '/' :: u1', [], [], []⟩ := by
      unfold urlparseE
      rw [hsplitV]
      dsimp only
      rw [hnoSemiT]
      rw [if_neg (by simp)]
    unfold normalizeUrlE
    dsimp only
    rw [hstrip, hparseV]
    dsimp only
    refine congrArg (fun l : List Char => (Except.ok (⟨l⟩ : String) : Except Unit String)) ?_
    have hcomps : normalizeComps ⟨sch, nl, '/' :: u1', [], [], []⟩ =
        ⟨sch, nl, '/' :: u1', [], [], []⟩ := by
      unfold normalizeComps
      dsimp only
      rw [hschLow, hnlLow, if_neg hschNe, hpathFix]
      rfl
    rw [hcomps]
    unfold urlunparseF
    dsimp only
    rw [if_neg (by simp : ¬([] : List Char) ≠ [])]
    rw [urlunsplitF_no_frag]
    dsimp only
    rw [if_pos hcondB, if_neg hinner, if_pos hschNe,
      if_neg (by simp : ¬([] : List Char) ≠ [])]
  · rw [if_pos hqE] at hv
    rw [hv]
    have hVassoc : (sch ++ ':' :: ('/' :: '/' :: (nl ++ '/' :: u1'))) ++ '?' :: qry =
        sch ++ ':' :: ('/' :: '/' :: (nl ++ '/' :: (u1' ++ '?' :: qry))) := by
      simp [List.append_assoc, List.cons_append]
    have hh : ∀ c, ((sch ++ ':' :: ('/' :: '/' :: (nl ++ '/' :: u1'))) ++ '?' :: qry).head? =
        some c → isPySpace c = false := by
      intro c hc
      rw [hVassoc, hschEq, List.cons_append] at hc
      injection hc with hc
      subst hc
      exact (alpha_not_space halpha).2
    have hl : ∀ c, ((sch ++ ':' :: ('/' :: '/' :: (nl ++ '/' :: u1'))) ++ '?' :: qry).getLast? =
        some c → isPySpace c = false := by
      intro c hc
      rw [getLast?_append_ne (by simp : ('?' :: qry : List Char) ≠ [])] at hc
      have h2 : (('?' :: qry : List Char)).getLast? = qry.getLast? := by
        have h3 := @getLast?_append_ne ['?'] qry hqE
        exact h3
      rw [h2] at hc
      exact hqryNoSpace c (getLast?_mem hc)
    have hstrip : stripChars ((sch ++ ':' :: ('/' :: '/' :: (nl ++ '/' :: u1'))) ++ '?' :: qry) =
        (sch ++ ':' :: ('/' :: '/' :: (nl ++ '/' :: u1'))) ++ '?' :: qry :=
      stripChars_eq_self hh hl
    have hchars : ∀ c ∈ sch ++ ':' :: ('/' :: '/' :: (nl ++ '/' :: (u1' ++ '?' :: qry))),
        (!isUnsafeUrlByte c) = true := by
      intro c hc
      simp only [List.mem_append, List.mem_cons] at hc
      have hsafe : isUnsafeUrlByte c = false := by
        rcases hc with hc | hc | hc | hc | hc | hc | hc | hc | hc
        · exact scheme_all_safe hschAll c hc
        · subst hc; decide
        · subst hc; decide
        · subst hc; decide
        · exact (hnl c hc).2
        · subst hc; decide
        · exact (hu1 c hc).2.2.2
        · subst hc; decide
        · exact hqrySafe c hc
      rw [hsafe]; rfl
    have hdrop : (sch ++ ':' :: ('/' :: '/' :: (nl ++ '/' :: (u1' ++ '?' :: qry)))).dropWhile
        isC0OrSpace = sch ++ ':' :: ('/' :: '/' :: (nl ++ '/' :: (u1' ++ '?' :: qry))) := by
      rw [hschEq, List.cons_append]
      exact dropWhile_eq_self_of_head (alpha_not_space halpha).1
    have hnoHashT2 : ('/' :: (u1' ++ '?' :: qry)).contains '#' = false := by
      apply contains_false_of_forall
      intro x hx
      rcases List.mem_cons.mp hx with rfl | hx
      · decide
      · rcases List.mem_append.mp hx with hx | hx
        · exact (hu1 x hx).1
        · rcases List.mem_cons.mp hx with rfl | hx
          · decide
          · exact hqryNoHash x hx
    have hsplitV : urlsplitE (sch ++ ':' :: ('/' :: '/' :: (nl ++ '/' :: (u1' ++ '?' :: qry)))) =
        .ok ⟨sch, nl, '/' :: u1', qry, []⟩ := by
      rw [urlsplitE_eq]
      dsimp only
      rw [hdrop, List.filter_eq_self.mpr hchars]
      rw [splitScheme_concrete hschEq halpha hschAll hschLow]
      dsimp only
      rw [netlocSplit_dslash (fun c hc => (hnl c hc).1)]
      dsimp only
      rw [hbr1]
      rw [if_neg (by simp)]
      rw [if_neg (by rw [hbF]; simp)]
      rw [hashSplit_no_hash hnoHashT2]
      dsimp only
      rw [show ('/' :: (u1' ++ '?' :: qry) : List Char) = ('/' :: u1') ++ '?' :: qry from rfl]
      rw [qSplit_append hnoQT]
    have hparseV : urlparseE (sch ++ ':' :: ('/' :: '/' :: (nl ++ '/' :: (u1' ++ '?' :: qry)))) =
        .ok ⟨sch, nl, '/' :: u1', [], qry, []⟩ := by
      unfold urlparseE
      rw [hsplitV]
      dsimp only
      rw [hnoSemiT]
      rw [if_neg (by simp)]
    unfold normalizeUrlE
    dsimp only
    rw [hstrip, hVassoc, hparseV]
    dsimp only
    refine congrArg (fun l : List Char => (Except.ok (⟨l⟩ : String) : Except Unit String)) ?_
    have hq1 : parseQslF qry = pairs := by
      rw [hqEq]; exact parseQsl_urlencode pairs
    have hcomps : normalizeComps ⟨sch, nl, '/' :: u1', [], qry, []⟩ =
        ⟨sch, nl, '/' :: u1', [], qry, []⟩ := by
      unfold normalizeComps
      dsimp only
      rw [hq1, hqFilt, ← hqEq, hschLow, hnlLow, if_neg hschNe, hpathFix]
    rw [hcomps]
    unfold urlunparseF
    dsimp only
    rw [if_neg (by simp : ¬([] : List Char) ≠ [])]
    rw [urlunsplitF_no_frag]
    dsimp only
    rw [if_pos hcondB, if_neg hinner, if_pos hschNe, if_pos hqE]
    rw [hVassoc]

theorem normalize_fixed_plain
    (sch pth qry : List Char)
    (hsch : ∃ hd tl, sch = hd :: tl ∧ isAsciiAlphaC hd = true)
    (hschAll : sch.all isSchemeChar = true)
    (hschLow : sch.map pyLowerChar = sch)
    (husnF : usesNetloc.contains sch = false)
    (hpth : ∀ c ∈ pth, ¬ c = '#' ∧ ¬ c = '?' ∧ ¬ c = ';' ∧ isUnsafeUrlByte c = false)
    (hpne : pth ≠ [])
    (hfix : rstripSlash pth = pth ∨ pth = ['/'])
    (htk2 : pth.take 2 ≠ ['/', '/'])
    (hlast : ∀ c, pth.getLast? = some c → isPySpace c = false)
    (hqry : ∃ pairs : List (String × String), qry = urlencodePairsF pairs ∧
      pairs.filter (fun kv => !isTrackingKey kv.1) = pairs) :
    normalizeUrlE ⟨urlunsplitF sch [] pth qry []⟩ =
      .ok ⟨urlunsplitF sch [] pth qry []⟩ := by
  obtain ⟨hd, tl, hschEq, halpha⟩ := hsch
  obtain ⟨pairs, hqEq, hqFilt⟩ := hqry
  have hschNe : sch ≠ [] := by rw [hschEq]; simp
  have hqryChars : ∀ c ∈ qry,
      alwaysSafeByte c.toNat = true ∨ c = '+' ∨ c = '%' ∨ c = '&' ∨ c = '=' := by
    rw [hqEq]; exact urlencodePairs_chars pairs
  have hqrySafe : ∀ c ∈ qry, isUnsafeUrlByte c = false :=
    fun c hc => (queryChar_tame (hqryChars c hc)).2.1
  have hqryNoHash : ∀ c ∈ qry, ¬ c = '#' :=
    fun c hc => (queryChar_tame (hqryChars c hc)).2.2.1
  have hqryNoSpace : ∀ c ∈ qry, isPySpace c = false :=
    fun c hc => (queryChar_tame (hqryChars c hc)).1
  have hcondB : (([] : List Char) ≠ [] ||
      (sch ≠ [] && usesNetloc.contains sch && pth.take 2 ≠ ['/', '/'])) = false := by
    rw [husnF]
    simp
  have hcondNeg : ¬ ((([] : List Char) ≠ [] ||
      (sch ≠ [] && usesNetloc.contains sch && pth.take 2 ≠ ['/', '/'])) = true) := by
    rw [hcondB]
    simp
  have hnoHashP : pth.contains '#' = false :=
    contains_false_of_forall (fun x hx => (hpth x hx).1)
  have hnoQP : pth.contains '?' = false :=
    contains_false_of_forall (fun x hx => (hpth x hx).2.1)
  have hnoSemiP : pth.contains ';' = false :=
    contains_false_of_forall (fun x hx => (hpth x hx).2.2.1)
  have hbrNil : bracketsProblem ([] : List Char) = false := by decide
  have hbkNil : (([] : List Char).contains '[' && ([] : List Char).contains ']' &&
      !bracketedHostOk (bracketedHostOf ([] : List Char))) = false := by decide
  have hpathFix : (if rstripSlash pth = [] then ['/'] else rstripSlash pth) = pth := by
    rcases hfix with hfe | hfe
    · rw [hfe, if_neg hpne]
    · subst hfe
      rfl
  have hv : urlunsplitF sch [] pth qry [] =
      (if qry ≠ [] then (sch ++ ':' :: pth) ++ '?' :: qry
       else sch ++ ':' :: pth) := by
    rw [urlunsplitF_no_frag]
    dsimp only
    rw [if_neg hcondNeg, if_pos hschNe]
  by_cases hqE : qry = []
  · subst hqE
    rw [if_neg (by simp : ¬([] : List Char) ≠ [])] at hv
    rw [hv]
    have hh : ∀ c, (sch ++ ':' :: pth).head? = some c → isPySpace c = false := by
      intro c hc
      rw [hschEq, List.cons_append] at hc
      injection hc with hc
      subst hc
      exact (alpha_not_space halpha).2
    have hl : ∀ c, (sch ++ ':' :: pth).getLast? = some c → isPySpace c = false := by
      intro c hc
      rw [getLast?_append_ne (by simp : (':' :: pth : List Char) ≠ [])] at hc
      have h2 : ((':' :: pth : List Char)).getLast? = pth.getLast? :=
        @getLast?_append_ne [':'] pth hpne
      rw [h2] at hc
      exact hlast c hc
    have hstrip : stripChars (sch ++ ':' :: pth) = sch ++ ':' :: pth :=
      stripChars_eq_self hh hl
    have hchars : ∀ c ∈ sch ++ ':' :: pth, (!isUnsafeUrlByte c) = true := by
      intro c hc
      simp only [List.mem_append, List.mem_cons] at hc
      have hsafe : isUnsafeUrlByte c = false := by
        rcases hc with hc | hc | hc
        · exact scheme_all_safe hschAll c hc
        · subst hc; decide
        · exact (hpth c hc).2.2.2
      rw [hsafe]; rfl
    have hdrop : (sch ++ ':' :: pth).dropWhile isC0OrSpace = sch ++ ':' :: pth := by
      rw [hschEq, List.cons_append]
      exact dropWhile_eq_self_of_head (alpha_not_space halpha).1
    have hsplitV : urlsplitE (sch ++ ':' :: pth) = .ok ⟨sch, [], pth, [], []⟩ := by
      rw [urlsplitE_eq]
      dsimp only
      rw [hdrop, List.filter_eq_self.mpr hchars]
      rw [splitScheme_concrete hschEq halpha hschAll hschLow]
      dsimp only
      rw [netlocSplit_not_dslash htk2]
      dsimp only
      rw [hbrNil]
      rw [if_neg (by simp)]
      rw [if_neg (by rw [hbkNil]; simp)]
      rw [hashSplit_no_hash hnoHashP]
      dsimp only
      rw [qSplit_no_q hnoQP]
    have hparseV : urlparseE (sch ++ ':' :: pth) = .ok ⟨sch, [], pth, [], [], []⟩ := by
      unfold urlparseE
      rw [hsplitV]
      dsimp only
      rw [hnoSemiP]
      rw [if_neg (by simp)]
    unfold normalizeUrlE
    dsimp only
    rw [hstrip, hparseV]
    dsimp only
    refine congrArg (fun l : List Char => (Except.ok (⟨l⟩ : String) : Except Unit String)) ?_
    have hcomps : normalizeComps ⟨sch, [], pth, [], [], []⟩ =
        ⟨sch, [], pth, [], [], []⟩ := by
      unfold normalizeComps
      dsimp only
      rw [hschLow, if_neg hschNe, hpathFix]
      rfl
    rw [hcomps]
    unfold urlunparseF
    dsimp only
    rw [if_neg (by simp : ¬([] : List Char) ≠ [])]
    rw [urlunsplitF_no_frag]
    dsimp only
    rw [if_neg hcondNeg, if_pos hschNe,
      if_neg (by simp : ¬([] : List Char) ≠ [])]
  · rw [if_pos hqE] at hv
    rw [hv]
    have hVassoc : (sch ++ ':' :: pth) ++ '?' :: qry =
        sch ++ ':' :: (pth ++ '?' :: qry) := by
      simp [List.append_assoc, List.cons_append]
    have htk2q : (pth ++ '?' :: qry).take 2 ≠ ['/', '/'] := by
      cases pth with
      | nil => exact absurd rfl hpne
      | cons c1 r1 =>
        cases r1 with
        | nil =>
          intro hcon
          rw [List.singleton_append, List.take_succ_cons, List.take_succ_cons] at hcon
          injection hcon with ha hb
          injection hb with hb hc
          exact absurd hb (by decide)
        | cons c2 r2 =>
          intro hcon
          apply htk2
          rw [List.cons_append, List.cons_append,
            List.take_succ_cons, List.take_succ_cons, List.take_zero] at hcon
          rw [List.take_succ_cons, List.take_succ_cons, List.take_zero]
          exact hcon
    have hh : ∀ c, ((sch ++ ':' :: pth) ++ '?' :: qry).head? = some c →
        isPySpace c = false := by
      intro c hc
      rw [hVassoc, hschEq, List.cons_append] at hc
      injection hc with hc
      subst hc
      exact (alpha_not_space halpha).2
    have hl : ∀ c, ((sch ++ ':' :: pth) ++ '?' :: qry).getLast? = some c →
        isPySpace c = false := by
      intro c hc
      rw [getLast?_append_ne (by simp : ('?' :: qry : List Char) ≠ [])] at hc
      have h2 : (('?' :: qry : List Char)).getLast? = qry.getLast? :=
        @getLast?_append_ne ['?'] qry hqE
      rw [h2] at hc
      exact hqryNoSpace c (getLast?_mem hc)
    have hstrip : stripChars ((sch ++ ':' :: pth) ++ '?' :: qry) =
        (sch ++ ':' :: pth) ++ '?' :: qry :=
      stripChars_eq_self hh hl
    have hchars : ∀ c ∈ sch ++ ':' :: (pth ++ '?' :: qry),
        (!isUnsafeUrlByte c) = true := by
      intro c hc
      simp only [List.mem_append, List.mem_cons] at hc
      have hsafe : isUnsafeUrlByte c = false := by
        rcases hc with hc | hc | hc | hc | hc
        · exact scheme_all_safe hschAll c hc
        · subst hc; decide
        · exact (hpth c hc).2.2.2
        · subst hc; decide
        · exact hqrySafe c hc
      rw [hsafe]; rfl
    have hdrop : (sch ++ ':' :: (pth ++ '?' :: qry)).dropWhile isC0OrSpace =
        sch ++ ':' :: (pth ++ '?' :: qry) := by
      rw [hschEq, List.cons_append]
      exact dropWhile_eq_self_of_head (alpha_not_space halpha).1
    have hnoHash2 : (pth ++ '?' :: qry).contains '#' = false := by
      apply contains_false_of_forall
      intro x hx
      rcases List.mem_append.mp hx with hx | hx
      · exact (hpth x hx).1
      · rcases List.mem_cons.mp hx with rfl | hx
        · decide
        · exact hqryNoHash x hx
    have hsplitV : urlsplitE (sch ++ ':' :: (pth ++ '?' :: qry)) =
        .ok ⟨sch, [], pth, qry, []⟩ := by
      rw [urlsplitE_eq]
      dsimp only
      rw [hdrop, List.filter_eq_self.mpr hchars]
      rw [splitScheme_concrete hschEq halpha hschAll hschLow]
      dsimp only
      rw [netlocSplit_not_dslash htk2q]
      dsimp only
      rw [hbrNil]
      rw [if_neg (by simp)]
      rw [if_neg (by rw [hbkNil]; simp)]
      rw [hashSplit_no_hash hnoHash2]
      dsimp only
      rw [qSplit_append hnoQP]
    have hparseV : urlparseE (sch ++ ':' :: (pth ++ '?' :: qry)) =
        .ok ⟨sch, [], pth, [], qry, []⟩ := by
      unfold urlparseE
      rw [hsplitV]
      dsimp only
      rw [hnoSemiP]
      rw [if_neg (by simp)]
    unfold normalizeUrlE
    dsimp only
    rw [hstrip, hVassoc, hparseV]
    dsimp only
    refine congrArg (fun l : List Char => (Except.ok (⟨l⟩ : String) : Except Unit String)) ?_
    have hq1 : parseQslF qry = pairs := by
      rw [hqEq]; exact parseQsl_urlencode pairs
    have hcomps : normalizeComps ⟨sch, [], pth, [], qry, []⟩ =
        ⟨sch, [], pth, [], qry, []⟩ := by
      unfold normalizeComps
      dsimp only
      rw [hq1, hqFilt, ← hqEq, hschLow, if_neg hschNe, hpathFix]
      rfl
    rw [hcomps]
    unfold urlunparseF
    dsimp only
    rw [if_neg (by simp : ¬([] : List Char) ≠ [])]
    rw [urlunsplitF_no_frag]
    dsimp only
    rw [if_neg hcondNeg, if_pos hschNe, if_pos hqE]
    rw [hVassoc]

theorem normalize_fixed_netloc_any
    (sch nl pth qry : List Char)
    (hsch : ∃ hd tl, sch = hd :: tl ∧ isAsciiAlphaC hd = true)
    (hschAll : sch.all isSchemeChar = true)
    (hschLow : sch.map pyLowerChar = sch)
    (hnl : ∀ c ∈ nl, isNetlocDelim c = false ∧ isUnsafeUrlByte c = false)
    (hnlLow : nl.map pyLowerChar = nl)
    (hbr1 : bracketsProblem nl = false)
    (hbr2 : nl.contains '[' = true → nl.contains ']' = true →
      bracketedHostOk (bracketedHostOf nl) = true)
    (hpth : ∀ c ∈ pth, ¬ c = '#' ∧ ¬ c = '?' ∧ ¬ c = ';' ∧ isUnsafeUrlByte c = false)
    (hpne : pth ≠ [])
    (hfix : rstripSlash pth = pth ∨ pth = ['/'])
    (hlast : ∀ c, pth.getLast? = some c → isPySpace c = false)
    (hcond : nl ≠ [] ∨ (usesNetloc.contains sch = true ∧ pth.take 2 ≠ ['/', '/']))
    (hqry : ∃ pairs : List (String × String), qry = urlencodePairsF pairs ∧
      pairs.filter (fun kv => !isTrackingKey kv.1) = pairs) :
    normalizeUrlE ⟨urlunsplitF sch nl pth qry []⟩ =
      .ok ⟨urlunsplitF sch nl pth qry []⟩ := by
  obtain ⟨hd, tl, hschEq, halpha⟩ := hsch
  have hschNe : sch ≠ [] := by rw [hschEq]; simp
  by_cases hp1 : pth.take 1 = ['/']
  · cases pth with
    | nil => exact absurd rfl hpne
    | cons c1 r1 =>
      rw [List.take_succ_cons, List.take_zero] at hp1
      injection hp1 with hp1a hp1b
      subst hp1a
      refine normalize_fixed_netloc sch nl r1 qry ⟨hd, tl, hschEq, halpha⟩ hschAll hschLow
        hnl hnlLow hbr1 hbr2 (fun c hc => hpth c (List.mem_cons_of_mem _ hc)) ?_ hlast
        hcond hqry
      rcases hfix with hfe | hfe
      · left; exact hfe
      · right
        injection hfe with hfe1 hfe2
  · have hswapCondL : (nl ≠ [] ||
        (sch ≠ [] && usesNetloc.contains sch && pth.take 2 ≠ ['/', '/'])) = true := by
      rcases hcond with h | ⟨h1, h2⟩
      · simp [h]
      · simp only [Bool.or_eq_true, decide_eq_true_eq, Bool.and_eq_true]
        right
        exact ⟨⟨hschNe, h1⟩, h2⟩
    have htk2c : ('/' :: pth).take 2 ≠ ['/', '/'] := by
      intro hcon
      rw [List.take_succ_cons] at hcon
      injection hcon with ha hb
      exact hp1 hb
    have hswapCondR : (nl ≠ [] ||
        (sch ≠ [] && usesNetloc.contains sch && ('/' :: pth).take 2 ≠ ['/', '/'])) = true := by
      rcases hcond with h | ⟨h1, h2⟩
      · simp [h]
      · simp only [Bool.or_eq_true, decide_eq_true_eq, Bool.and_eq_true]
        right
        exact ⟨⟨hschNe, h1⟩, htk2c⟩
    have hinnerL : (pth ≠ [] && pth.take 1 ≠ ['/']) = true := by
      simp only [Bool.and_eq_true, decide_eq_true_eq]
      exact ⟨hpne, hp1⟩
    have hinnerR : ¬ (('/' :: pth : List Char) ≠ [] && ('/' :: pth).take 1 ≠ ['/']) = true := by
      simp
    have hswap : urlunsplitF sch nl pth qry [] = urlunsplitF sch nl ('/' :: pth) qry [] := by
      rw [urlunsplitF_no_frag, urlunsplitF_no_frag]
      dsimp only
      rw [if_pos hswapCondL, if_pos hswapCondR, if_pos hinnerL, if_neg hinnerR]
    rw [hswap]
    have hfe : rstripSlash pth = pth := by
      rcases hfix with hfe | hfe
      · exact hfe
      · exfalso; apply hp1; rw [hfe]; decide
    have hglP : ∃ c, pth.getLast? = some c := by
      cases hgl : pth.getLast? with
      | none => exact absurd (List.getLast?_eq_none_iff.mp hgl) hpne
      | some c => exact ⟨c, rfl⟩
    obtain ⟨cl, hcl⟩ := hglP
    have hslash : (cl == '/') = false :=
      rstripSlash_getLast (by rw [hfe]; exact hcl)
    have hglC : ('/' :: pth).getLast? = pth.getLast? :=
      @getLast?_append_ne ['/'] pth hpne
    refine normalize_fixed_netloc sch nl pth qry ⟨hd, tl, hschEq, halpha⟩ hschAll hschLow
      hnl hnlLow hbr1 hbr2 hpth ?_ ?_ ?_ hqry
    · left
      exact rstripSlash_eq_self (by rw [hglC]; exact hcl) hslash
    · intro c hc
      rw [hglC] at hc
      exact hlast c hc
    · rcases hcond with h | ⟨h1, h2⟩
      · left; exact h
      · right; exact ⟨h1, htk2c⟩

theorem normalizeComps_fixed (p : ParseRes)
    (i1 : p.scheme = [] ∨ ∃ hd tl, p.scheme = pyLowerChar hd :: tl ∧ isAsciiAlphaC hd = true)
    (i2 : p.scheme.all isSchemeChar = true)
    (i3 : p.scheme.map pyLowerChar = p.scheme)
    (i4 : ∀ c ∈ p.netloc, isNetlocDelim c = false ∧ isUnsafeUrlByte c = false)
    (i5 : bracketsProblem p.netloc = false)
    (i6 : p.netloc.contains '[' = true → p.netloc.contains ']' = true →
      bracketedHostOk (bracketedHostOf p.netloc) = true)
    (i7 : ∀ c ∈ p.path, ¬ c = '#' ∧ ¬ c = '?' ∧ isUnsafeUrlByte c = false)
    (hparams : p.params = [])
    (hsemi : p.path.contains ';' = false)
    (hws : (rstripSlash p.path).getLast?.all (fun c => !isPySpace c) = true)
    (hnn : p.netloc = [] → (rstripSlash p.path).take 2 ≠ ['/', '/']) :
    normalizeUrlE ⟨urlunparseF (normalizeComps p)⟩ =
      .ok ⟨urlunparseF (normalizeComps p)⟩ := by
  have hunp : urlunparseF (normalizeComps p) =
      urlunsplitF
        (if p.scheme.map pyLowerChar = [] then "https".data else p.scheme.map pyLowerChar)
        (p.netloc.map pyLowerChar)
        (if rstripSlash p.path = [] then ['/'] else rstripSlash p.path)
        (urlencodePairsF ((parseQslF p.query).filter (fun kv => !isTrackingKey kv.1)))
        [] := by
    unfold urlunparseF normalizeComps
    dsimp only
    rw [hparams]
    rw [if_neg (by simp : ¬([] : List Char) ≠ [])]
  rw [hunp]
  have hschF : ∃ hd tl,
      (if p.scheme.map pyLowerChar = [] then "https".data else p.scheme.map pyLowerChar) =
        hd :: tl ∧ isAsciiAlphaC hd = true := by
    by_cases hs0 : p.scheme.map pyLowerChar = []
    · rw [if_pos hs0]
      exact ⟨'h', "ttps".data, rfl, by decide⟩
    · rw [if_neg hs0]
      rcases i1 with h | ⟨hd, tl, hEq, hA⟩
      · exfalso; apply hs0; rw [h]; rfl
      · rw [i3]
        exact ⟨pyLowerChar hd, tl, hEq, isAsciiAlphaC_lower hA⟩
  have hschAllF :
      (if p.scheme.map pyLowerChar = [] then "https".data
        else p.scheme.map pyLowerChar).all isSchemeChar = true := by
    by_cases hs0 : p.scheme.map pyLowerChar = []
    · rw [if_pos hs0]; decide
    · rw [if_neg hs0, i3]; exact i2
  have hschLowF :
      (if p.scheme.map pyLowerChar = [] then "https".data
        else p.scheme.map pyLowerChar).map pyLowerChar =
      (if p.scheme.map pyLowerChar = [] then "https".data
        else p.scheme.map pyLowerChar) := by
    by_cases hs0 : p.scheme.map pyLowerChar = []
    · rw [if_pos hs0]; decide
    · rw [if_neg hs0]
      exact map_pyLower_idem p.scheme
  have hnlF : ∀ c ∈ p.netloc.map pyLowerChar,
      isNetlocDelim c = false ∧ isUnsafeUrlByte c = false := by
    intro c hc
    rw [List.mem_map] at hc
    obtain ⟨c0, hc0, rfl⟩ := hc
    rw [isNetlocDelim_lower, isUnsafeUrlByte_lower]
    exact i4 c0 hc0
  have hnlLowF : (p.netloc.map pyLowerChar).map pyLowerChar = p.netloc.map pyLowerChar :=
    map_pyLower_idem p.netloc
  have hlb : pyLowerNeutralN '['.toNat := by unfold pyLowerNeutralN; decide
  have hrb : pyLowerNeutralN ']'.toNat := by unfold pyLowerNeutralN; decide
  have hbr1F : bracketsProblem (p.netloc.map pyLowerChar) = false := by
    rw [bracketsProblem_lower]; exact i5
  have hbr2F : (p.netloc.map pyLowerChar).contains '[' = true →
      (p.netloc.map pyLowerChar).contains ']' = true →
      bracketedHostOk (bracketedHostOf (p.netloc.map pyLowerChar)) = true := by
    intro h1 h2
    rw [map_pyLower_contains hlb] at h1
    rw [map_pyLower_contains hrb] at h2
    rw [bracketedHostOf_map]
    exact bracketedHostOk_lower (i6 h1 h2)
  have hqryF : ∃ pairs : List (String × String),
      urlencodePairsF ((parseQslF p.query).filter (fun kv => !isTrackingKey kv.1)) =
        urlencodePairsF pairs ∧
      pairs.filter (fun kv => !isTrackingKey kv.1) = pairs :=
    ⟨(parseQslF p.query).filter (fun kv => !isTrackingKey kv.1), rfl,
      filter_idem _ _⟩
  by_cases hrs : rstripSlash p.path = []
  · rw [if_pos hrs]
    have hpthF : ∀ c ∈ (['/'] : List Char),
        ¬ c = '#' ∧ ¬ c = '?' ∧ ¬ c = ';' ∧ isUnsafeUrlByte c = false := by
      intro c hc
      rcases List.mem_cons.mp hc with rfl | hc
      · exact ⟨by decide, by decide, by decide, by decide⟩
      · cases hc
    have hfixF : rstripSlash (['/'] : List Char) = ['/'] ∨ (['/'] : List Char) = ['/'] :=
      Or.inr rfl
    have hlastF : ∀ c, (['/'] : List Char).getLast? = some c → isPySpace c = false := by
      intro c hc
      injection hc with hc
      subst hc
      decide
    by_cases hnlE : p.netloc = []
    · rw [hnlE, List.map_nil]
      by_cases husn : usesNetloc.contains (if p.scheme.map pyLowerChar = []
          then "https".data else p.scheme.map pyLowerChar) = true
      · refine normalize_fixed_netloc_any _ _ _ _ hschF hschAllF hschLowF
          (fun c hc => absurd hc (List.not_mem_nil c)) rfl (by decide)
          (fun h1 => by cases h1) hpthF (by simp) hfixF hlastF
          (Or.inr ⟨husn, by decide⟩) hqryF
      · have husnF : usesNetloc.contains (if p.scheme.map pyLowerChar = []
            then "https".data else p.scheme.map pyLowerChar) = false := by
          revert husn
          cases usesNetloc.contains (if p.scheme.map pyLowerChar = []
            then "https".data else p.scheme.map pyLowerChar) <;> simp
        exact normalize_fixed_plain _ _ _ hschF hschAllF hschLowF husnF hpthF
          (by simp) hfixF (by decide) hlastF hqryF
    · have hnlNeF : p.netloc.map pyLowerChar ≠ [] :=
        fun hcon => hnlE (List.map_eq_nil_iff.mp hcon)
      exact normalize_fixed_netloc_any _ _ _ _ hschF hschAllF hschLowF hnlF hnlLowF
        hbr1F hbr2F hpthF (by simp) hfixF hlastF (Or.inl hnlNeF) hqryF
  · rw [if_neg hrs]
    have hpthF : ∀ c ∈ rstripSlash p.path,
        ¬ c = '#' ∧ ¬ c = '?' ∧ ¬ c = ';' ∧ isUnsafeUrlByte c = false := by
      intro c hc
      have hmem : c ∈ p.path := (rstripSlash_isPre p.path).sublist.subset hc
      obtain ⟨ha, hb, hcs⟩ := i7 c hmem
      refine ⟨ha, hb, ?_, hcs⟩
      intro hcsemi
      rw [contains_false_iff] at hsemi
      exact hsemi (hcsemi ▸ hmem)
    have hfixF : rstripSlash (rstripSlash p.path) = rstripSlash p.path ∨
        rstripSlash p.path = ['/'] :=
      Or.inl (rstripSlash_idem p.path)
    have hlastF : ∀ c, (rstripSlash p.path).getLast? = some c → isPySpace c = false := by
      intro c hc
      rw [hc] at hws
      simpa using hws
    by_cases hnlE : p.netloc = []
    · rw [hnlE, List.map_nil]
      by_cases husn : usesNetloc.contains (if p.scheme.map pyLowerChar = []
          then "https".data else p.scheme.map pyLowerChar) = true
      · refine normalize_fixed_netloc_any _ _ _ _ hschF hschAllF hschLowF
          (fun c hc => absurd hc (List.not_mem_nil c)) rfl (by decide)
          (fun h1 => by cases h1) hpthF hrs hfixF hlastF
          (Or.inr ⟨husn, hnn hnlE⟩) hqryF
      · have husnF : usesNetloc.contains (if p.scheme.map pyLowerChar = []
            then "https".data else p.scheme.map pyLowerChar) = false := by
          revert husn
          cases usesNetloc.contains (if p.scheme.map pyLowerChar = []
            then "https".data else p.scheme.map pyLowerChar) <;> simp
        exact normalize_fixed_plain _ _ _ hschF hschAllF hschLowF husnF hpthF
          hrs hfixF (hnn hnlE) hlastF hqryF
    · have hnlNeF : p.netloc.map pyLowerChar ≠ [] :=
        fun hcon => hnlE (List.map_eq_nil_iff.mp hcon)
      exact normalize_fixed_netloc_any _ _ _ _ hschF hschAllF hschLowF hnlF hnlLowF
        hbr1F hbr2F hpthF hrs hfixF hlastF (Or.inl hnlNeF) hqryF

/-- C5 (counterexample): `normalize_url` is not idempotent on every URL.  For
`"http://ex.com/a;/"` the first pass strips the trailing slash, leaving a path
ending in `;`, whose empty parameter segment is dropped by the second pass:
normalizing once gives `"http://ex.com/a;"`, normalizing again gives
`"http://ex.com/a"`, which differs. -/
theorem C5_idempotence_counterexample :
    normalizeUrlE "http://ex.com/a;/" = .ok "http://ex.com/a;" ∧
    normalizeUrlE "http://ex.com/a;" = .ok "http://ex.com/a" ∧
    ("http://ex.com/a;" : String) ≠ "http://ex.com/a" :=
  ⟨rfl, rfl, by decide⟩

/-- C5 (amended): URL normalization applies the documented rules - lower-cased
scheme defaulting to `https`, lower-cased host, trailing slash stripped from
the path with the root path becoming `/`, tracking parameters dropped from the
query case-insensitively with all other parameters kept, fragment dropped -
and, being a pure function of its input, it is deterministic.  It is idempotent
for every URL whose parse satisfies three provisos: the parsed path carries no
`;` (no parameter segment), the right-slash-stripped path does not end in a
Python-strippable whitespace character, and an absent netloc does not coincide
with a path starting in `//`.  The quoted example normalizes as specified:
`utm_source` is dropped, `id=5` is kept, and the host is lower-cased. -/
theorem C5_normalize_url_amended (u : String) (p : ParseRes)
    (hp : urlparseE (stripChars u.data) = .ok p)
    (hparams : p.params = [])
    (hsemi : p.path.contains ';' = false)
    (hws : (rstripSlash p.path).getLast?.all (fun c => !isPySpace c) = true)
    (hnn : p.netloc = [] → (rstripSlash p.path).take 2 ≠ ['/', '/']) :
    normalizeComps p =
      { scheme := if p.scheme.map pyLowerChar = [] then "https".data
          else p.scheme.map pyLowerChar,
        netloc := p.netloc.map pyLowerChar,
        path := if rstripSlash p.path = [] then ['/'] else rstripSlash p.path,
        params := p.params,
        query := urlencodePairsF ((parseQslF p.query).filter
          (fun kv => !isTrackingKey kv.1)),
        fragment := [] } ∧
    normalizeUrlE u = .ok ⟨urlunparseF (normalizeComps p)⟩ ∧
    normalizeUrlE ⟨urlunparseF (normalizeComps p)⟩ =
      .ok ⟨urlunparseF (normalizeComps p)⟩ ∧
    normalizeUrlE "https://EX.com/r/?utm_source=x&id=5" = .ok "https://ex.com/r?id=5" := by
  obtain ⟨i1, i2, i3, i4, i5, i6, i7⟩ := urlparseE_ok_inv hp
  refine ⟨rfl, ?_, ?_, by rfl⟩
  · unfold normalizeUrlE
    rw [hp]
  · exact normalizeComps_fixed p i1 i2 i3 i4 i5 i6 i7 hparams hsemi hws hnn

/-- C5 witness: the amended theorem applied to the specification's example URL
gives both the documented normalization and its idempotence. -/
theorem C5_normalize_url_amended_witness :
    normalizeUrlE "https://EX.com/r/?utm_source=x&id=5" = .ok "https://ex.com/r?id=5" ∧
    normalizeUrlE "https://ex.com/r?id=5" = .ok "https://ex.com/r?id=5" := by
  obtain ⟨h1, h2, h3, h4⟩ := C5_normalize_url_amended "https://EX.com/r/?utm_source=x&id=5"
    ⟨"https".data, "EX.com".data, "/r/".data, [], "utm_source=x&id=5".data, []⟩
    (by rfl) rfl (by rfl) (by decide) (by decide)
  refine ⟨h4, ?_⟩
  have he : (⟨urlunparseF (normalizeComps ⟨"https".data, "EX.com".data, "/r/".data, [],
      "utm_source=x&id=5".data, []⟩)⟩ : String) = "https://ex.com/r?id=5" := by rfl
  rw [he] at h3
  exact h3
